import Mathlib

/-  Verification of the csp-crawler crawl engine (scripts/crawler.js).
    The URL normalizer, the per-request interception listener and the
    concurrent worker loop (crawlSite / processQueue) are embedded as
    executable Lean definitions.  JavaScript is single-threaded, so the
    cooperative concurrency of the worker pool is modelled as a
    small-step system whose atomic steps correspond exactly to the
    synchronous code segments between `await` points of the source. -/

namespace Crawler

/-! ### Character-list ordering

`URLSearchParams.sort()` sorts name/value pairs by code-unit comparison
of the names, stably.  `leChs` is that comparison on `List Char`. -/

def leChs : List Char → List Char → Bool
  | [], _ => true
  | _ :: _, [] => false
  | a :: as, b :: bs => if a < b then true else if b < a then false else leChs as bs

theorem leChs_refl (l : List Char) : leChs l l = true := by
  induction l with
  | nil => rfl
  | cons a as ih => simp [leChs, lt_irrefl, ih]

theorem leChs_total (x y : List Char) : leChs x y = true ∨ leChs y x = true := by
  induction x generalizing y with
  | nil => left; rfl
  | cons a as ih =>
    cases y with
    | nil => right; rfl
    | cons b bs =>
      rcases lt_trichotomy a b with h | h | h
      · left; simp [leChs, h]
      · subst h
        rcases ih bs with h2 | h2
        · left; simpa [leChs, lt_irrefl] using h2
        · right; simpa [leChs, lt_irrefl] using h2
      · right; simp [leChs, h]

theorem leChs_trans : ∀ {x y z : List Char},
    leChs x y = true → leChs y z = true → leChs x z = true := by
  intro x
  induction x with
  | nil => intro y z h1 h2; rfl
  | cons a as ih =>
    intro y z h1 h2
    cases y with
    | nil => simp [leChs] at h1
    | cons b bs =>
      cases z with
      | nil => simp [leChs] at h2
      | cons c cs =>
        simp only [leChs] at h1 h2 ⊢
        by_cases hab : a < b
        · by_cases hbc : b < c
          · simp [lt_trans hab hbc]
          · by_cases hcb : c < b
            · simp [if_neg hbc, hcb] at h2
            · have hbc2 : b = c := le_antisymm (not_lt.mp hcb) (not_lt.mp hbc)
              subst hbc2
              simp [hab]
        · by_cases hba : b < a
          · simp [if_neg hab, hba] at h1
          · have hab2 : a = b := le_antisymm (not_lt.mp hba) (not_lt.mp hab)
            subst hab2
            simp only [if_neg hab, if_neg hba] at h1
            by_cases hac : a < c
            · simp [hac]
            · by_cases hca : c < a
              · simp [if_neg hac, hca] at h2
              · simp only [if_neg hac, if_neg hca] at h2 ⊢
                exact ih h1 h2

theorem leChs_antisymm : ∀ {x y : List Char},
    leChs x y = true → leChs y x = true → x = y := by
  intro x
  induction x with
  | nil =>
    intro y h1 h2
    cases y with
    | nil => rfl
    | cons b bs => simp [leChs] at h2
  | cons a as ih =>
    intro y h1 h2
    cases y with
    | nil => simp [leChs] at h1
    | cons b bs =>
      simp only [leChs] at h1 h2
      by_cases hab : a < b
      · simp [lt_asymm hab, hab] at h2
      · by_cases hba : b < a
        · simp [if_neg hab, hba] at h1
        · have hab2 : a = b := le_antisymm (not_lt.mp hba) (not_lt.mp hab)
          subst hab2
          simp only [if_neg hab, if_neg hba] at h1 h2
          rw [ih h1 h2]

/-- The sorting relation of `url.searchParams.sort()`: compare pairs by name. -/
def keyRel (a b : List Char × List Char) : Prop := leChs a.1 b.1 = true

instance : DecidableRel keyRel := fun a b => Bool.decEq (leChs a.1 b.1) true

instance : IsTotal (List Char × List Char) keyRel :=
  ⟨fun a b => leChs_total a.1 b.1⟩

instance : IsTrans (List Char × List Char) keyRel :=
  ⟨fun _ _ _ h1 h2 => leChs_trans h1 h2⟩

/-- `url.searchParams.sort()`: stable sort of the name/value pairs by name.
Insertion sort is stable, matching the WHATWG requirement that pairs with
equal names keep their relative order. -/
def sortParams (ps : List (List Char × List Char)) : List (List Char × List Char) :=
  List.insertionSort keyRel ps

/-! ### Splitting and joining the query string -/

/-- Split a character list on `&`, as the `URLSearchParams` constructor does. -/
def splitAmp : List Char → List (List Char)
  | [] => [[]]
  | c :: t =>
    if c = '&' then [] :: splitAmp t
    else
      match splitAmp t with
      | [] => [[c]]
      | p :: ps => (c :: p) :: ps

/-- Join pieces with `&`, as `URLSearchParams` serialization does. -/
def joinPieces : List (List Char) → List Char
  | [] => []
  | [p] => p
  | p :: ps => p ++ '&' :: joinPieces ps

theorem splitAmp_ne_nil (l : List Char) : splitAmp l ≠ [] := by
  cases l with
  | nil => simp [splitAmp]
  | cons c t =>
    by_cases h : c = '&'
    · simp [splitAmp, h]
    · simp only [splitAmp, if_neg h]
      cases splitAmp t <;> simp

theorem splitAmp_no_amp (l : List Char) : ∀ piece ∈ splitAmp l, '&' ∉ piece := by
  induction l with
  | nil => intro piece hp; simp [splitAmp] at hp; simp [hp]
  | cons c t ih =>
    intro piece hp
    by_cases h : c = '&'
    · simp only [splitAmp, if_pos h, List.mem_cons] at hp
      rcases hp with rfl | hp
      · simp
      · exact ih piece hp
    · simp only [splitAmp, if_neg h] at hp
      rcases hq : splitAmp t with _ | ⟨p, ps⟩
      · exact absurd hq (splitAmp_ne_nil t)
      · rw [hq] at hp
        simp only [List.mem_cons] at hp
        rcases hp with rfl | hp
        · intro hmem
          rcases List.mem_cons.mp hmem with rfl | hmem2
          · exact h rfl
          · exact ih p (by rw [hq]; exact List.mem_cons_self p ps) hmem2
        · exact ih piece (by rw [hq]; exact List.mem_cons_of_mem p hp)

theorem splitAmp_subset (l : List Char) :
    ∀ piece ∈ splitAmp l, ∀ c ∈ piece, c ∈ l := by
  induction l with
  | nil => intro piece hp; simp [splitAmp] at hp; simp [hp]
  | cons a t ih =>
    intro piece hp c hc
    by_cases h : a = '&'
    · simp only [splitAmp, if_pos h, List.mem_cons] at hp
      rcases hp with rfl | hp
      · simp at hc
      · exact List.mem_cons_of_mem a (ih piece hp c hc)
    · simp only [splitAmp, if_neg h] at hp
      rcases hq : splitAmp t with _ | ⟨p, ps⟩
      · exact absurd hq (splitAmp_ne_nil t)
      · rw [hq] at hp
        simp only [List.mem_cons] at hp
        rcases hp with rfl | hp
        · rcases List.mem_cons.mp hc with rfl | hc2
          · exact List.mem_cons_self c t
          · exact List.mem_cons_of_mem a
              (ih p (by rw [hq]; exact List.mem_cons_self p ps) c hc2)
        · exact List.mem_cons_of_mem a
            (ih piece (by rw [hq]; exact List.mem_cons_of_mem p hp) c hc)

theorem splitAmp_single {p : List Char} (h : '&' ∉ p) : splitAmp p = [p] := by
  induction p with
  | nil => rfl
  | cons c t ih =>
    have hc : ¬c = '&' := fun hc => h (hc ▸ List.mem_cons_self c t)
    have ht : '&' ∉ t := fun hm => h (List.mem_cons_of_mem c hm)
    simp [splitAmp, if_neg hc, ih ht]

theorem splitAmp_append {p : List Char} (h : '&' ∉ p) (r : List Char) :
    splitAmp (p ++ '&' :: r) = p :: splitAmp r := by
  induction p with
  | nil => simp [splitAmp]
  | cons c t ih =>
    have hc : ¬c = '&' := fun hc => h (hc ▸ List.mem_cons_self c t)
    have ht : '&' ∉ t := fun hm => h (List.mem_cons_of_mem c hm)
    simp [splitAmp, if_neg hc, ih ht]

theorem splitAmp_joinPieces : ∀ (ps : List (List Char)), ps ≠ [] →
    (∀ p ∈ ps, '&' ∉ p) → splitAmp (joinPieces ps) = ps := by
  intro ps
  induction ps with
  | nil => intro h; exact absurd rfl h
  | cons p ps ih =>
    intro _ hamp
    cases ps with
    | nil => exact splitAmp_single (hamp p (List.mem_cons_self p []))
    | cons q qs =>
      have h1 : '&' ∉ p := hamp p (List.mem_cons_self p (q :: qs))
      show splitAmp (p ++ '&' :: joinPieces (q :: qs)) = p :: (q :: qs)
      rw [splitAmp_append h1]
      rw [ih (by simp) (fun x hx => hamp x (List.mem_cons_of_mem p hx))]

/-! ### takeWhile / dropWhile across append -/

theorem takeWhile_append_all {α : Type} {p : α → Bool} {xs ys : List α}
    (h : ∀ x ∈ xs, p x = true) :
    (xs ++ ys).takeWhile p = xs ++ ys.takeWhile p := by
  induction xs with
  | nil => simp
  | cons a t ih =>
    have ha : p a = true := h a (List.mem_cons_self a t)
    simp [List.takeWhile, ha, ih fun x hx => h x (List.mem_cons_of_mem a hx)]

theorem dropWhile_append_all {α : Type} {p : α → Bool} {xs ys : List α}
    (h : ∀ x ∈ xs, p x = true) :
    (xs ++ ys).dropWhile p = ys.dropWhile p := by
  induction xs with
  | nil => simp
  | cons a t ih =>
    have ha : p a = true := h a (List.mem_cons_self a t)
    simp [List.dropWhile, ha, ih fun x hx => h x (List.mem_cons_of_mem a hx)]

theorem mem_of_mem_takeWhile {α : Type} {p : α → Bool} {l : List α} {x : α}
    (h : x ∈ l.takeWhile p) : p x = true := by
  induction l with
  | nil => simp [List.takeWhile] at h
  | cons a t ih =>
    rw [List.takeWhile] at h
    cases hp : p a with
    | false => rw [hp] at h; simp at h
    | true =>
      rw [hp] at h
      rcases List.mem_cons.mp h with rfl | h2
      · exact hp
      · exact ih h2

/-! ### The URL data model

`normalizeUrl` in the source works through the WHATWG `URL` class.  The
embedding models an `http(s)` URL record by its components as the class
exposes them: scheme, host (including any port text), pathname, the
search-parameter list, and the fragment. -/

structure PUrl where
  secure : Bool
  host : List Char
  path : List Char
  params : List (List Char × List Char)
  frag : List Char
deriving DecidableEq, Repr

def schemeChs (b : Bool) : List Char :=
  if b then 'h' :: 't' :: 't' :: 'p' :: 's' :: ':' :: '/' :: '/' :: []
  else 'h' :: 't' :: 't' :: 'p' :: ':' :: '/' :: '/' :: []

def parseScheme : List Char → Option (Bool × List Char)
  | 'h' :: 't' :: 't' :: 'p' :: 's' :: ':' :: '/' :: '/' :: r => some (true, r)
  | 'h' :: 't' :: 't' :: 'p' :: ':' :: '/' :: '/' :: r => some (false, r)
  | _ => none

def notHostEnd (c : Char) : Bool := !(c == '/' || c == '?' || c == '#')

def notQF (c : Char) : Bool := !(c == '?' || c == '#')

def notHash (c : Char) : Bool := !(c == '#')

def notEq (c : Char) : Bool := !(c == '=')

/-- Split host-relative text into pathname and the rest; an absent path
serializes as `/`, as the `URL` class does for special schemes. -/
def splitPath (rest2 : List Char) : List Char × List Char :=
  match rest2 with
  | c :: _ =>
    if c = '/' then (rest2.takeWhile notQF, rest2.dropWhile notQF)
    else (['/'], rest2)
  | [] => (['/'], [])

def fragOf : List Char → List Char
  | '#' :: f => f
  | _ => []

/-- Split `?query#frag` text into query text and fragment text. -/
def splitQF (rest3 : List Char) : List Char × List Char :=
  match rest3 with
  | c :: t =>
    if c = '?' then (t.takeWhile notHash, fragOf (t.dropWhile notHash))
    else if c = '#' then ([], t)
    else ([], [])
  | [] => ([], [])

def valOf : List Char → List Char
  | '=' :: v => v
  | _ => []

def pieceToKV (piece : List Char) : Option (List Char × List Char) :=
  if piece = [] then none
  else some (piece.takeWhile notEq, valOf (piece.dropWhile notEq))

/-- Query parsing of the `URLSearchParams` constructor: split on `&`,
skip empty pieces, split each piece at the first `=`. -/
def parseParams (q : List Char) : List (List Char × List Char) :=
  (splitAmp q).filterMap pieceToKV

/-- Parsing of the host-relative remainder of an absolute `http(s)` URL:
host text runs to the first `/`, `?` or `#` and must be nonempty. -/
def parseRest (b : Bool) (rest : List Char) : Option PUrl :=
  if rest.takeWhile notHostEnd = [] then none
  else
    some ⟨b, rest.takeWhile notHostEnd,
      (splitPath (rest.dropWhile notHostEnd)).1,
      parseParams (splitQF (splitPath (rest.dropWhile notHostEnd)).2).1,
      (splitQF (splitPath (rest.dropWhile notHostEnd)).2).2⟩

/-- `new URL(urlString)` restricted to absolute `http(s)` URLs, the scheme
family the crawler operates on.  Inputs outside this family are treated as
parse failures (the source's `catch` path returns the input unchanged). -/
def parse (l : List Char) : Option PUrl :=
  match parseScheme l with
  | none => none
  | some (b, rest) => parseRest b rest

def serQuery (ps : List (List Char × List Char)) : List Char :=
  joinPieces (ps.map fun kv => kv.1 ++ '=' :: kv.2)

/-- `url.toString()`: serialize the URL record.  The `?` appears only when
the parameter list is nonempty and the `#` only when a fragment is present,
matching the `URL` serializer after `searchParams` mutation. -/
def ser (p : PUrl) : List Char :=
  schemeChs p.secure ++ p.host ++ p.path ++
    (if p.params = [] then [] else '?' :: serQuery p.params) ++
    (if p.frag = [] then [] else '#' :: p.frag)

/-- The tracking query parameters removed by `normalizeUrl`
(crawler.js line 359). -/
def trackingParams : List (List Char) :=
  ["utm_source", "utm_medium", "utm_campaign", "utm_term",
   "utm_content", "ref", "fbclid", "gclid"].map String.data

/-- Strip one trailing slash from a pathname of length > 1
(crawler.js lines 366-368). -/
def stripSlash (path : List Char) : List Char :=
  if path.length > 1 ∧ path.getLast? = some '/' then path.dropLast else path

/-- The mutation sequence of `normalizeUrl` on a parsed URL record:
strip one trailing slash, delete the tracking parameters, stable-sort the
remaining parameters by name, clear the fragment (crawler.js 361-380). -/
def normCore (p : PUrl) : PUrl :=
  { p with
    path := stripSlash p.path
    params := sortParams (p.params.filter fun kv => decide (kv.1 ∉ trackingParams))
    frag := [] }

/-- `normalizeUrl(urlString)` (crawler.js lines 361-384): parse, apply the
mutations, serialize; on parse failure return the input unchanged. -/
def normalizeUrl (s : String) : String :=
  match parse s.data with
  | some p => String.mk (ser (normCore p))
  | none => s

/-- `new URL(s).origin`: scheme plus `://` plus host text. -/
def originOf (p : PUrl) : List Char := schemeChs p.secure ++ p.host

def urlOrigin (s : String) : Option String :=
  (parse s.data).map fun p => String.mk (originOf p)

/-! ### Well-formedness of parsed URLs and the parse/serialize round trip -/

theorem takeWhile_all {α : Type} {p : α → Bool} {l : List α}
    (h : ∀ x ∈ l, p x = true) : l.takeWhile p = l := by
  induction l with
  | nil => rfl
  | cons a t ih =>
    simp [List.takeWhile, h a (List.mem_cons_self a t),
      ih fun x hx => h x (List.mem_cons_of_mem a hx)]

theorem dropWhile_all {α : Type} {p : α → Bool} {l : List α}
    (h : ∀ x ∈ l, p x = true) : l.dropWhile p = [] := by
  induction l with
  | nil => rfl
  | cons a t ih =>
    simp [List.dropWhile, h a (List.mem_cons_self a t),
      ih fun x hx => h x (List.mem_cons_of_mem a hx)]

theorem mem_joinPieces {c : Char} : ∀ {ps : List (List Char)},
    c ∈ joinPieces ps → c = '&' ∨ ∃ piece ∈ ps, c ∈ piece := by
  intro ps
  induction ps with
  | nil => intro h; simp [joinPieces] at h
  | cons p ps ih =>
    intro h
    cases ps with
    | nil =>
      right
      exact ⟨p, List.mem_cons_self p [], h⟩
    | cons q qs =>
      rw [show joinPieces (p :: q :: qs) = p ++ '&' :: joinPieces (q :: qs) from rfl] at h
      rcases List.mem_append.mp h with h1 | h1
      · right; exact ⟨p, List.mem_cons_self p _, h1⟩
      · rcases List.mem_cons.mp h1 with rfl | h2
        · left; rfl
        · rcases ih h2 with h3 | ⟨piece, hp, hc⟩
          · left; exact h3
          · right; exact ⟨piece, List.mem_cons_of_mem p hp, hc⟩

/-- The invariant that every `parse` result satisfies: component texts are
free of the delimiters that bound them in the serialization. -/
structure WF (p : PUrl) : Prop where
  host_ne : p.host ≠ []
  host_ok : ∀ c ∈ p.host, notHostEnd c = true
  path_head : ∃ t, p.path = '/' :: t
  path_ok : ∀ c ∈ p.path, notQF c = true
  key_eq : ∀ kv ∈ p.params, ∀ c ∈ kv.1, notEq c = true
  key_ok : ∀ kv ∈ p.params, ∀ c ∈ kv.1, c ≠ '&' ∧ c ≠ '#'
  val_ok : ∀ kv ∈ p.params, ∀ c ∈ kv.2, c ≠ '&' ∧ c ≠ '#'


theorem splitPath_of_head {l : List Char} (hp : ∃ t, l = '/' :: t) :
    splitPath l = (l.takeWhile notQF, l.dropWhile notQF) := by
  obtain ⟨t, rfl⟩ := hp
  simp [splitPath]

theorem splitPath_head (r2 : List Char) : ∃ t, (splitPath r2).1 = '/' :: t := by
  rcases r2 with _ | ⟨c, r⟩
  · exact ⟨[], rfl⟩
  · by_cases hc : c = '/'
    · subst hc
      refine ⟨r.takeWhile notQF, ?_⟩
      simp [splitPath, List.takeWhile_cons, show notQF '/' = true from rfl]
    · exact ⟨[], by simp [splitPath, if_neg hc]⟩

theorem splitPath_ok (r2 : List Char) : ∀ c ∈ (splitPath r2).1, notQF c = true := by
  rcases r2 with _ | ⟨c, r⟩
  · intro c hc
    simp [splitPath] at hc
    subst hc
    rfl
  · by_cases hc : c = '/'
    · subst hc
      simp only [splitPath, if_pos rfl]
      intro x hx
      exact mem_of_mem_takeWhile hx
    · simp only [splitPath, if_neg hc]
      intro x hx
      simp at hx
      subst hx
      rfl

theorem splitQF_no_hash (r3 : List Char) : ∀ c ∈ (splitQF r3).1, c ≠ '#' := by
  rcases r3 with _ | ⟨c, t⟩
  · intro c hc; simp [splitQF] at hc
  · by_cases hq : c = '?'
    · subst hq
      simp only [splitQF, if_pos rfl]
      intro x hx
      have := mem_of_mem_takeWhile hx
      simp [notHash] at this
      exact this
    · by_cases hh : c = '#'
      · subst hh
        simp [splitQF]
      · simp [splitQF, if_neg hq, if_neg hh]

theorem parseParams_wf {q : List Char} (hq : ∀ c ∈ q, c ≠ '#') :
    ∀ kv ∈ parseParams q,
      (∀ c ∈ kv.1, notEq c = true) ∧
      (∀ c ∈ kv.1, c ≠ '&' ∧ c ≠ '#') ∧
      (∀ c ∈ kv.2, c ≠ '&' ∧ c ≠ '#') := by
  intro kv hkv
  rcases List.mem_filterMap.mp hkv with ⟨piece, hpiece, hkv2⟩
  unfold pieceToKV at hkv2
  by_cases hne : piece = []
  · rw [if_pos hne] at hkv2; simp at hkv2
  · rw [if_neg hne] at hkv2
    injection hkv2 with hkv3
    have hamp : '&' ∉ piece := splitAmp_no_amp q piece hpiece
    have hsub : ∀ c ∈ piece, c ∈ q := splitAmp_subset q piece hpiece
    have hpc : ∀ c ∈ piece, c ≠ '&' ∧ c ≠ '#' := by
      intro c hc
      exact ⟨fun he => hamp (he ▸ hc), hq c (hsub c hc)⟩
    subst hkv3
    refine ⟨?_, ?_, ?_⟩
    · intro c hc
      exact mem_of_mem_takeWhile hc
    · intro c hc
      exact hpc c ((piece.takeWhile_sublist notEq).subset hc)
    · intro c hc
      unfold valOf at hc
      split at hc
      · rename_i v heq
        refine hpc c ((piece.dropWhile_sublist notEq).subset ?_)
        rw [heq]
        exact List.mem_cons_of_mem _ hc
      · simp at hc

theorem parse_scheme_some {l : List Char} {b : Bool} {rest : List Char}
    (h : parseScheme l = some (b, rest)) : parse l = parseRest b rest := by
  unfold parse
  rw [h]

theorem parse_wf {l : List Char} {p : PUrl} (h : parse l = some p) : WF p := by
  rcases hps : parseScheme l with _ | br
  · unfold parse at h
    rw [hps] at h
    simp at h
  · rcases br with ⟨b, rest⟩
    rw [parse_scheme_some hps] at h
    unfold parseRest at h
    by_cases hh : rest.takeWhile notHostEnd = []
    · rw [if_pos hh] at h; simp at h
    · rw [if_neg hh] at h
      injection h with h2
      subst h2
      exact ⟨hh, fun c hc => mem_of_mem_takeWhile hc, splitPath_head _, splitPath_ok _,
        fun kv hkv => (parseParams_wf (splitQF_no_hash _) kv hkv).1,
        fun kv hkv => (parseParams_wf (splitQF_no_hash _) kv hkv).2.1,
        fun kv hkv => (parseParams_wf (splitQF_no_hash _) kv hkv).2.2⟩

theorem parseScheme_ser (b : Bool) (r : List Char) :
    parseScheme (schemeChs b ++ r) = some (b, r) := by
  cases b <;> rfl

theorem filterMap_pieceToKV : ∀ {params : List (List Char × List Char)},
    (∀ kv ∈ params, ∀ c ∈ kv.1, notEq c = true) →
    (params.map fun kv => kv.1 ++ '=' :: kv.2).filterMap pieceToKV = params := by
  intro params
  induction params with
  | nil => intro _; rfl
  | cons kv kvs ih =>
    intro hkeys
    simp only [List.map_cons, List.filterMap_cons]
    have h1 : pieceToKV (kv.1 ++ '=' :: kv.2) = some kv := by
      unfold pieceToKV
      rw [if_neg (by simp)]
      rw [takeWhile_append_all (hkeys kv (List.mem_cons_self kv kvs)),
          dropWhile_append_all (hkeys kv (List.mem_cons_self kv kvs))]
      simp [List.takeWhile_cons, List.dropWhile_cons, notEq, valOf]
    rw [h1, ih fun x hx => hkeys x (List.mem_cons_of_mem kv hx)]

/-- Parsing inverts serialization on well-formed, fragment-free URL records:
the key step of the idempotence analysis for `normalizeUrl`. -/
theorem parse_ser {p : PUrl} (h : WF p) (hf : p.frag = []) :
    parse (ser p) = some p := by
  obtain ⟨t, hpath⟩ := h.path_head
  have hslash : notHostEnd '/' = false := rfl
  by_cases hp : p.params = []
  · have hser : ser p = schemeChs p.secure ++ (p.host ++ p.path) := by
      unfold ser
      rw [hf, hp]
      simp [List.append_assoc]
    rw [hser, parse_scheme_some (parseScheme_ser _ _)]
    unfold parseRest
    have htake : (p.host ++ p.path).takeWhile notHostEnd = p.host := by
      rw [takeWhile_append_all h.host_ok, hpath]
      simp [List.takeWhile_cons, hslash]
    have hdrop : (p.host ++ p.path).dropWhile notHostEnd = p.path := by
      rw [dropWhile_append_all h.host_ok, hpath]
      simp [List.dropWhile_cons, hslash]
    rw [htake, hdrop, if_neg h.host_ne, splitPath_of_head ⟨t, hpath⟩]
    rw [takeWhile_all h.path_ok, dropWhile_all h.path_ok]
    rw [show splitQF [] = ([], []) from rfl]
    rw [show parseParams [] = [] from rfl, ← hp, ← hf]
  · have hser : ser p
        = schemeChs p.secure ++ (p.host ++ (p.path ++ '?' :: serQuery p.params)) := by
      unfold ser
      rw [hf, if_neg hp]
      simp [List.append_assoc]
    rw [hser, parse_scheme_some (parseScheme_ser _ _)]
    unfold parseRest
    have hqf : notHostEnd '?' = false := rfl
    have htake : (p.host ++ (p.path ++ '?' :: serQuery p.params)).takeWhile notHostEnd
        = p.host := by
      rw [takeWhile_append_all h.host_ok, hpath]
      simp [List.takeWhile_cons, hslash]
    have hdrop : (p.host ++ (p.path ++ '?' :: serQuery p.params)).dropWhile notHostEnd
        = p.path ++ '?' :: serQuery p.params := by
      rw [dropWhile_append_all h.host_ok, hpath]
      simp [List.dropWhile_cons, hslash]
    rw [htake, hdrop, if_neg h.host_ne]
    rw [splitPath_of_head ⟨t ++ '?' :: serQuery p.params, by rw [hpath]; rfl⟩]
    have htake2 : (p.path ++ '?' :: serQuery p.params).takeWhile notQF = p.path := by
      rw [takeWhile_append_all h.path_ok]
      simp [List.takeWhile_cons, show notQF '?' = false from rfl]
    have hdrop2 : (p.path ++ '?' :: serQuery p.params).dropWhile notQF
        = '?' :: serQuery p.params := by
      rw [dropWhile_append_all h.path_ok]
      simp [List.dropWhile_cons, show notQF '?' = false from rfl]
    rw [htake2, hdrop2]
    rw [show splitQF ('?' :: serQuery p.params)
        = ((serQuery p.params).takeWhile notHash,
           fragOf ((serQuery p.params).dropWhile notHash)) by simp [splitQF]]
    have hserq : ∀ c ∈ serQuery p.params, notHash c = true := by
      intro c hc
      unfold serQuery at hc
      rcases mem_joinPieces hc with rfl | ⟨piece, hpm, hcp⟩
      · rfl
      · rcases List.mem_map.mp hpm with ⟨kv, hkv, hkveq⟩
        subst hkveq
        rcases List.mem_append.mp hcp with h1 | h1
        · have := (h.key_ok kv hkv c h1).2
          simp [notHash, this]
        · rcases List.mem_cons.mp h1 with rfl | h2
          · rfl
          · have := (h.val_ok kv hkv c h2).2
            simp [notHash, this]
    rw [takeWhile_all hserq, dropWhile_all hserq]
    have hq : parseParams (serQuery p.params) = p.params := by
      unfold parseParams serQuery
      rw [splitAmp_joinPieces _ (by simp [hp]) ?hamp]
      case hamp =>
        intro piece hpm
        rcases List.mem_map.mp hpm with ⟨kv, hkv, hkveq⟩
        subst hkveq
        intro hmem
        rcases List.mem_append.mp hmem with h1 | h1
        · exact (h.key_ok kv hkv '&' h1).1 rfl
        · rcases List.mem_cons.mp h1 with h2 | h2
          · exact absurd h2.symm (by decide)
          · exact (h.val_ok kv hkv '&' h2).1 rfl
      exact filterMap_pieceToKV h.key_eq
    rw [hq, show fragOf [] = [] from rfl, ← hf]

/-! ### Idempotence and equivalence facts about normalizeUrl -/

theorem mem_stripSlash {path : List Char} {c : Char} (h : c ∈ stripSlash path) :
    c ∈ path := by
  unfold stripSlash at h
  split at h
  · exact (List.dropLast_sublist path).subset h
  · exact h

theorem stripSlash_head {path : List Char} {t : List Char} (h : path = '/' :: t) :
    ∃ u, stripSlash path = '/' :: u := by
  subst h
  unfold stripSlash
  split
  · rename_i hcond
    rcases t with _ | ⟨b, r⟩
    · simp at hcond
    · exact ⟨(b :: r).dropLast, by simp [List.dropLast]⟩
  · exact ⟨t, rfl⟩

theorem normCore_wf {p : PUrl} (h : WF p) : WF (normCore p) := by
  obtain ⟨t, hpath⟩ := h.path_head
  have hmem : ∀ kv ∈ (normCore p).params, kv ∈ p.params := by
    intro kv hkv
    have h1 : kv ∈ p.params.filter fun kv => decide (kv.1 ∉ trackingParams) := by
      simpa [normCore, sortParams] using hkv
    exact List.mem_of_mem_filter h1
  exact
    { host_ne := h.host_ne
      host_ok := h.host_ok
      path_head := stripSlash_head hpath
      path_ok := fun c hc => h.path_ok c (mem_stripSlash hc)
      key_eq := fun kv hkv => h.key_eq kv (hmem kv hkv)
      key_ok := fun kv hkv => h.key_ok kv (hmem kv hkv)
      val_ok := fun kv hkv => h.val_ok kv (hmem kv hkv) }

theorem sortParams_sortParams (m : List (List Char × List Char)) :
    sortParams (sortParams m) = sortParams m :=
  List.Sorted.insertionSort_eq (List.sorted_insertionSort keyRel m)

theorem normCore_idem {p : PUrl}
    (hpath : stripSlash (stripSlash p.path) = stripSlash p.path) :
    normCore (normCore p) = normCore p := by
  have h1 : (sortParams (p.params.filter fun kv => decide (kv.1 ∉ trackingParams))).filter
      (fun kv => decide (kv.1 ∉ trackingParams))
      = sortParams (p.params.filter fun kv => decide (kv.1 ∉ trackingParams)) := by
    apply List.filter_eq_self.mpr
    intro a ha
    have h2 : a ∈ p.params.filter fun kv => decide (kv.1 ∉ trackingParams) := by
      simpa [sortParams] using ha
    exact (List.mem_filter.mp h2).2
  simp only [normCore]
  rw [hpath, h1, sortParams_sortParams]

/-- Core idempotence lemma: `normalizeUrl` is idempotent on every parseable
URL whose pathname does not retain a removable trailing slash after one
strip (a pathname not ending in two slashes, or exactly `//`). -/
theorem normalizeUrl_idempotent_of (s : String) (p : PUrl)
    (hp : parse s.data = some p)
    (hpath : stripSlash (stripSlash p.path) = stripSlash p.path) :
    normalizeUrl (normalizeUrl s) = normalizeUrl s := by
  have h1 : normalizeUrl s = String.mk (ser (normCore p)) := by
    unfold normalizeUrl
    rw [hp]
  rw [h1]
  have h2 : parse (String.mk (ser (normCore p))).data = some (normCore p) :=
    parse_ser (normCore_wf (parse_wf hp)) rfl
  unfold normalizeUrl
  rw [h2]
  show String.mk (ser (normCore (normCore p))) = String.mk (ser (normCore p))
  rw [normCore_idem hpath]

theorem sortParams_eq_of_perm {l1 l2 : List (List Char × List Char)}
    (hp : l1.Perm l2) (hk : (l1.map Prod.fst).Nodup) :
    sortParams l1 = sortParams l2 := by
  have hs1 : List.Sorted keyRel (sortParams l1) := List.sorted_insertionSort keyRel l1
  have hs2 : List.Sorted keyRel (sortParams l2) := List.sorted_insertionSort keyRel l2
  have hperm : (sortParams l1).Perm (sortParams l2) :=
    ((List.perm_insertionSort keyRel l1).trans hp).trans
      (List.perm_insertionSort keyRel l2).symm
  have hk1 : ((sortParams l1).map Prod.fst).Nodup :=
    (((List.perm_insertionSort keyRel l1).map Prod.fst).nodup_iff).mpr hk
  have hk2 : ((sortParams l2).map Prod.fst).Nodup :=
    ((hperm.map Prod.fst).nodup_iff).mp hk1
  have hpair1 : List.Pairwise (fun a b : List Char × List Char => a.1 ≠ b.1)
      (sortParams l1) := List.pairwise_map.mp hk1
  have hpair2 : List.Pairwise (fun a b : List Char × List Char => a.1 ≠ b.1)
      (sortParams l2) := List.pairwise_map.mp hk2
  have hs1s : List.Pairwise (fun a b : List Char × List Char => keyRel a b ∧ a.1 ≠ b.1)
      (sortParams l1) := hs1.and hpair1
  have hs2s : List.Pairwise (fun a b : List Char × List Char => keyRel a b ∧ a.1 ≠ b.1)
      (sortParams l2) := hs2.and hpair2
  haveI : IsAntisymm (List Char × List Char)
      (fun a b : List Char × List Char => keyRel a b ∧ a.1 ≠ b.1) :=
    ⟨fun _ _ hab hba => (hab.2 (leChs_antisymm hab.1 hba.1)).elim⟩
  exact List.eq_of_perm_of_sorted hperm hs1s hs2s

/-- General equivalence lemma for `normalizeUrl`: two parseable URLs with the
same scheme and host, paths equal up to one trailing slash, and surviving
(non-tracking) query parameters that are a permutation of one another with
pairwise-distinct names, normalize to the same string; fragments are
unconstrained. -/
theorem normalizeUrl_eq_of_equiv (u1 u2 : String) (p1 p2 : PUrl)
    (h1 : parse u1.data = some p1) (h2 : parse u2.data = some p2)
    (hsec : p1.secure = p2.secure) (hhost : p1.host = p2.host)
    (hpath : stripSlash p1.path = stripSlash p2.path)
    (hq : (p1.params.filter fun kv => decide (kv.1 ∉ trackingParams)).Perm
          (p2.params.filter fun kv => decide (kv.1 ∉ trackingParams)))
    (hk : ((p1.params.filter fun kv => decide (kv.1 ∉ trackingParams)).map
          Prod.fst).Nodup) :
    normalizeUrl u1 = normalizeUrl u2 := by
  have hcore : normCore p1 = normCore p2 := by
    simp only [normCore]
    rw [hsec, hhost, hpath, sortParams_eq_of_perm hq hk]
  have e1 : normalizeUrl u1 = String.mk (ser (normCore p1)) := by
    unfold normalizeUrl
    rw [h1]
  have e2 : normalizeUrl u2 = String.mk (ser (normCore p2)) := by
    unfold normalizeUrl
    rw [h2]
  rw [e1, e2, hcore]

/-! ### Claim C7 (normalizeUrl idempotence) -/

/-- C7 (amended): `normalizeUrl` is idempotent for every URL string that
parses as a valid URL, provided the parsed pathname does not retain a
removable trailing slash after one strip — equivalently, unless the
pathname ends in two slashes and has length greater than two.  (The
source strips only one trailing slash per call, so a pathname such as
`/x//` needs two passes to stabilize.) -/
theorem claim_C7_amended (s : String) (p : PUrl)
    (hp : parse s.data = some p)
    (hpath : stripSlash (stripSlash p.path) = stripSlash p.path) :
    normalizeUrl (normalizeUrl s) = normalizeUrl s :=
  normalizeUrl_idempotent_of s p hp hpath

/-- Witness for C7 (amended) at the concrete URL `https://a.com/x/`. -/
theorem claim_C7_witness :
    normalizeUrl (normalizeUrl "https://a.com/x/") = normalizeUrl "https://a.com/x/" :=
  claim_C7_amended "https://a.com/x/" ⟨true, "a.com".data, "/x/".data, [], []⟩
    (by decide) (by decide)

/-- C7 counterexample: `https://a.com/x//` parses as a valid URL, yet
`normalizeUrl` is not idempotent on it: one application yields
`https://a.com/x/` and a second one yields `https://a.com/x`. -/
theorem claim_C7_counterexample :
    parse ("https://a.com/x//").data
        = some ⟨true, "a.com".data, "/x//".data, [], []⟩ ∧
    normalizeUrl "https://a.com/x//" = "https://a.com/x/" ∧
    normalizeUrl (normalizeUrl "https://a.com/x//") ≠ normalizeUrl "https://a.com/x//" := by
  refine ⟨by decide, by decide, by decide⟩

/-! ### Claim C8 (normalizeUrl equivalence classes) -/

/-- C8 (amended): two valid URLs that differ only by tracking query
parameters, one trailing slash on a path of length > 1, the fragment, or
the order of the remaining query parameters normalize to the same string,
provided the remaining parameters have pairwise-distinct names.  (The
sort of `URLSearchParams.sort()` is stable, so reordered parameters that
share a name are not canonicalized; see the counterexample.) -/
theorem claim_C8_amended (u1 u2 : String) (p1 p2 : PUrl)
    (h1 : parse u1.data = some p1) (h2 : parse u2.data = some p2)
    (hsec : p1.secure = p2.secure) (hhost : p1.host = p2.host)
    (hpath : stripSlash p1.path = stripSlash p2.path)
    (hq : (p1.params.filter fun kv => decide (kv.1 ∉ trackingParams)).Perm
          (p2.params.filter fun kv => decide (kv.1 ∉ trackingParams)))
    (hk : ((p1.params.filter fun kv => decide (kv.1 ∉ trackingParams)).map
          Prod.fst).Nodup) :
    normalizeUrl u1 = normalizeUrl u2 :=
  normalizeUrl_eq_of_equiv u1 u2 p1 p2 h1 h2 hsec hhost hpath hq hk

/-- Witness for C8 (amended): the particular instance named by the claim,
`normalizeUrl "https://a.com/x/" = normalizeUrl "https://a.com/x?utm_source=y"`. -/
theorem claim_C8_witness :
    normalizeUrl "https://a.com/x/" = normalizeUrl "https://a.com/x?utm_source=y" :=
  claim_C8_amended "https://a.com/x/" "https://a.com/x?utm_source=y"
    ⟨true, "a.com".data, "/x/".data, [], []⟩
    ⟨true, "a.com".data, "/x".data, [("utm_source".data, "y".data)], []⟩
    (by decide) (by decide) (by decide) (by decide) (by decide) (by decide) (by decide)

/-- C8 counterexample: `https://a.com/x?a=1&a=2` and
`https://a.com/x?a=2&a=1` differ only by the order of their (non-tracking)
query parameters, yet normalize to different strings, because
`searchParams.sort()` is stable and never swaps parameters sharing the
name `a`. -/
theorem claim_C8_counterexample :
    parse ("https://a.com/x?a=1&a=2").data
        = some ⟨true, "a.com".data, "/x".data,
            [("a".data, "1".data), ("a".data, "2".data)], []⟩ ∧
    parse ("https://a.com/x?a=2&a=1").data
        = some ⟨true, "a.com".data, "/x".data,
            [("a".data, "2".data), ("a".data, "1".data)], []⟩ ∧
    ([("a".data, "1".data), ("a".data, "2".data)] :
        List (List Char × List Char)).Perm
      [("a".data, "2".data), ("a".data, "1".data)] ∧
    normalizeUrl "https://a.com/x?a=1&a=2" ≠ normalizeUrl "https://a.com/x?a=2&a=1" := by
  refine ⟨by decide, by decide, by decide, by decide⟩

/-! ## Part 2: the per-request interception listener
    (crawlSite, part_006 lines 483-523)

Each worker page installs a `request` listener.  A main-frame *document*
request whose URL is cross-origin (or fails to parse) is aborted before
it is sent, after recording an external redirect when a redirect chain is
present.  Every other request falls through to the optional
`onRequestIntercept` hook: a truthy return means the hook has fully
disposed of the request (the listener neither aborts nor continues it);
otherwise the listener calls `request.continue()`. -/

structure RedirectRecord where
  «from» : String
  «to» : String
  chain : List String
  reason : String
deriving DecidableEq, Repr

structure Req where
  /-- `request.frame() === workerPage.mainFrame() && request.resourceType() === 'document'` -/
  mainFrameDocument : Bool
  /-- `request.url()` -/
  url : String
  /-- the URLs of the requests in `request.redirectChain()` -/
  redirectChain : List String
deriving DecidableEq, Repr

/-- The three ways the listener can dispose of a request. -/
inductive ReqDecision
  | aborted
  | hookHandled
  | continued
deriving DecidableEq, Repr

/-- Membership test of the `redirectedExternal` map (a JavaScript `Map`
keyed by the normalized from-URL, modelled as an association list). -/
def hasKey (recs : List (String × RedirectRecord)) (k : String) : Bool :=
  recs.any fun kv => kv.1 == k

/-- The fall-through tail of the listener: consult the hook if provided,
else (or on a falsy return) `request.continue()`. -/
def hookStep (hookResult : Option Bool)
    (recs : List (String × RedirectRecord)) :
    ReqDecision × List (String × RedirectRecord) :=
  match hookResult with
  | some true => (.hookHandled, recs)
  | some false => (.continued, recs)
  | none => (.continued, recs)

/-- The listener body.  `hookResult` is `none` when no `onRequestIntercept`
hook is supplied and `some b` for a hook whose call returned truthiness
`b`.  Returns the decision taken for the request together with the
updated `redirectedExternal` map (whose growth is what the source counts
in `crawlStats.redirectsExternal`). -/
def handleRequest (baseOrigin : String) (hookResult : Option Bool) (r : Req)
    (recs : List (String × RedirectRecord)) :
    ReqDecision × List (String × RedirectRecord) :=
  if r.mainFrameDocument then
    match urlOrigin r.url with
    | some o =>
      if o ≠ baseOrigin then
        let recs2 :=
          match r.redirectChain.getLast? with
          | some lastUrl =>
            if hasKey recs (normalizeUrl lastUrl) then recs
            else recs ++ [(normalizeUrl lastUrl,
              { «from» := normalizeUrl lastUrl, «to» := normalizeUrl r.url,
                chain := r.redirectChain ++ [r.url],
                reason := "redirected-to-external-origin" })]
          | none => recs
        (.aborted, recs2)
      else hookStep hookResult recs
    | none => (.aborted, recs)
  else hookStep hookResult recs

/-! ### Claim C3 (request interception) -/

/-- C3 counterexample: a cross-origin **sub-resource** request (not a
main-frame document) with no hook installed is *continued*, not blocked:
the listener only aborts cross-origin main-frame document requests. -/
theorem claim_C3_counterexample :
    (handleRequest "https://a.com" none
        ⟨false, "https://evil.test/a.js", []⟩ []).1 = ReqDecision.continued ∧
    urlOrigin "https://evil.test/a.js" = some "https://evil.test" ∧
    ("https://evil.test" : String) ≠ "https://a.com" ∧
    ReqDecision.continued ≠ ReqDecision.aborted := by
  refine ⟨by decide, by decide, by decide, by decide⟩

/-- C3 (amended): the listener blocks a **main-frame document** request
whose origin differs from the crawl origin (or whose URL fails to parse)
before the hook is consulted; for every *other* request — including
cross-origin sub-resources — a truthy hook return makes the listener do
nothing further (neither abort nor continue), and a falsy or absent hook
leads to `request.continue()`. -/
theorem claim_C3_amended (baseOrigin : String) (hookResult : Option Bool)
    (r : Req) (recs : List (String × RedirectRecord)) :
    (r.mainFrameDocument = true →
      (urlOrigin r.url = none ∨ ∃ o, urlOrigin r.url = some o ∧ o ≠ baseOrigin) →
      (handleRequest baseOrigin hookResult r recs).1 = ReqDecision.aborted) ∧
    ((r.mainFrameDocument = false ∨ urlOrigin r.url = some baseOrigin) →
      (hookResult = some true →
        (handleRequest baseOrigin hookResult r recs).1 = ReqDecision.hookHandled) ∧
      ((hookResult = none ∨ hookResult = some false) →
        (handleRequest baseOrigin hookResult r recs).1 = ReqDecision.continued)) := by
  constructor
  · intro hmf hor
    unfold handleRequest
    rw [hmf]
    simp only [if_pos rfl, if_true]
    rcases hor with h | ⟨o, ho, hne⟩
    · rw [h]
    · rw [ho]
      simp [hne]
  · intro hother
    constructor
    · intro hh
      subst hh
      rcases hother with h | h
      · unfold handleRequest
        rw [h]
        rfl
      · unfold handleRequest
        rcases hmf : r.mainFrameDocument with _ | _
        · rfl
        · simp only [if_true]
          rw [h]
          simp [hookStep]
    · intro hh
      have hcont : hookStep hookResult recs
          = (ReqDecision.continued, recs) := by
        rcases hh with rfl | rfl <;> rfl
      rcases hother with h | h
      · unfold handleRequest
        rw [h]
        simp [hcont]
      · unfold handleRequest
        rcases hmf : r.mainFrameDocument with _ | _
        · simp [hcont]
        · simp only [if_true]
          rw [h]
          simp [hcont]

/-- Witness for C3 (amended): a cross-origin main-frame document request is
aborted. -/
theorem claim_C3_witness :
    (handleRequest "https://a.com" none
        ⟨true, "https://evil.test/x", []⟩ []).1 = ReqDecision.aborted :=
  (claim_C3_amended "https://a.com" none ⟨true, "https://evil.test/x", []⟩ []).1
    rfl (Or.inr ⟨"https://evil.test", by decide, by decide⟩)

/-! ## Part 3: the crawl engine (crawlSite / processQueue)
    (part_006 lines 405-756)

Shared crawl state is mutated by `concurrency` workers.  JavaScript is
single-threaded: every code segment between `await` points runs
atomically.  The atomic segments of `processQueue` are:

* the loop head (lines 538-570) — shutdown/budget check, empty-queue
  check, claim (`toVisit[queueIndex++]`, `pending.delete`), the
  visited/failed/depth/budget re-checks, `activeWorkers++` and issuing
  `page.goto` (`Choice.loop`);
* resolution of the `goto` await: success with a same-origin or
  unparseable final URL (`Choice.finishSame`, lines 574-602); success
  with a cross-origin final URL (`Choice.finishExternal`, lines
  577-596); or a navigation error handled by the `catch` block
  (`Choice.finishFail`, lines 671-686);
* after a same-origin success, resolution of the `onPageVisit` and
  `page.evaluate` awaits followed by the synchronous truncation
  accounting and enqueue loop (`Choice.extracted`, lines 604-670);
* delivery of a SIGINT (`Choice.interrupt`, lines 455-462).

Page content and network behavior are environment choices carried by
the `Choice` constructors (the deduplicated in-page link list, final
URLs, redirect chains, error messages).  `fetchLog` and `droppedDeep`
are ghost fields recording which entries reached `page.goto` and which
were discarded by the depth check; `visitedExt` is a ghost list of the
URLs first marked visited through the external-redirect paths.  Ghost
fields influence no step. -/

structure Entry where
  url : String
  depth : Nat
  retries : Nat
deriving DecidableEq, Repr

structure Stats where
  pagesScanned : Nat
  linksFound : Nat
  newLinksFound : Nat
  linksTruncated : Nat
  redirectsExternal : Nat
  errors : List (String × String)
deriving DecidableEq, Repr

/-- A worker between two of its own atomic segments: at the loop head,
suspended in `page.goto`, suspended in `onPageVisit`/`page.evaluate`
after marking its entry visited, or returned. -/
inductive WStatus
  | idle
  | fetching (e : Entry)
  | extracting (e : Entry)
  | done
deriving DecidableEq, Repr

structure Config where
  baseUrl : String
  maxPages : Nat
  maxLinksPerPage : Nat
  maxDepth : Nat
  maxRetries : Nat
  concurrency : Nat
deriving DecidableEq, Repr

structure CState where
  visited : List String
  failed : List String
  pending : List String
  toVisit : List Entry
  queueIndex : Nat
  stats : Stats
  redirectedExternal : List (String × RedirectRecord)
  activeWorkers : Nat
  shuttingDown : Bool
  forced : Bool
  workers : List WStatus
  fetchLog : List Entry
  droppedDeep : List Entry
  visitedExt : List String
deriving DecidableEq, Repr

/-- JavaScript `Set.add`: append if absent (`Array.from` preserves
insertion order). -/
def addSet (l : List String) (x : String) : List String :=
  if x ∈ l then l else l ++ [x]

/-- A scheduler/environment choice: which worker advances through which
of its atomic segments, and what the network/page answered. -/
inductive Choice
  | loop (i : Nat)
  | finishSame (i : Nat)
  | finishExternal (i : Nat) (finalUrl : String) (chain : List String)
  | finishFail (i : Nat) (err : String) (nav : Option (String × String × List String))
  | extracted (i : Nat) (uniq : List String)
  | interrupt
deriving DecidableEq, Repr

/-- One pass through the head of the `while (true)` loop of
`processQueue` (lines 538-570) by an idle worker `i`: the
shutdown/budget check, the empty-queue check, or a claim
(`toVisit[queueIndex++]` and `pending.delete` — atomic because the whole
segment is synchronous) followed by the visited/failed/depth/budget
re-checks, ending back at the loop head, returned, or suspended in
`page.goto` after `activeWorkers++`. -/
def loopStep (cfg : Config) (s : CState) (i : Nat) : CState :=
  if s.workers.get? i ≠ some .idle then s
  else if s.shuttingDown || s.visited.length ≥ cfg.maxPages then
    { s with workers := s.workers.set i .done }
  else if s.queueIndex ≥ s.toVisit.length then
    if s.activeWorkers = 0 then { s with workers := s.workers.set i .done } else s
  else
    match s.toVisit.get? s.queueIndex with
    | none => s
    | some e =>
      let s1 : CState := { s with queueIndex := s.queueIndex + 1,
                                  pending := s.pending.erase e.url }
      if e.url ∈ s1.visited then s1
      else if e.url ∈ s1.failed then s1
      else if e.depth > cfg.maxDepth then
        { s1 with droppedDeep := s1.droppedDeep ++ [e] }
      else if s1.visited.length ≥ cfg.maxPages then
        { s1 with workers := s1.workers.set i .done }
      else
        { s1 with activeWorkers := s1.activeWorkers + 1,
                  workers := s1.workers.set i (WStatus.fetching e),
                  fetchLog := s1.fetchLog ++ [e] }

/-- Resolution of `await workerPage.goto(...)` with a response whose
final URL has the crawl origin, or does not parse (the inner
`catch (_e)` proceeds with the crawl as normal): lines 574-602 —
`visited.add(currentUrl)` and `crawlStats.pagesScanned++`, then the
worker suspends in `onPageVisit` / `page.evaluate`. -/
def finishSameStep (s : CState) (i : Nat) : CState :=
  match s.workers.get? i with
  | some (WStatus.fetching e) =>
    { s with visited := addSet s.visited e.url,
             stats := { s.stats with pagesScanned := s.stats.pagesScanned + 1 },
             workers := s.workers.set i (WStatus.extracting e) }
  | _ => s

/-- The external-redirect record insertion of the success path (lines
581-591): keyed by the claimed URL, deduplicated by key, counted in
`crawlStats.redirectsExternal`. -/
def extRecordStep (s : CState) (e : Entry) (finalUrl : String)
    (chain : List String) : CState :=
  if hasKey s.redirectedExternal e.url then s
  else { s with
    redirectedExternal := s.redirectedExternal ++ [(e.url,
      { «from» := e.url, «to» := finalUrl, chain := chain ++ [finalUrl],
        reason := "redirected-to-external-origin" })],
    stats := { s.stats with redirectsExternal := s.stats.redirectsExternal + 1 } }

/-- Resolution of the `goto` await with a response whose final URL parses
to a different origin (lines 577-596): record one RedirectRecord keyed by
the claimed URL unless one already exists, mark the URL visited and
`continue` (the `finally` decrements `activeWorkers`).  No link
extraction happens on this path. -/
def finishExternalStep (s : CState) (i : Nat) (finalUrl : String)
    (chain : List String) : CState :=
  match s.workers.get? i with
  | some (WStatus.fetching e) =>
    { extRecordStep s e finalUrl chain with
      visited := addSet (extRecordStep s e finalUrl chain).visited e.url,
      visitedExt := if e.url ∈ s.visited then s.visitedExt
                    else addSet s.visitedExt e.url,
      activeWorkers := (extRecordStep s e finalUrl chain).activeWorkers - 1,
      workers := (extRecordStep s e finalUrl chain).workers.set i WStatus.idle }
  | _ => s

/-- The external-redirect record the request listener may add while a
navigation fails (lines 487-501), keyed by the normalization of the last
redirect-chain URL. -/
def navRecordStep (s : CState) :
    Option (String × String × List String) → CState
  | some (lastUrl, reqUrl, chain) =>
    if hasKey s.redirectedExternal (normalizeUrl lastUrl) then s
    else { s with
      redirectedExternal := s.redirectedExternal ++ [(normalizeUrl lastUrl,
        { «from» := normalizeUrl lastUrl, «to» := normalizeUrl reqUrl,
          chain := chain ++ [reqUrl],
          reason := "redirected-to-external-origin" })],
      stats := { s.stats with redirectsExternal := s.stats.redirectsExternal + 1 } }
  | none => s

/-- Resolution of the `goto` await with a navigation error (lines
671-689).  `nav` carries the record the request listener may have added
during the failed navigation, applied by `navRecordStep`.  The `catch`
block then consults `redirectedExternal` for the claimed URL; otherwise
it re-enqueues with `retries + 1` or records a terminal failure.  The
`finally` decrements `activeWorkers`. -/
def finishFailStep (cfg : Config) (s : CState) (i : Nat) (err : String)
    (nav : Option (String × String × List String)) : CState :=
  match s.workers.get? i with
  | some (WStatus.fetching e) =>
    if hasKey (navRecordStep s nav).redirectedExternal e.url then
      { navRecordStep s nav with
        visited := addSet (navRecordStep s nav).visited e.url,
        visitedExt := if e.url ∈ (navRecordStep s nav).visited
                      then (navRecordStep s nav).visitedExt
                      else addSet (navRecordStep s nav).visitedExt e.url,
        activeWorkers := (navRecordStep s nav).activeWorkers - 1,
        workers := (navRecordStep s nav).workers.set i WStatus.idle }
    else if e.retries < cfg.maxRetries then
      { navRecordStep s nav with
        toVisit := (navRecordStep s nav).toVisit ++ [⟨e.url, e.depth, e.retries + 1⟩],
        pending := addSet (navRecordStep s nav).pending e.url,
        activeWorkers := (navRecordStep s nav).activeWorkers - 1,
        workers := (navRecordStep s nav).workers.set i WStatus.idle }
    else
      { navRecordStep s nav with
        failed := addSet (navRecordStep s nav).failed e.url,
        stats := { (navRecordStep s nav).stats with
          errors := (navRecordStep s nav).stats.errors ++ [(e.url, err)] },
        activeWorkers := (navRecordStep s nav).activeWorkers - 1,
        workers := (navRecordStep s nav).workers.set i WStatus.idle }
  | _ => s

/-- The synchronous enqueue of one extracted link (lines 656-664):
normalize, check the three membership sets, push to `toVisit` at depth
`currentDepth + 1` with zero retries, and mark pending. -/
def enqueueLink (depth : Nat) (s : CState) (rawLink : String) : CState :=
  if normalizeUrl rawLink ∈ s.visited ∨ normalizeUrl rawLink ∈ s.failed ∨
      normalizeUrl rawLink ∈ s.pending then s
  else { s with
    toVisit := s.toVisit ++ [⟨normalizeUrl rawLink, depth, 0⟩],
    pending := addSet s.pending (normalizeUrl rawLink),
    stats := { s.stats with newLinksFound := s.stats.newLinksFound + 1 } }

/-- Resolution of the `onPageVisit` and `page.evaluate` awaits after a
same-origin success, followed by the synchronous truncation accounting
and enqueue loop (lines 604-670) and the `finally` decrement of
`activeWorkers`.  `uniq` is the deduplicated, filtered link list the
page evaluation produced (the environment's choice); the worker slices
it to `maxLinksPerPage`. -/
def extractedStep (cfg : Config) (s : CState) (i : Nat) (uniq : List String) : CState :=
  match s.workers.get? i with
  | some (WStatus.extracting e) =>
    { (uniq.take cfg.maxLinksPerPage).foldl (enqueueLink (e.depth + 1)) s with
      stats := { ((uniq.take cfg.maxLinksPerPage).foldl (enqueueLink (e.depth + 1)) s).stats with
        linksFound := ((uniq.take cfg.maxLinksPerPage).foldl (enqueueLink (e.depth + 1)) s).stats.linksFound
          + (uniq.take cfg.maxLinksPerPage).length,
        linksTruncated := ((uniq.take cfg.maxLinksPerPage).foldl (enqueueLink (e.depth + 1)) s).stats.linksTruncated
          + (if uniq.length > cfg.maxLinksPerPage
             then uniq.length - (uniq.take cfg.maxLinksPerPage).length else 0) },
      activeWorkers := ((uniq.take cfg.maxLinksPerPage).foldl (enqueueLink (e.depth + 1)) s).activeWorkers - 1,
      workers := ((uniq.take cfg.maxLinksPerPage).foldl (enqueueLink (e.depth + 1)) s).workers.set i WStatus.idle }
  | _ => s

/-- The SIGINT handler (lines 455-462): a first signal requests graceful
shutdown; a second signal while shutdown is underway is
`process.exit(1)`, modelled by the `forced` flag that freezes the run
and suppresses any result. -/
def interruptStep (s : CState) : CState :=
  if s.shuttingDown then { s with forced := true }
  else { s with shuttingDown := true }

/-- One atomic step of the crawl.  A forced-exit state takes no further
steps (the process is gone). -/
def step (cfg : Config) (s : CState) : Choice → CState
  | Choice.loop i => if s.forced then s else loopStep cfg s i
  | Choice.finishSame i => if s.forced then s else finishSameStep s i
  | Choice.finishExternal i finalUrl chain =>
      if s.forced then s else finishExternalStep s i finalUrl chain
  | Choice.finishFail i err nav =>
      if s.forced then s else finishFailStep cfg s i err nav
  | Choice.extracted i uniq => if s.forced then s else extractedStep cfg s i uniq
  | Choice.interrupt => if s.forced then s else interruptStep s

/-- The initial crawl state (lines 436-452): the normalized seed is
pending and queued at depth 0, all counters are zero and every worker is
at its loop head. -/
def init (cfg : Config) : CState :=
  { visited := []
    failed := []
    pending := [normalizeUrl cfg.baseUrl]
    toVisit := [⟨normalizeUrl cfg.baseUrl, 0, 0⟩]
    queueIndex := 0
    stats := ⟨0, 0, 0, 0, 0, []⟩
    redirectedExternal := []
    activeWorkers := 0
    shuttingDown := false
    forced := false
    workers := List.replicate cfg.concurrency WStatus.idle
    fetchLog := []
    droppedDeep := []
    visitedExt := [] }

/-- A crawl run: the fold of `step` over a list of scheduler choices. -/
def run (cfg : Config) (cs : List Choice) : CState :=
  cs.foldl (step cfg) (init cfg)

structure CrawlResult where
  interrupted : Bool
  pagesScanned : List String
  pagesFailed : List String
  pagesAbandoned : List String
  pagesRedirectedExternal : List RedirectRecord
  crawlStats : Stats
deriving DecidableEq, Repr

def allDone (s : CState) : Bool :=
  s.workers.all fun w => w == WStatus.done

/-- The result object (lines 707 and 738-755), produced once
`Promise.all` has resolved — every worker returned — and the process was
not force-killed.  `interrupted` is the source's `partial` flag, set from
`shuttingDown`; `pagesAbandoned` is `toVisit.slice(queueIndex)`. -/
def crawlResult (s : CState) : Option CrawlResult :=
  if s.forced || !(allDone s) then none
  else some
    { interrupted := s.shuttingDown
      pagesScanned := s.visited
      pagesFailed := s.failed
      pagesAbandoned := (s.toVisit.drop s.queueIndex).map Entry.url
      pagesRedirectedExternal := s.redirectedExternal.map Prod.snd
      crawlStats := s.stats }

/-- Ghost count of fetch attempts (claims that reached `page.goto`)
for one URL. -/
def countAttempts (s : CState) (u : String) : Nat :=
  (s.fetchLog.filter fun e => e.url == u).length

/-! ### Concrete schedules used to refute the concurrency claims

`cfgRace` crawls `https://a.com/` with two workers, `maxRetries = 0` and
room in every budget.  In `traceRace` the seed page links to `/p` and
`/x`; worker 0 claims `/p` and worker 1 claims `/x`; while `/x` is still
in flight, `/p`'s page also links to `/x`, which is re-enqueued (it is in
none of the membership sets at that moment) and claimed by worker 0, so
both workers fetch `/x` concurrently: worker 1's fetch succeeds, worker
0's fails terminally. -/

def cfgRace : Config := ⟨"https://a.com/", 10, 10, 5, 0, 2⟩

def traceRace : List Choice :=
  [Choice.loop 0, Choice.finishSame 0,
   Choice.extracted 0 ["https://a.com/p", "https://a.com/x"],
   Choice.loop 0, Choice.loop 1,
   Choice.finishSame 0, Choice.extracted 0 ["https://a.com/x"],
   Choice.loop 0, Choice.finishSame 1, Choice.extracted 1 [],
   Choice.finishFail 0 "net::ERR_FAILED" none,
   Choice.loop 0, Choice.loop 1]

/-- Like `traceRace`, but both concurrent fetches of `/x` succeed, so
`pagesScanned` is incremented twice for one visited URL. -/
def traceStats : List Choice :=
  [Choice.loop 0, Choice.finishSame 0,
   Choice.extracted 0 ["https://a.com/p", "https://a.com/x"],
   Choice.loop 0, Choice.loop 1,
   Choice.finishSame 0, Choice.extracted 0 ["https://a.com/x"],
   Choice.loop 0, Choice.finishSame 1, Choice.finishSame 0,
   Choice.extracted 1 [], Choice.extracted 0 [],
   Choice.loop 0, Choice.loop 1]

/-- Two workers, `maxPages = 2`: both pass the budget check while one
page is visited, and both fetches then complete, ending with three
visited pages. -/
def cfgBudget : Config := ⟨"https://a.com/", 2, 10, 5, 0, 2⟩

def traceBudget : List Choice :=
  [Choice.loop 0, Choice.finishSame 0,
   Choice.extracted 0 ["https://a.com/p", "https://a.com/x"],
   Choice.loop 0, Choice.loop 1, Choice.finishSame 0, Choice.finishSame 1]

/-- A single worker with `maxDepth = 0`: the seed's one link is enqueued
at depth 1 and discarded at claim time, ending the run in no terminal
set. -/
def cfgDepth : Config := ⟨"https://a.com/", 10, 10, 0, 1, 1⟩

def traceDepth : List Choice :=
  [Choice.loop 0, Choice.finishSame 0, Choice.extracted 0 ["https://a.com/b"],
   Choice.loop 0, Choice.loop 0]

/-- C1 counterexample.  First conjunct: a completed two-worker run in
which `https://a.com/x` is in `visited` **and** in `failed` (the URL was
re-enqueued while in flight and fetched concurrently by both workers).
Second conjunct: a completed single-worker run in which the enqueued URL
`https://a.com/b` ends the run in *none* of visited, failed or
abandoned — it was discarded at claim time by the depth check. -/
theorem claim_C1_counterexample :
    (allDone (run cfgRace traceRace) = true ∧
     (run cfgRace traceRace).forced = false ∧
     "https://a.com/x" ∈ (run cfgRace traceRace).visited ∧
     "https://a.com/x" ∈ (run cfgRace traceRace).failed) ∧
    (allDone (run cfgDepth traceDepth) = true ∧
     (run cfgDepth traceDepth).forced = false ∧
     "https://a.com/b" ∈ (run cfgDepth traceDepth).toVisit.map Entry.url ∧
     "https://a.com/b" ∉ (run cfgDepth traceDepth).visited ∧
     "https://a.com/b" ∉ (run cfgDepth traceDepth).failed ∧
     "https://a.com/b" ∉
       ((run cfgDepth traceDepth).toVisit.drop
         (run cfgDepth traceDepth).queueIndex).map Entry.url) := by
  refine ⟨by decide, by decide⟩

/-- C2 counterexample: a completed run with `maxPages = 2` and two
workers that visits three pages — the budget check races the in-flight
fetches across the `goto` await. -/
theorem claim_C2_counterexample :
    (run cfgBudget traceBudget).visited.length = 3 ∧
    cfgBudget.maxPages = 2 ∧ ¬(3 ≤ 2) := by
  refine ⟨by decide, by decide, by decide⟩

/-- C5 counterexample: in the same race as C1's, `https://a.com/x`
enters `failed` after **two** fetch attempts even though
`maxRetries + 1 = 1` — both workers held the URL in flight at once. -/
theorem claim_C5_counterexample :
    "https://a.com/x" ∈ (run cfgRace traceRace).failed ∧
    countAttempts (run cfgRace traceRace) "https://a.com/x" = 2 ∧
    cfgRace.maxRetries + 1 = 1 ∧ (2 : Nat) ≠ 1 := by
  refine ⟨by decide, by decide, by decide, by decide⟩

/-- C10 counterexample: a completed run whose `crawlStats.pagesScanned`
counter (4) *exceeds* the length of the result's `pagesScanned` list (3):
two workers fetched the same URL concurrently and both incremented the
counter, while `visited.add` deduplicated. -/
theorem claim_C10_counterexample :
    (crawlResult (run cfgRace traceStats)).map
        (fun r => (r.crawlStats.pagesScanned, r.pagesScanned.length))
      = some (4, 3) ∧ ¬(4 ≤ 3) := by
  refine ⟨by decide, by decide⟩

/-! ### Frame lemmas for the enqueue fold -/

theorem enqueueLink_eq (d : Nat) (s : CState) (link : String) :
    ∃ tv pd st, enqueueLink d s link
      = { s with toVisit := tv, pending := pd, stats := st } := by
  unfold enqueueLink
  split_ifs
  · exact ⟨s.toVisit, s.pending, s.stats, rfl⟩
  · exact ⟨_, _, _, rfl⟩

theorem foldl_enqueue_eq (d : Nat) (links : List String) : ∀ s : CState,
    ∃ tv pd st, links.foldl (enqueueLink d) s
      = { s with toVisit := tv, pending := pd, stats := st } := by
  induction links with
  | nil => intro s; exact ⟨s.toVisit, s.pending, s.stats, rfl⟩
  | cons a t ih =>
    intro s
    obtain ⟨tv, pd, st, h1⟩ := enqueueLink_eq d s a
    obtain ⟨tv2, pd2, st2, h2⟩ := ih (enqueueLink d s a)
    refine ⟨tv2, pd2, st2, ?_⟩
    rw [List.foldl_cons, h2, h1]

theorem navRecordStep_eq (s : CState)
    (nav : Option (String × String × List String)) :
    ∃ re c, navRecordStep s nav
      = { s with redirectedExternal := re,
                 stats := { s.stats with redirectsExternal := c } } := by
  rcases nav with _ | ⟨l, r, ch⟩
  · exact ⟨s.redirectedExternal, s.stats.redirectsExternal, rfl⟩
  · simp only [navRecordStep]
    split_ifs
    · exact ⟨s.redirectedExternal, s.stats.redirectsExternal, rfl⟩
    · exact ⟨_, _, rfl⟩

/-! ### Claim C9 (interrupt handling) -/

theorem shutdown_no_claim (cfg : Config) (s : CState) (c : Choice)
    (h : s.shuttingDown = true) :
    (step cfg s c).queueIndex = s.queueIndex ∧
    (step cfg s c).fetchLog = s.fetchLog ∧
    (step cfg s c).shuttingDown = true := by
  cases c with
  | loop i =>
    simp only [step]
    by_cases hf : s.forced = true
    · simp [hf, h]
    · simp only [hf, Bool.false_eq_true, if_false]
      unfold loopStep
      rw [h]
      simp only [Bool.true_or]
      split <;> simp [h]
  | finishSame i =>
    simp only [step]
    by_cases hf : s.forced = true
    · simp [hf, h]
    · simp only [hf, Bool.false_eq_true, if_false]
      unfold finishSameStep
      split <;> simp [h]
  | finishExternal i finalUrl chain =>
    simp only [step]
    by_cases hf : s.forced = true
    · simp [hf, h]
    · simp only [hf, Bool.false_eq_true, if_false]
      unfold finishExternalStep
      split
      · rename_i e heq
        unfold extRecordStep
        split_ifs <;> simp [h]
      · simp [h]
  | finishFail i err nav =>
    simp only [step]
    by_cases hf : s.forced = true
    · simp [hf, h]
    · simp only [hf, Bool.false_eq_true, if_false]
      unfold finishFailStep
      split
      · rename_i e heq
        obtain ⟨re, cnt, hnav⟩ := navRecordStep_eq s nav
        rw [hnav]
        split_ifs <;> simp [h]
      · simp [h]
  | extracted i uniq =>
    simp only [step]
    by_cases hf : s.forced = true
    · simp [hf, h]
    · simp only [hf, Bool.false_eq_true, if_false]
      unfold extractedStep
      split
      · rename_i e heq
        obtain ⟨tv, pd, st, hfold⟩ :=
          foldl_enqueue_eq (e.depth + 1) (uniq.take cfg.maxLinksPerPage) s
        rw [hfold]
        simp [h]
      · simp [h]
  | interrupt =>
    simp only [step]
    by_cases hf : s.forced = true
    · simp [hf, h]
    · simp only [hf, Bool.false_eq_true, if_false]
      unfold interruptStep
      split <;> simp [h]

theorem finishSame_completes (cfg : Config) (s : CState) (i : Nat) (e : Entry)
    (hw : s.workers.get? i = some (WStatus.fetching e)) (hf : s.forced = false) :
    (step cfg s (Choice.finishSame i)).visited = addSet s.visited e.url ∧
    (step cfg s (Choice.finishSame i)).workers
      = s.workers.set i (WStatus.extracting e) := by
  simp only [step, hf, Bool.false_eq_true, if_false]
  unfold finishSameStep
  rw [hw]
  exact ⟨rfl, rfl⟩

theorem crawlResult_interrupted {s : CState} {r : CrawlResult}
    (h : crawlResult s = some r) : r.interrupted = s.shuttingDown := by
  unfold crawlResult at h
  split_ifs at h
  all_goals first
    | (subst h; rfl)
    | (injection h with h2; subst h2; rfl)
    | simp at h

/-- C9: after a first interrupt signal the shutdown flag is set (and stays
set), whereupon no worker claims a new frontier entry or starts a fetch —
`queueIndex` and the fetch log are frozen — while a worker already
suspended in `page.goto` still completes normally; any result assembled
during shutdown carries `partial = true` (the `interrupted` field); and a
second interrupt while shutdown is underway forces immediate termination,
after which no result is produced. -/
theorem claim_C9 (cfg : Config) (s : CState) :
    (∀ c, s.shuttingDown = true →
      (step cfg s c).queueIndex = s.queueIndex ∧
      (step cfg s c).fetchLog = s.fetchLog ∧
      (step cfg s c).shuttingDown = true) ∧
    (∀ i e, s.workers.get? i = some (WStatus.fetching e) → s.forced = false →
      (step cfg s (Choice.finishSame i)).visited = addSet s.visited e.url ∧
      (step cfg s (Choice.finishSame i)).workers
        = s.workers.set i (WStatus.extracting e)) ∧
    (∀ r, crawlResult s = some r → r.interrupted = s.shuttingDown) ∧
    (s.shuttingDown = false → s.forced = false →
      (step cfg s Choice.interrupt).shuttingDown = true ∧
      (step cfg s Choice.interrupt).forced = false) ∧
    (s.shuttingDown = true → s.forced = false →
      (step cfg s Choice.interrupt).forced = true ∧
      crawlResult (step cfg s Choice.interrupt) = none) := by
  refine ⟨fun c h => shutdown_no_claim cfg s c h,
    fun i e hw hf => finishSame_completes cfg s i e hw hf,
    fun r h => crawlResult_interrupted h, ?_, ?_⟩
  · intro h1 h2
    simp [step, h1, h2, interruptStep]
  · intro h1 h2
    constructor
    · simp [step, h1, h2, interruptStep]
    · simp [step, h1, h2, interruptStep, crawlResult]

/-- Witness for C9 at a concrete interrupted run: after one SIGINT the
loop issues no claim, and a second SIGINT forces exit with no result. -/
theorem claim_C9_witness :
    (step cfgDepth (run cfgDepth [Choice.interrupt]) (Choice.loop 0)).queueIndex
      = (run cfgDepth [Choice.interrupt]).queueIndex ∧
    (step cfgDepth (run cfgDepth [Choice.interrupt]) Choice.interrupt).forced = true ∧
    crawlResult (step cfgDepth (run cfgDepth [Choice.interrupt]) Choice.interrupt)
      = none := by
  refine ⟨((claim_C9 cfgDepth _).1 (Choice.loop 0) (by decide)).1, ?_, ?_⟩
  · exact ((claim_C9 cfgDepth _).2.2.2.2 (by decide) (by decide)).1
  · exact ((claim_C9 cfgDepth _).2.2.2.2 (by decide) (by decide)).2

/-! ### Set-insertion and worker-counting helpers -/

theorem mem_addSet {l : List String} {x y : String} :
    y ∈ addSet l x ↔ y ∈ l ∨ y = x := by
  unfold addSet
  split_ifs with h
  · constructor
    · exact fun hy => Or.inl hy
    · rintro (hy | rfl)
      · exact hy
      · exact h
  · simp [List.mem_append]

theorem addSet_length_le (l : List String) (x : String) :
    (addSet l x).length ≤ l.length + 1 := by
  unfold addSet
  split_ifs <;> simp

theorem length_le_addSet (l : List String) (x : String) :
    l.length ≤ (addSet l x).length := by
  unfold addSet
  split_ifs <;> simp

theorem addSet_nodup {l : List String} (x : String) (h : l.Nodup) :
    (addSet l x).Nodup := by
  unfold addSet
  split_ifs with hx
  · exact h
  · simpa [List.nodup_append, hx] using h

def isFetching : WStatus → Bool
  | WStatus.fetching _ => true
  | _ => false

/-- Number of workers currently suspended in `page.goto`. -/
def countFetching (s : CState) : Nat := s.workers.countP isFetching

theorem countP_set_of_get? {α : Type} (p : α → Bool) {l : List α} {i : Nat}
    {old : α} (h : l.get? i = some old) (w : α) :
    (l.set i w).countP p + (if p old = true then 1 else 0)
      = l.countP p + (if p w = true then 1 else 0) := by
  have hlt : i < l.length := by
    by_contra hge
    rw [List.get?_eq_none.mpr (not_lt.mp hge)] at h
    simp at h
  have hold : l[i] = old := by
    rw [List.get?_eq_getElem?, List.getElem?_eq_getElem hlt] at h
    injection h
  rw [List.countP_set p l i w hlt, hold]
  have hle : (if p old = true then 1 else 0) ≤ l.countP p := by
    split_ifs with hp
    · have hmem : old ∈ l := hold ▸ List.getElem_mem hlt
      exact List.countP_pos.mpr ⟨old, hmem, hp⟩
    · exact Nat.zero_le _
  omega

/-- Generic invariant transport along a run. -/
theorem foldl_inv {P : CState → Prop} (cfg : Config)
    (hstep : ∀ s c, P s → P (step cfg s c)) :
    ∀ (cs : List Choice) (s : CState), P s → P (cs.foldl (step cfg) s) := by
  intro cs
  induction cs with
  | nil => exact fun s h => h
  | cons c t ih => exact fun s h => ih _ (hstep s c h)

/-! ### Claim C2 (page budget) -/

/-- The inductive budget invariant: the visited count plus the number of
fetches in flight stays below `maxPages + concurrency`.  Each in-flight
fetch was admitted while `visited.size < maxPages` and adds at most one
visited URL when it lands. -/
def budgetInv (cfg : Config) (s : CState) : Prop :=
  s.visited.length + countFetching s ≤ cfg.maxPages - 1 + s.workers.length

theorem budgetInv_step (cfg : Config) (s : CState) (c : Choice)
    (h : budgetInv cfg s) : budgetInv cfg (step cfg s c) := by
  have hFle : ∀ (ws : List WStatus), ws.countP isFetching ≤ ws.length :=
    fun ws => List.countP_le_length isFetching
  cases c with
  | loop i =>
    simp only [step]
    split_ifs with hf
    · exact h
    · unfold loopStep
      split
      · exact h
      · rename_i hguard
        rw [not_not] at hguard
        have hset : ∀ w, (s.workers.set i w).countP isFetching
            + (if isFetching WStatus.idle = true then 1 else 0)
            = s.workers.countP isFetching
            + (if isFetching w = true then 1 else 0) :=
          fun w => countP_set_of_get? isFetching hguard w
        split_ifs with h1 h2 h3
        · have := hset WStatus.done
          simp [isFetching] at this
          simpa [budgetInv, countFetching, List.length_set, this] using h
        · have := hset WStatus.done
          simp [isFetching] at this
          simpa [budgetInv, countFetching, List.length_set, this] using h
        · exact h
        · -- claim path: the budget check `visited.size >= maxPages` failed
          have hsize : s.visited.length < cfg.maxPages := by
            rcases Bool.or_eq_false_iff.mp (Bool.not_eq_true _ |>.mp h1) with ⟨_, hd⟩
            simpa using of_decide_eq_false hd
          rcases hget : s.toVisit.get? s.queueIndex with _ | e
          · exact h
          · simp only [hget]
            split_ifs with h4 h5 h6 h7
            · simpa [budgetInv, countFetching] using h
            · simpa [budgetInv, countFetching] using h
            · simpa [budgetInv, countFetching] using h
            · have := hset WStatus.done
              simp [isFetching] at this
              simpa [budgetInv, countFetching, List.length_set, this] using h
            · have hcnt := hFle (s.workers.set i (WStatus.fetching e))
              simp only [budgetInv, countFetching, List.length_set] at hcnt ⊢
              omega
  | finishSame i =>
    simp only [step]
    split_ifs with hf
    · exact h
    · unfold finishSameStep
      split
      · rename_i e heq
        have hset := countP_set_of_get? isFetching heq (WStatus.extracting e)
        simp [isFetching] at hset
        have hv := addSet_length_le s.visited e.url
        simp only [budgetInv, countFetching] at h ⊢
        simp only [List.length_set]
        omega
      · exact h
  | finishExternal i finalUrl chain =>
    simp only [step]
    split_ifs with hf
    · exact h
    · unfold finishExternalStep
      split
      · rename_i e heq
        have hset := countP_set_of_get? isFetching heq WStatus.idle
        simp [isFetching] at hset
        have hv := addSet_length_le s.visited e.url
        unfold extRecordStep
        split_ifs <;>
          · simp only [budgetInv, countFetching] at h ⊢
            simp only [List.length_set]
            omega
      · exact h
  | finishFail i err nav =>
    simp only [step]
    split_ifs with hf
    · exact h
    · unfold finishFailStep
      split
      · rename_i e heq
        obtain ⟨re, cnt, hnav⟩ := navRecordStep_eq s nav
        rw [hnav]
        have hset := countP_set_of_get? isFetching heq WStatus.idle
        simp [isFetching] at hset
        have hv := addSet_length_le s.visited e.url
        split_ifs <;>
          · simp only [budgetInv, countFetching] at h ⊢
            simp only [List.length_set]
            omega
      · exact h
  | extracted i uniq =>
    simp only [step]
    split_ifs with hf
    · exact h
    · unfold extractedStep
      split
      · rename_i e heq
        obtain ⟨tv, pd, st, hfold⟩ :=
          foldl_enqueue_eq (e.depth + 1) (uniq.take cfg.maxLinksPerPage) s
        rw [hfold]
        have hset := countP_set_of_get? isFetching heq WStatus.idle
        simp [isFetching] at hset
        simp only [budgetInv, countFetching] at h ⊢
        simp only [List.length_set]
        omega
      · exact h
  | interrupt =>
    simp only [step]
    split_ifs with hf
    · exact h
    · unfold interruptStep
      split <;> exact h

theorem budgetInv_run (cfg : Config) (cs : List Choice) :
    budgetInv cfg (run cfg cs) := by
  have hinit : budgetInv cfg (init cfg) := by
    have hz : (List.replicate cfg.concurrency WStatus.idle).countP isFetching = 0 := by
      rw [List.countP_eq_zero]
      intro w hw
      rw [List.eq_of_mem_replicate hw]
      simp [isFetching]
    simp [budgetInv, init, countFetching, hz]
  exact foldl_inv cfg (budgetInv_step cfg) cs (init cfg) hinit

/-- Once the page budget is reached, every later state has the same
`queueIndex` and fetch log (no claims, no fetch starts), and the budget
remains reached. -/
theorem budget_freeze_step (cfg : Config) (s : CState) (c : Choice)
    (h : cfg.maxPages ≤ s.visited.length) :
    (step cfg s c).queueIndex = s.queueIndex ∧
    (step cfg s c).fetchLog = s.fetchLog ∧
    cfg.maxPages ≤ (step cfg s c).visited.length := by
  have hcond : decide (s.visited.length ≥ cfg.maxPages) = true := by
    simpa using h
  cases c with
  | loop i =>
    simp only [step]
    split_ifs with hf
    · exact ⟨rfl, rfl, h⟩
    · unfold loopStep
      rw [hcond]
      simp only [Bool.or_true]
      split <;> simp [h]
  | finishSame i =>
    simp only [step]
    split_ifs with hf
    · exact ⟨rfl, rfl, h⟩
    · unfold finishSameStep
      split
      · rename_i e heq
        refine ⟨rfl, rfl, ?_⟩
        simpa using le_trans h (length_le_addSet s.visited e.url)
      · exact ⟨rfl, rfl, h⟩
  | finishExternal i finalUrl chain =>
    simp only [step]
    split_ifs with hf
    · exact ⟨rfl, rfl, h⟩
    · unfold finishExternalStep
      split
      · rename_i e heq
        unfold extRecordStep
        split_ifs <;>
          · refine ⟨rfl, rfl, ?_⟩
            simpa using le_trans h (length_le_addSet s.visited e.url)
      · exact ⟨rfl, rfl, h⟩
  | finishFail i err nav =>
    simp only [step]
    split_ifs with hf
    · exact ⟨rfl, rfl, h⟩
    · unfold finishFailStep
      split
      · rename_i e heq
        obtain ⟨re, cnt, hnav⟩ := navRecordStep_eq s nav
        rw [hnav]
        split_ifs <;>
          · refine ⟨rfl, rfl, ?_⟩
            first
              | simpa using le_trans h (length_le_addSet s.visited e.url)
              | simpa using h
      · exact ⟨rfl, rfl, h⟩
  | extracted i uniq =>
    simp only [step]
    split_ifs with hf
    · exact ⟨rfl, rfl, h⟩
    · unfold extractedStep
      split
      · rename_i e heq
        obtain ⟨tv, pd, st, hfold⟩ :=
          foldl_enqueue_eq (e.depth + 1) (uniq.take cfg.maxLinksPerPage) s
        rw [hfold]
        exact ⟨rfl, rfl, h⟩
      · exact ⟨rfl, rfl, h⟩
  | interrupt =>
    simp only [step]
    split_ifs with hf
    · exact ⟨rfl, rfl, h⟩
    · unfold interruptStep
      split <;> exact ⟨rfl, rfl, h⟩

theorem budget_freeze (cfg : Config) :
    ∀ (cs2 : List Choice) (s : CState), cfg.maxPages ≤ s.visited.length →
      (cs2.foldl (step cfg) s).queueIndex = s.queueIndex := by
  intro cs2
  induction cs2 with
  | nil => exact fun s _ => rfl
  | cons c t ih =>
    intro s h
    have h1 := budget_freeze_step cfg s c h
    exact (ih (step cfg s c) h1.2.2).trans h1.1

theorem crawlResult_spec {s : CState} {r : CrawlResult}
    (h : crawlResult s = some r) :
    r.interrupted = s.shuttingDown ∧ r.pagesScanned = s.visited ∧
    r.pagesFailed = s.failed ∧
    r.pagesAbandoned = (s.toVisit.drop s.queueIndex).map Entry.url ∧
    r.crawlStats = s.stats := by
  unfold crawlResult at h
  split_ifs at h
  all_goals first
    | (subst h; exact ⟨rfl, rfl, rfl, rfl, rfl⟩)
    | (injection h with h2; subst h2; exact ⟨rfl, rfl, rfl, rfl, rfl⟩)
    | simp at h

/-! ### Characterizations of the atomic segments

Each lemma lists the possible outcomes of one helper together with the
branch conditions of the source that select them. -/

theorem loopStep_spec (cfg : Config) (s : CState) (i : Nat) :
    loopStep cfg s i = s ∨
    (s.workers.get? i = some WStatus.idle ∧
      loopStep cfg s i = { s with workers := s.workers.set i WStatus.done }) ∨
    (∃ e, s.workers.get? i = some WStatus.idle ∧ s.shuttingDown = false ∧
      s.visited.length < cfg.maxPages ∧
      s.toVisit.get? s.queueIndex = some e ∧
      (e.url ∈ s.visited ∨ e.url ∈ s.failed) ∧
      loopStep cfg s i
        = { s with queueIndex := s.queueIndex + 1,
                   pending := s.pending.erase e.url }) ∨
    (∃ e, s.workers.get? i = some WStatus.idle ∧ s.shuttingDown = false ∧
      s.visited.length < cfg.maxPages ∧
      s.toVisit.get? s.queueIndex = some e ∧
      e.url ∉ s.visited ∧ e.url ∉ s.failed ∧ e.depth > cfg.maxDepth ∧
      loopStep cfg s i
        = { s with queueIndex := s.queueIndex + 1,
                   pending := s.pending.erase e.url,
                   droppedDeep := s.droppedDeep ++ [e] }) ∨
    (∃ e, s.workers.get? i = some WStatus.idle ∧ s.shuttingDown = false ∧
      s.visited.length < cfg.maxPages ∧
      s.toVisit.get? s.queueIndex = some e ∧
      e.url ∉ s.visited ∧ e.url ∉ s.failed ∧ e.depth ≤ cfg.maxDepth ∧
      loopStep cfg s i
        = { s with queueIndex := s.queueIndex + 1,
                   pending := s.pending.erase e.url,
                   activeWorkers := s.activeWorkers + 1,
                   workers := s.workers.set i (WStatus.fetching e),
                   fetchLog := s.fetchLog ++ [e] }) := by
  unfold loopStep
  by_cases hw : s.workers.get? i ≠ some WStatus.idle
  · rw [if_pos hw]
    exact Or.inl rfl
  · rw [if_neg hw]
    rw [not_not] at hw
    by_cases hsd : (s.shuttingDown || decide (s.visited.length ≥ cfg.maxPages)) = true
    · rw [if_pos hsd]
      exact Or.inr (Or.inl ⟨hw, rfl⟩)
    · rw [if_neg hsd]
      have hsd2 : (s.shuttingDown || decide (s.visited.length ≥ cfg.maxPages)) = false := by
        revert hsd
        cases s.shuttingDown || decide (s.visited.length ≥ cfg.maxPages) <;> simp
      obtain ⟨hflag, hdec⟩ := Bool.or_eq_false_iff.mp hsd2
      have hsize : s.visited.length < cfg.maxPages := by
        simpa using of_decide_eq_false hdec
      by_cases hq : s.queueIndex ≥ s.toVisit.length
      · rw [if_pos hq]
        by_cases ha : s.activeWorkers = 0
        · rw [if_pos ha]
          exact Or.inr (Or.inl ⟨hw, rfl⟩)
        · rw [if_neg ha]
          exact Or.inl rfl
      · rw [if_neg hq]
        rcases hget : s.toVisit.get? s.queueIndex with _ | e
        · exact Or.inl rfl
        · by_cases hv : e.url ∈ s.visited
          · refine Or.inr (Or.inr (Or.inl ⟨e, hw, hflag, hsize, rfl, Or.inl hv, ?_⟩))
            simp [hv]
          · by_cases hfl : e.url ∈ s.failed
            · refine Or.inr (Or.inr (Or.inl ⟨e, hw, hflag, hsize, rfl, Or.inr hfl, ?_⟩))
              simp [hv, hfl]
            · by_cases hd : e.depth > cfg.maxDepth
              · refine Or.inr (Or.inr (Or.inr (Or.inl
                  ⟨e, hw, hflag, hsize, rfl, hv, hfl, hd, ?_⟩)))
                simp [hv, hfl, hd]
              · refine Or.inr (Or.inr (Or.inr (Or.inr
                  ⟨e, hw, hflag, hsize, rfl, hv, hfl, not_lt.mp hd, ?_⟩)))
                have hlt : ¬(cfg.maxPages ≤ s.visited.length) := not_le.mpr hsize
                simp [hv, hfl, hd, hlt]

theorem finishSameStep_spec (s : CState) (i : Nat) :
    finishSameStep s i = s ∨
    ∃ e, s.workers.get? i = some (WStatus.fetching e) ∧
      finishSameStep s i
        = { s with visited := addSet s.visited e.url,
                   stats := { s.stats with
                     pagesScanned := s.stats.pagesScanned + 1 },
                   workers := s.workers.set i (WStatus.extracting e) } := by
  unfold finishSameStep
  rcases hw : s.workers.get? i with _ | w
  · exact Or.inl rfl
  · cases w with
    | idle => exact Or.inl rfl
    | fetching e => exact Or.inr ⟨e, rfl, rfl⟩
    | extracting e => exact Or.inl rfl
    | done => exact Or.inl rfl

theorem extRecordStep_eq (s : CState) (e : Entry) (finalUrl : String)
    (chain : List String) :
    ∃ re c, extRecordStep s e finalUrl chain
      = { s with redirectedExternal := re,
                 stats := { s.stats with redirectsExternal := c } } := by
  unfold extRecordStep
  split_ifs
  · exact ⟨s.redirectedExternal, s.stats.redirectsExternal, rfl⟩
  · exact ⟨_, _, rfl⟩

theorem finishExternalStep_spec (s : CState) (i : Nat) (finalUrl : String)
    (chain : List String) :
    finishExternalStep s i finalUrl chain = s ∨
    ∃ e re c, s.workers.get? i = some (WStatus.fetching e) ∧
      finishExternalStep s i finalUrl chain
        = { s with redirectedExternal := re,
                   stats := { s.stats with redirectsExternal := c },
                   visited := addSet s.visited e.url,
                   visitedExt := if e.url ∈ s.visited then s.visitedExt
                                 else addSet s.visitedExt e.url,
                   activeWorkers := s.activeWorkers - 1,
                   workers := s.workers.set i WStatus.idle } := by
  unfold finishExternalStep
  rcases hw : s.workers.get? i with _ | w
  · exact Or.inl rfl
  · cases w with
    | idle => exact Or.inl rfl
    | fetching e =>
      obtain ⟨re, c, hre⟩ := extRecordStep_eq s e finalUrl chain
      refine Or.inr ⟨e, re, c, rfl, ?_⟩
      simp only [hre]
    | extracting e => exact Or.inl rfl
    | done => exact Or.inl rfl

theorem finishFailStep_spec (cfg : Config) (s : CState) (i : Nat) (err : String)
    (nav : Option (String × String × List String)) :
    finishFailStep cfg s i err nav = s ∨
    (∃ e re c, s.workers.get? i = some (WStatus.fetching e) ∧
      finishFailStep cfg s i err nav
        = { s with redirectedExternal := re,
                   stats := { s.stats with redirectsExternal := c },
                   visited := addSet s.visited e.url,
                   visitedExt := if e.url ∈ s.visited then s.visitedExt
                                 else addSet s.visitedExt e.url,
                   activeWorkers := s.activeWorkers - 1,
                   workers := s.workers.set i WStatus.idle }) ∨
    (∃ e re c, s.workers.get? i = some (WStatus.fetching e) ∧
      e.retries < cfg.maxRetries ∧
      finishFailStep cfg s i err nav
        = { s with redirectedExternal := re,
                   stats := { s.stats with redirectsExternal := c },
                   toVisit := s.toVisit ++ [⟨e.url, e.depth, e.retries + 1⟩],
                   pending := addSet s.pending e.url,
                   activeWorkers := s.activeWorkers - 1,
                   workers := s.workers.set i WStatus.idle }) ∨
    (∃ e re c, s.workers.get? i = some (WStatus.fetching e) ∧
      cfg.maxRetries ≤ e.retries ∧
      finishFailStep cfg s i err nav
        = { s with redirectedExternal := re,
                   stats := { s.stats with
                     redirectsExternal := c,
                     errors := s.stats.errors ++ [(e.url, err)] },
                   failed := addSet s.failed e.url,
                   activeWorkers := s.activeWorkers - 1,
                   workers := s.workers.set i WStatus.idle }) := by
  unfold finishFailStep
  rcases hw : s.workers.get? i with _ | w
  · exact Or.inl rfl
  · cases w with
    | idle => exact Or.inl rfl
    | fetching e =>
      obtain ⟨re, c, hre⟩ := navRecordStep_eq s nav
      simp only [hre]
      by_cases h1 : hasKey re e.url = true
      · simp only [h1, if_true]
        exact Or.inr (Or.inl ⟨e, re, c, rfl, rfl⟩)
      · simp only [h1, if_false, Bool.false_eq_true]
        by_cases h2 : e.retries < cfg.maxRetries
        · simp only [h2, if_true]
          exact Or.inr (Or.inr (Or.inl ⟨e, re, c, rfl, h2, rfl⟩))
        · simp only [h2, if_false]
          exact Or.inr (Or.inr (Or.inr ⟨e, re, c, rfl, not_lt.mp h2, rfl⟩))
    | extracting e => exact Or.inl rfl
    | done => exact Or.inl rfl

theorem extractedStep_spec (cfg : Config) (s : CState) (i : Nat)
    (uniq : List String) :
    extractedStep cfg s i uniq = s ∨
    ∃ e, s.workers.get? i = some (WStatus.extracting e) ∧
      extractedStep cfg s i uniq
        = { (uniq.take cfg.maxLinksPerPage).foldl (enqueueLink (e.depth + 1)) s with
            stats := { ((uniq.take cfg.maxLinksPerPage).foldl
                (enqueueLink (e.depth + 1)) s).stats with
              linksFound := ((uniq.take cfg.maxLinksPerPage).foldl
                  (enqueueLink (e.depth + 1)) s).stats.linksFound
                + (uniq.take cfg.maxLinksPerPage).length,
              linksTruncated := ((uniq.take cfg.maxLinksPerPage).foldl
                  (enqueueLink (e.depth + 1)) s).stats.linksTruncated
                + (if uniq.length > cfg.maxLinksPerPage
                   then uniq.length - (uniq.take cfg.maxLinksPerPage).length
                   else 0) },
            activeWorkers := ((uniq.take cfg.maxLinksPerPage).foldl
                (enqueueLink (e.depth + 1)) s).activeWorkers - 1,
            workers := ((uniq.take cfg.maxLinksPerPage).foldl
                (enqueueLink (e.depth + 1)) s).workers.set i WStatus.idle } := by
  unfold extractedStep
  rcases hw : s.workers.get? i with _ | w
  · exact Or.inl rfl
  · cases w with
    | idle => exact Or.inl rfl
    | fetching e => exact Or.inl rfl
    | extracting e => exact Or.inr ⟨e, rfl, rfl⟩
    | done => exact Or.inl rfl

theorem step_workers_length (cfg : Config) (s : CState) (c : Choice) :
    (step cfg s c).workers.length = s.workers.length := by
  cases c with
  | loop i =>
    simp only [step]
    split_ifs with hf
    · rfl
    · rcases loopStep_spec cfg s i with h | ⟨_, h⟩ | ⟨e, _, _, _, _, _, h⟩
        | ⟨e, _, _, _, _, _, _, _, h⟩ | ⟨e, _, _, _, _, _, _, _, h⟩ <;>
      rw [h] <;> simp [List.length_set]
  | finishSame i =>
    simp only [step]
    split_ifs with hf
    · rfl
    · rcases finishSameStep_spec s i with h | ⟨e, _, h⟩ <;>
      rw [h] <;> simp [List.length_set]
  | finishExternal i finalUrl chain =>
    simp only [step]
    split_ifs with hf
    · rfl
    · rcases finishExternalStep_spec s i finalUrl chain with h | ⟨e, re, c2, _, h⟩ <;>
      rw [h] <;> simp [List.length_set]
  | finishFail i err nav =>
    simp only [step]
    split_ifs with hf
    · rfl
    · rcases finishFailStep_spec cfg s i err nav with h | ⟨e, re, c2, _, h⟩
        | ⟨e, re, c2, _, _, h⟩ | ⟨e, re, c2, _, _, h⟩ <;>
      rw [h] <;> simp [List.length_set]
  | extracted i uniq =>
    simp only [step]
    split_ifs with hf
    · rfl
    · rcases extractedStep_spec cfg s i uniq with h | ⟨e, _, h⟩
      · rw [h]
      · rw [h]
        obtain ⟨tv, pd, st, hfold⟩ :=
          foldl_enqueue_eq (e.depth + 1) (uniq.take cfg.maxLinksPerPage) s
        rw [hfold]
        simp [List.length_set]
  | interrupt =>
    simp only [step]
    split_ifs with hf
    · rfl
    · unfold interruptStep
      split <;> rfl

theorem run_workers_length (cfg : Config) (cs : List Choice) :
    (run cfg cs).workers.length = cfg.concurrency := by
  have hfold : ∀ (cs : List Choice) (s : CState),
      (cs.foldl (step cfg) s).workers.length = s.workers.length := by
    intro cs
    induction cs with
    | nil => exact fun s => rfl
    | cons c t ih =>
      intro s
      rw [List.foldl_cons, ih]
      exact step_workers_length cfg s c
  rw [show run cfg cs = cs.foldl (step cfg) (init cfg) from rfl, hfold]
  simp [init]

/-- C2 (amended): throughout a run, `visited.size` never exceeds
`maxPages + concurrency - 1` (so with a single worker it never exceeds
`maxPages`; with more workers each fetch already in flight when the
budget fills may add one more page, as the counterexample realizes);
once `visited.size` has reached `maxPages`, no later step of the run
claims a frontier entry or starts a fetch; and entries still queued when
the run ends are reported in `pagesAbandoned`, computed from the
authoritative queue state. -/
theorem claim_C2_amended (cfg : Config) (hM : 1 ≤ cfg.maxPages)
    (hN : 1 ≤ cfg.concurrency) (cs : List Choice) :
    (run cfg cs).visited.length ≤ cfg.maxPages + cfg.concurrency - 1 ∧
    (cfg.maxPages ≤ (run cfg cs).visited.length →
      ∀ cs2 : List Choice, (cs2.foldl (step cfg) (run cfg cs)).queueIndex
        = (run cfg cs).queueIndex) ∧
    (∀ r, crawlResult (run cfg cs) = some r →
      r.pagesAbandoned
        = ((run cfg cs).toVisit.drop (run cfg cs).queueIndex).map Entry.url) := by
  refine ⟨?_, fun h cs2 => budget_freeze cfg cs2 _ h,
    fun r h => (crawlResult_spec h).2.2.2.1⟩
  have h1 := budgetInv_run cfg cs
  have h2 := run_workers_length cfg cs
  unfold budgetInv at h1
  rw [h2] at h1
  omega

/-- Witness for C2 (amended) at a concrete completed run. -/
theorem claim_C2_witness :
    (run cfgDepth traceDepth).visited.length
      ≤ cfgDepth.maxPages + cfgDepth.concurrency - 1 :=
  (claim_C2_amended cfgDepth (by decide) (by decide) traceDepth).1

/-! ### Claim C6 (depth policy) -/

/-- The depth invariant: every entry that ever reached `page.goto` passed
the `currentDepth > config.maxDepth` check, in-flight entries are logged,
and every visited URL stems from a logged fetch. -/
structure DepthInv (cfg : Config) (s : CState) : Prop where
  log_depth : ∀ e ∈ s.fetchLog, e.depth ≤ cfg.maxDepth
  inflight_log : ∀ i e, (s.workers.get? i = some (WStatus.fetching e) ∨
      s.workers.get? i = some (WStatus.extracting e)) → e ∈ s.fetchLog
  visited_log : ∀ u ∈ s.visited, ∃ e ∈ s.fetchLog, e.url = u

theorem get?_set_inflight {ws : List WStatus} {i j : Nat} {w : WStatus}
    {e : Entry}
    (h : (ws.set i w).get? j = some (WStatus.fetching e) ∨
         (ws.set i w).get? j = some (WStatus.extracting e)) :
    (ws.get? j = some (WStatus.fetching e) ∨
     ws.get? j = some (WStatus.extracting e)) ∨
    (w = WStatus.fetching e ∨ w = WStatus.extracting e) := by
  by_cases hij : i = j
  · subst hij
    rw [List.get?_set_eq] at h
    refine Or.inr ?_
    rcases h with h | h
    · obtain ⟨a, _, h2⟩ := Option.map_eq_some'.mp h
      exact Or.inl h2
    · obtain ⟨a, _, h2⟩ := Option.map_eq_some'.mp h
      exact Or.inr h2
  · rw [List.get?_set_ne w ws hij] at h
    exact Or.inl h

theorem depthInv_step (cfg : Config) (s : CState) (c : Choice)
    (h : DepthInv cfg s) : DepthInv cfg (step cfg s c) := by
  cases c with
  | loop i =>
    simp only [step]
    split_ifs with hf
    · exact h
    · rcases loopStep_spec cfg s i with heq | ⟨_, heq⟩ | ⟨e, _, _, _, _, _, heq⟩
        | ⟨e, _, _, _, _, _, _, _, heq⟩ | ⟨e, _, _, _, _, _, _, hdep, heq⟩
      · rw [heq]; exact h
      · rw [heq]
        refine ⟨h.log_depth, ?_, h.visited_log⟩
        intro j e2 hj
        rcases get?_set_inflight hj with hj2 | hj2
        · exact h.inflight_log j e2 hj2
        · rcases hj2 with h2 | h2 <;> simp at h2
      · rw [heq]
        exact ⟨h.log_depth, h.inflight_log, h.visited_log⟩
      · rw [heq]
        exact ⟨h.log_depth, h.inflight_log, h.visited_log⟩
      · rw [heq]
        refine ⟨?_, ?_, ?_⟩
        · intro e2 he2
          rcases List.mem_append.mp he2 with h2 | h2
          · exact h.log_depth e2 h2
          · rw [List.mem_singleton.mp h2]
            exact hdep
        · intro j e2 hj
          rcases get?_set_inflight hj with hj2 | hj2
          · exact List.mem_append_left _ (h.inflight_log j e2 hj2)
          · rcases hj2 with h2 | h2
            · injection h2 with h3
              subst h3
              exact List.mem_append_right _ (List.mem_singleton_self _)
            · simp at h2
        · intro u hu
          obtain ⟨e2, he2, hu2⟩ := h.visited_log u hu
          exact ⟨e2, List.mem_append_left _ he2, hu2⟩
  | finishSame i =>
    simp only [step]
    split_ifs with hf
    · exact h
    · rcases finishSameStep_spec s i with heq | ⟨e, hw, heq⟩
      · rw [heq]; exact h
      · rw [heq]
        refine ⟨h.log_depth, ?_, ?_⟩
        · intro j e2 hj
          rcases get?_set_inflight hj with hj2 | hj2
          · exact h.inflight_log j e2 hj2
          · rcases hj2 with h2 | h2
            · simp at h2
            · injection h2 with h3
              rw [← h3]
              exact h.inflight_log i e (Or.inl hw)
        · intro u hu
          rcases mem_addSet.mp hu with hu2 | rfl
          · exact h.visited_log u hu2
          · exact ⟨e, h.inflight_log i e (Or.inl hw), rfl⟩
  | finishExternal i finalUrl chain =>
    simp only [step]
    split_ifs with hf
    · exact h
    · rcases finishExternalStep_spec s i finalUrl chain with heq | ⟨e, re, c2, hw, heq⟩
      · rw [heq]; exact h
      · rw [heq]
        refine ⟨h.log_depth, ?_, ?_⟩
        · intro j e2 hj
          rcases get?_set_inflight hj with hj2 | hj2
          · exact h.inflight_log j e2 hj2
          · rcases hj2 with h2 | h2 <;> simp at h2
        · intro u hu
          rcases mem_addSet.mp hu with hu2 | rfl
          · exact h.visited_log u hu2
          · exact ⟨e, h.inflight_log i e (Or.inl hw), rfl⟩
  | finishFail i err nav =>
    simp only [step]
    split_ifs with hf
    · exact h
    · rcases finishFailStep_spec cfg s i err nav with heq | ⟨e, re, c2, hw, heq⟩
        | ⟨e, re, c2, hw, _, heq⟩ | ⟨e, re, c2, hw, _, heq⟩ <;> rw [heq]
      · exact h
      · refine ⟨h.log_depth, ?_, ?_⟩
        · intro j e2 hj
          rcases get?_set_inflight hj with hj2 | hj2
          · exact h.inflight_log j e2 hj2
          · rcases hj2 with h2 | h2 <;> simp at h2
        · intro u hu
          rcases mem_addSet.mp hu with hu2 | rfl
          · exact h.visited_log u hu2
          · exact ⟨e, h.inflight_log i e (Or.inl hw), rfl⟩
      · refine ⟨h.log_depth, ?_, h.visited_log⟩
        intro j e2 hj
        rcases get?_set_inflight hj with hj2 | hj2
        · exact h.inflight_log j e2 hj2
        · rcases hj2 with h2 | h2 <;> simp at h2
      · refine ⟨h.log_depth, ?_, h.visited_log⟩
        intro j e2 hj
        rcases get?_set_inflight hj with hj2 | hj2
        · exact h.inflight_log j e2 hj2
        · rcases hj2 with h2 | h2 <;> simp at h2
  | extracted i uniq =>
    simp only [step]
    split_ifs with hf
    · exact h
    · rcases extractedStep_spec cfg s i uniq with heq | ⟨e, hw, heq⟩
      · rw [heq]; exact h
      · rw [heq]
        obtain ⟨tv, pd, st, hfold⟩ :=
          foldl_enqueue_eq (e.depth + 1) (uniq.take cfg.maxLinksPerPage) s
        rw [hfold]
        refine ⟨h.log_depth, ?_, h.visited_log⟩
        intro j e2 hj
        rcases get?_set_inflight hj with hj2 | hj2
        · exact h.inflight_log j e2 hj2
        · rcases hj2 with h2 | h2 <;> simp at h2
  | interrupt =>
    simp only [step]
    split_ifs with hf
    · exact h
    · unfold interruptStep
      split <;> exact ⟨h.log_depth, h.inflight_log, h.visited_log⟩

theorem depthInv_run (cfg : Config) (cs : List Choice) :
    DepthInv cfg (run cfg cs) := by
  have hinit : DepthInv cfg (init cfg) := by
    refine ⟨?_, ?_, ?_⟩
    · intro e he; simp [init] at he
    · intro i e hj
      rcases hj with hj | hj <;>
        · simp only [init] at hj
          rcases hq : (List.replicate cfg.concurrency WStatus.idle).get? i with _ | w
          · rw [hq] at hj; simp at hj
          · rw [hq] at hj
            have := List.get?_mem hq
            rw [List.eq_of_mem_replicate this] at hj
            simp at hj
    · intro u hu; simp [init] at hu
  exact foldl_inv cfg (depthInv_step cfg) cs (init cfg) hinit

/-- C6: a frontier entry whose depth exceeds `maxDepth` is discarded at
claim time — the claim advances `queueIndex`, removes the URL from
`pending` and logs the entry as dropped, while `failed`, `toVisit`, the
fetch log and the worker statuses are untouched (no fetch attempt, no
retry, no failure record); consequently every fetch attempt of a run has
depth at most `maxDepth`, and every visited URL comes from such an
attempt. -/
theorem claim_C6 (cfg : Config) :
    (∀ (s : CState) (i : Nat) (e : Entry), s.forced = false →
      s.workers.get? i = some WStatus.idle → s.shuttingDown = false →
      s.visited.length < cfg.maxPages →
      s.toVisit.get? s.queueIndex = some e →
      e.url ∉ s.visited → e.url ∉ s.failed → cfg.maxDepth < e.depth →
      step cfg s (Choice.loop i)
        = { s with queueIndex := s.queueIndex + 1,
                   pending := s.pending.erase e.url,
                   droppedDeep := s.droppedDeep ++ [e] }) ∧
    (∀ cs : List Choice,
      (∀ e ∈ (run cfg cs).fetchLog, e.depth ≤ cfg.maxDepth) ∧
      (∀ u ∈ (run cfg cs).visited,
        ∃ e ∈ (run cfg cs).fetchLog, e.url = u ∧ e.depth ≤ cfg.maxDepth)) := by
  constructor
  · intro s i e hf hw hsd hsize hget hv hfl hd
    have hnw : ¬s.workers.get? i ≠ some WStatus.idle := not_not.mpr hw
    have hsd2 : (s.shuttingDown || decide (s.visited.length ≥ cfg.maxPages))
        = false := by
      rw [hsd]
      simpa using Nat.not_le.mpr hsize
    have hq : ¬s.queueIndex ≥ s.toVisit.length := by
      intro hge
      rw [List.get?_eq_none.mpr hge] at hget
      simp at hget
    simp only [step, hf, Bool.false_eq_true, if_false]
    unfold loopStep
    rw [if_neg hnw, hsd2]
    simp only [Bool.false_eq_true, if_false]
    rw [if_neg hq, hget]
    simp [hv, hfl, hd, hf]
  · intro cs
    have h := depthInv_run cfg cs
    refine ⟨h.log_depth, ?_⟩
    intro u hu
    obtain ⟨e, he, hu2⟩ := h.visited_log u hu
    exact ⟨e, he, hu2, h.log_depth e he⟩

/-- The prefix of `traceDepth` just before the over-depth claim. -/
def traceDepth3 : List Choice :=
  [Choice.loop 0, Choice.finishSame 0, Choice.extracted 0 ["https://a.com/b"]]

/-- Witness for C6: the depth-1 entry for `https://a.com/b` is discarded at
claim time under `maxDepth = 0`, and the completed run fetched only
depth-0 entries. -/
theorem claim_C6_witness :
    step cfgDepth (run cfgDepth traceDepth3) (Choice.loop 0)
      = { run cfgDepth traceDepth3 with
          queueIndex := (run cfgDepth traceDepth3).queueIndex + 1,
          pending := (run cfgDepth traceDepth3).pending.erase "https://a.com/b",
          droppedDeep := (run cfgDepth traceDepth3).droppedDeep
            ++ [⟨"https://a.com/b", 1, 0⟩] } ∧
    (∀ e ∈ (run cfgDepth traceDepth).fetchLog, e.depth ≤ cfgDepth.maxDepth) := by
  constructor
  · exact (claim_C6 cfgDepth).1 _ 0 ⟨"https://a.com/b", 1, 0⟩ (by decide)
      (by decide) (by decide) (by decide) (by decide) (by decide) (by decide)
      (by decide)
  · exact ((claim_C6 cfgDepth).2 traceDepth).1

/-! ### Claim C4 (external-origin redirect handling) -/

theorem hasKey_eq_true {recs : List (String × RedirectRecord)} {k : String} :
    hasKey recs k = true ↔ k ∈ recs.map Prod.fst := by
  simp [hasKey, List.any_eq_true, List.mem_map]

theorem hasKey_eq_false {recs : List (String × RedirectRecord)} {k : String} :
    hasKey recs k = false ↔ k ∉ recs.map Prod.fst := by
  rw [← hasKey_eq_true]
  cases hasKey recs k <;> simp

/-- Keys of the `redirectedExternal` map are pairwise distinct: records
are only ever inserted under an absent key. -/
def keysNodup (s : CState) : Prop :=
  (s.redirectedExternal.map Prod.fst).Nodup

theorem keys_append_nodup {recs : List (String × RedirectRecord)} {k : String}
    {rec : RedirectRecord} (h : (recs.map Prod.fst).Nodup)
    (hk : hasKey recs k = false) :
    ((recs ++ [(k, rec)]).map Prod.fst).Nodup := by
  rw [List.map_append]
  simp [List.nodup_append, h, hasKey_eq_false.mp hk]

theorem extRecordStep_keys (s : CState) (e : Entry) (finalUrl : String)
    (chain : List String) :
    (extRecordStep s e finalUrl chain).redirectedExternal
        = s.redirectedExternal ∨
    (hasKey s.redirectedExternal e.url = false ∧
      (extRecordStep s e finalUrl chain).redirectedExternal
        = s.redirectedExternal ++ [(e.url,
            { «from» := e.url, «to» := finalUrl, chain := chain ++ [finalUrl],
              reason := "redirected-to-external-origin" })]) := by
  unfold extRecordStep
  split_ifs with h1
  · exact Or.inl rfl
  · refine Or.inr ⟨?_, rfl⟩
    revert h1
    cases hasKey s.redirectedExternal e.url <;> simp

theorem navRecordStep_keys (s : CState)
    (nav : Option (String × String × List String)) :
    (navRecordStep s nav).redirectedExternal = s.redirectedExternal ∨
    ∃ k rec, hasKey s.redirectedExternal k = false ∧
      (navRecordStep s nav).redirectedExternal
        = s.redirectedExternal ++ [(k, rec)] := by
  rcases nav with _ | ⟨l, r, ch⟩
  · exact Or.inl rfl
  · simp only [navRecordStep]
    split_ifs with h1
    · exact Or.inl rfl
    · refine Or.inr ⟨normalizeUrl l, _, ?_, rfl⟩
      revert h1
      cases hasKey s.redirectedExternal (normalizeUrl l) <;> simp

theorem keysNodup_step (cfg : Config) (s : CState) (c : Choice)
    (h : keysNodup s) : keysNodup (step cfg s c) := by
  cases c with
  | loop i =>
    simp only [step]
    split_ifs with hf
    · exact h
    · rcases loopStep_spec cfg s i with heq | ⟨_, heq⟩ | ⟨e, _, _, _, _, _, heq⟩
        | ⟨e, _, _, _, _, _, _, _, heq⟩ | ⟨e, _, _, _, _, _, _, _, heq⟩ <;>
      rw [heq] <;> exact h
  | finishSame i =>
    simp only [step]
    split_ifs with hf
    · exact h
    · rcases finishSameStep_spec s i with heq | ⟨e, _, heq⟩ <;> rw [heq] <;> exact h
  | finishExternal i finalUrl chain =>
    simp only [step]
    split_ifs with hf
    · exact h
    · unfold finishExternalStep
      rcases hw : s.workers.get? i with _ | w
      · exact h
      · cases w with
        | idle => exact h
        | fetching e =>
          show (((extRecordStep s e finalUrl chain).redirectedExternal).map
            Prod.fst).Nodup
          rcases extRecordStep_keys s e finalUrl chain with h2 | ⟨hk, h2⟩
          · rw [h2]; exact h
          · rw [h2]; exact keys_append_nodup h hk
        | extracting e => exact h
        | done => exact h
  | finishFail i err nav =>
    simp only [step]
    split_ifs with hf
    · exact h
    · unfold finishFailStep
      rcases hw : s.workers.get? i with _ | w
      · exact h
      · cases w with
        | idle => exact h
        | fetching e =>
          have hnav : ((navRecordStep s nav).redirectedExternal.map
              Prod.fst).Nodup := by
            rcases navRecordStep_keys s nav with h2 | ⟨k, rec, hk, h2⟩
            · rw [h2]; exact h
            · rw [h2]; exact keys_append_nodup h hk
          repeat' split
          all_goals exact hnav
        | extracting e => exact h
        | done => exact h
  | extracted i uniq =>
    simp only [step]
    split_ifs with hf
    · exact h
    · rcases extractedStep_spec cfg s i uniq with heq | ⟨e, _, heq⟩
      · rw [heq]; exact h
      · rw [heq]
        obtain ⟨tv, pd, st, hfold⟩ :=
          foldl_enqueue_eq (e.depth + 1) (uniq.take cfg.maxLinksPerPage) s
        rw [hfold]
        exact h
  | interrupt =>
    simp only [step]
    split_ifs with hf
    · exact h
    · unfold interruptStep
      split <;> exact h

theorem keysNodup_run (cfg : Config) (cs : List Choice) :
    keysNodup (run cfg cs) := by
  have hinit : keysNodup (init cfg) := by simp [keysNodup, init]
  exact foldl_inv cfg (keysNodup_step cfg) cs (init cfg) hinit

theorem run_append (cfg : Config) (cs : List Choice) (c : Choice) :
    run cfg (cs ++ [c]) = step cfg (run cfg cs) c := by
  unfold run
  rw [List.foldl_append]
  rfl

/-- C4: when a navigation succeeds but the final URL is cross-origin, the
claimed URL is marked visited; afterwards the `redirectedExternal` map
holds exactly one record keyed by that URL — newly created as
`{from := claimed URL, to := final URL}` when the key was absent, and
left untouched (deduplicated by the from-URL) when a record already
existed; the worker goes back to its loop head without an extraction
phase, and `pagesScanned` and the fetch log are unchanged (the page is
"reached" but not "crawled"). -/
theorem claim_C4 (cfg : Config) (cs : List Choice) (i : Nat) (e : Entry)
    (finalUrl : String) (chain : List String)
    (hw : (run cfg cs).workers.get? i = some (WStatus.fetching e))
    (hf : (run cfg cs).forced = false) :
    e.url ∈ (step cfg (run cfg cs) (Choice.finishExternal i finalUrl chain)).visited ∧
    ((step cfg (run cfg cs)
        (Choice.finishExternal i finalUrl chain)).redirectedExternal.map
          Prod.fst).count e.url = 1 ∧
    (hasKey (run cfg cs).redirectedExternal e.url = false →
      (step cfg (run cfg cs)
          (Choice.finishExternal i finalUrl chain)).redirectedExternal
        = (run cfg cs).redirectedExternal ++ [(e.url,
            { «from» := e.url, «to» := finalUrl, chain := chain ++ [finalUrl],
              reason := "redirected-to-external-origin" })]) ∧
    (hasKey (run cfg cs).redirectedExternal e.url = true →
      (step cfg (run cfg cs)
          (Choice.finishExternal i finalUrl chain)).redirectedExternal
        = (run cfg cs).redirectedExternal) ∧
    (step cfg (run cfg cs)
        (Choice.finishExternal i finalUrl chain)).workers.get? i
      = some WStatus.idle ∧
    (step cfg (run cfg cs)
        (Choice.finishExternal i finalUrl chain)).stats.pagesScanned
      = (run cfg cs).stats.pagesScanned ∧
    (step cfg (run cfg cs)
        (Choice.finishExternal i finalUrl chain)).fetchLog
      = (run cfg cs).fetchLog := by
  have hstep : step cfg (run cfg cs) (Choice.finishExternal i finalUrl chain)
      = { extRecordStep (run cfg cs) e finalUrl chain with
          visited := addSet (extRecordStep (run cfg cs) e finalUrl chain).visited
            e.url,
          visitedExt := if e.url ∈ (run cfg cs).visited
                        then (run cfg cs).visitedExt
                        else addSet (run cfg cs).visitedExt e.url,
          activeWorkers :=
            (extRecordStep (run cfg cs) e finalUrl chain).activeWorkers - 1,
          workers := (extRecordStep (run cfg cs) e finalUrl
            chain).workers.set i WStatus.idle } := by
    simp only [step, hf, Bool.false_eq_true, if_false]
    unfold finishExternalStep
    rw [hw]
  have hnodup : keysNodup
      (step cfg (run cfg cs) (Choice.finishExternal i finalUrl chain)) := by
    rw [← run_append]
    exact keysNodup_run cfg (cs ++ [Choice.finishExternal i finalUrl chain])
  by_cases hk : hasKey (run cfg cs).redirectedExternal e.url = true
  · have hext : extRecordStep (run cfg cs) e finalUrl chain = run cfg cs := by
      unfold extRecordStep
      rw [if_pos hk]
    rw [hstep, hext] at hnodup ⊢
    refine ⟨mem_addSet.mpr (Or.inr rfl), ?_,
      fun hfalse => absurd hk (by simp [hfalse]), fun _ => rfl, ?_, rfl, rfl⟩
    · exact List.count_eq_one_of_mem hnodup (hasKey_eq_true.mp hk)
    · rw [List.get?_set_eq, hw]
      rfl
  · have hk2 : hasKey (run cfg cs).redirectedExternal e.url = false := by
      revert hk
      cases hasKey (run cfg cs).redirectedExternal e.url <;> simp
    have hext : extRecordStep (run cfg cs) e finalUrl chain
        = { run cfg cs with
            redirectedExternal := (run cfg cs).redirectedExternal ++ [(e.url,
              { «from» := e.url, «to» := finalUrl, chain := chain ++ [finalUrl],
                reason := "redirected-to-external-origin" })],
            stats := { (run cfg cs).stats with
              redirectsExternal := (run cfg cs).stats.redirectsExternal + 1 } } := by
      unfold extRecordStep
      rw [if_neg hk]
    rw [hstep, hext] at hnodup ⊢
    refine ⟨mem_addSet.mpr (Or.inr rfl), ?_, fun _ => rfl,
      fun htrue => absurd htrue (by simp [hk2]), ?_, rfl, rfl⟩
    · refine List.count_eq_one_of_mem hnodup ?_
      rw [List.map_append]
      exact List.mem_append_right _ (by simp)
    · rw [List.get?_set_eq, hw]
      rfl

/-- Witness for C4: in a concrete run, worker 0 fetching the seed resolves
to an external final URL; the seed is marked visited, one redirect record
keyed by it is created, and `pagesScanned` stays 0. -/
theorem claim_C4_witness :
    "https://a.com/" ∈ (step cfgRace (run cfgRace [Choice.loop 0])
      (Choice.finishExternal 0 "https://other.test/new" ["https://a.com/"])).visited ∧
    ((step cfgRace (run cfgRace [Choice.loop 0])
      (Choice.finishExternal 0 "https://other.test/new"
        ["https://a.com/"])).redirectedExternal.map Prod.fst).count
      "https://a.com/" = 1 ∧
    (step cfgRace (run cfgRace [Choice.loop 0])
      (Choice.finishExternal 0 "https://other.test/new"
        ["https://a.com/"])).stats.pagesScanned
      = (run cfgRace [Choice.loop 0]).stats.pagesScanned := by
  have h := claim_C4 cfgRace [Choice.loop 0] 0 ⟨"https://a.com/", 0, 0⟩
    "https://other.test/new" ["https://a.com/"] (by decide) (by decide)
  exact ⟨h.1, h.2.1, h.2.2.2.2.2.1⟩

/-! ### The sequential invariant (single worker) behind C1, C5 and C10

With `concurrency = 1` there is no interleaving between the membership
checks and the `await`ed fetches, so the bookkeeping sets stay mutually
consistent.  `SInv` collects the facts preserved by every atomic step. -/

theorem get?_singleton {α : Type} {w x : α} {i : Nat}
    (h : ([w] : List α).get? i = some x) : i = 0 ∧ x = w := by
  cases i with
  | zero =>
    refine ⟨rfl, ?_⟩
    simp [List.get?] at h
    exact h.symm
  | succ n => simp [List.get?] at h

theorem mem_of_mem_drop_succ {α : Type} {l : List α} {q : Nat} {x : α}
    (h : x ∈ l.drop (q + 1)) : x ∈ l.drop q := by
  have h2 : (l.drop q).drop 1 = l.drop (q + 1) := by
    rw [List.drop_drop, Nat.add_comm]
  rw [← h2] at h
  exact List.drop_subset _ _ h

theorem drop_eq_cons_of_get? {α : Type} {l : List α} {q : Nat} {x : α}
    (h : l.get? q = some x) : l.drop q = x :: l.drop (q + 1) := by
  obtain ⟨hlt, hx⟩ := List.get?_eq_some.mp h
  rw [List.drop_eq_get_cons hlt, hx]

theorem take_succ_of_get? {α : Type} {l : List α} {q : Nat} {x : α}
    (h : l.get? q = some x) : l.take (q + 1) = l.take q ++ [x] := by
  rw [List.take_succ, ← List.get?_eq_getElem?, h]
  rfl

theorem lt_length_of_get? {α : Type} {l : List α} {q : Nat} {x : α}
    (h : l.get? q = some x) : q < l.length := by
  obtain ⟨hlt, _⟩ := List.get?_eq_some.mp h
  exact hlt

theorem addSet_of_not_mem {l : List String} {x : String} (h : x ∉ l) :
    addSet l x = l ++ [x] := by
  unfold addSet
  rw [if_neg h]

theorem countLog_append (L : List Entry) (e : Entry) (u : String) :
    ((L ++ [e]).filter fun e2 => e2.url == u).length
      = (L.filter fun e2 => e2.url == u).length
        + (if e.url = u then 1 else 0) := by
  rw [List.filter_append]
  by_cases h : e.url = u
  · simp [h]
  · simp [h]

/-- The sequential (single-worker) crawl invariant: the frontier, the
membership sets, the per-URL attempt counts and the scan statistics stay
mutually consistent when only one worker runs. -/
structure SInv (cfg : Config) (s : CState) : Prop where
  wone : ∃ w, s.workers = [w]
  qle : s.queueIndex ≤ s.toVisit.length
  pnd : s.pending.Nodup
  disj : ∀ u ∈ s.visited, u ∉ s.failed
  pV : ∀ u ∈ s.pending, u ∉ s.visited
  pF : ∀ u ∈ s.pending, u ∉ s.failed
  und : ((s.toVisit.drop s.queueIndex).map Entry.url).Nodup
  up : ∀ e ∈ s.toVisit.drop s.queueIndex, e.url ∈ s.pending
  pu : ∀ u ∈ s.pending, ∃ e ∈ s.toVisit.drop s.queueIndex, e.url = u
  cu : ∀ e ∈ s.toVisit.drop s.queueIndex,
    countAttempts s e.url = e.retries ∧ e.retries ≤ cfg.maxRetries ∧
    (e.retries ≠ 0 → e.depth ≤ cfg.maxDepth)
  fet : ∀ i e, s.workers.get? i = some (WStatus.fetching e) →
    e.url ∉ s.visited ∧ e.url ∉ s.failed ∧ e.url ∉ s.pending ∧
    countAttempts s e.url = e.retries + 1 ∧ e.retries ≤ cfg.maxRetries ∧
    e.depth ≤ cfg.maxDepth
  ex : ∀ i e, s.workers.get? i = some (WStatus.extracting e) →
    e.url ∈ s.visited
  cf : ∀ u ∈ s.failed, countAttempts s u = cfg.maxRetries + 1
  c0 : ∀ u, u ∉ s.visited → u ∉ s.failed → u ∉ s.pending →
    (∀ i e, s.workers.get? i = some (WStatus.fetching e) → e.url ≠ u) →
    countAttempts s u = 0
  cl : ∀ e ∈ s.toVisit.take s.queueIndex,
    e.url ∈ s.visited ∨ e.url ∈ s.failed ∨ e.url ∈ s.pending ∨
    (∃ i e2, s.workers.get? i = some (WStatus.fetching e2) ∧ e2.url = e.url) ∨
    (∃ i e2, s.workers.get? i = some (WStatus.extracting e2) ∧ e2.url = e.url) ∨
    e.url ∈ s.droppedDeep.map Entry.url
  sc : s.stats.pagesScanned + s.visitedExt.length = s.visited.length
  sv : ∀ u ∈ s.visitedExt, u ∈ s.visited

theorem enqueueLink_keep (d : Nat) (s : CState) (l : String) :
    enqueueLink d s l = s ∨
    (normalizeUrl l ∉ s.visited ∧ normalizeUrl l ∉ s.failed ∧
      normalizeUrl l ∉ s.pending ∧
      enqueueLink d s l = { s with
        toVisit := s.toVisit ++ [⟨normalizeUrl l, d, 0⟩],
        pending := s.pending ++ [normalizeUrl l],
        stats := { s.stats with
          newLinksFound := s.stats.newLinksFound + 1 } }) := by
  unfold enqueueLink
  split_ifs with h
  · exact Or.inl rfl
  · push_neg at h
    obtain ⟨h1, h2, h3⟩ := h
    refine Or.inr ⟨h1, h2, h3, ?_⟩
    rw [addSet_of_not_mem h3]

theorem enqueueLink_workers (d : Nat) (s : CState) (l : String) :
    (enqueueLink d s l).workers = s.workers := by
  unfold enqueueLink
  split_ifs <;> rfl

/-- Appending one fresh link to the frontier (the effective branch of
`enqueueLink`) preserves the sequential invariant. -/
theorem sInv_append (cfg : Config) (s : CState) (n : String) (d : Nat)
    (h : SInv cfg s)
    (hnf : ∀ i e, s.workers.get? i ≠ some (WStatus.fetching e))
    (h1 : n ∉ s.visited) (h2 : n ∉ s.failed) (h3 : n ∉ s.pending) :
    SInv cfg { s with toVisit := s.toVisit ++ [⟨n, d, 0⟩],
                      pending := s.pending ++ [n],
                      stats := { s.stats with
                        newLinksFound := s.stats.newLinksFound + 1 } } := by
  have hdrop : (s.toVisit ++ [(⟨n, d, 0⟩ : Entry)]).drop s.queueIndex
      = s.toVisit.drop s.queueIndex ++ [⟨n, d, 0⟩] :=
    List.drop_append_of_le_length h.qle
  have htake : (s.toVisit ++ [(⟨n, d, 0⟩ : Entry)]).take s.queueIndex
      = s.toVisit.take s.queueIndex :=
    List.take_append_of_le_length h.qle
  have hnmem : n ∉ (s.toVisit.drop s.queueIndex).map Entry.url := by
    intro hmem
    obtain ⟨e2, he2, hurl⟩ := List.mem_map.mp hmem
    exact h3 (hurl ▸ h.up e2 he2)
  have hcount : countAttempts s n = 0 :=
    h.c0 n h1 h2 h3 (fun i e hw => absurd hw (hnf i e))
  refine
    { wone := h.wone
      qle := ?_
      pnd := ?_
      disj := h.disj
      pV := ?_
      pF := ?_
      und := ?_
      up := ?_
      pu := ?_
      cu := ?_
      fet := fun i e hw => absurd hw (hnf i e)
      ex := h.ex
      cf := h.cf
      c0 := ?_
      cl := ?_
      sc := h.sc
      sv := h.sv }
  · show s.queueIndex ≤ (s.toVisit ++ [(⟨n, d, 0⟩ : Entry)]).length
    rw [List.length_append]
    exact Nat.le_trans h.qle (Nat.le_add_right _ _)
  · show (s.pending ++ [n]).Nodup
    simpa [List.nodup_append, h3] using h.pnd
  · show ∀ u ∈ s.pending ++ [n], u ∉ s.visited
    intro u hu
    rcases List.mem_append.mp hu with hu2 | hu2
    · exact h.pV u hu2
    · rw [List.mem_singleton.mp hu2]
      exact h1
  · show ∀ u ∈ s.pending ++ [n], u ∉ s.failed
    intro u hu
    rcases List.mem_append.mp hu with hu2 | hu2
    · exact h.pF u hu2
    · rw [List.mem_singleton.mp hu2]
      exact h2
  · show (((s.toVisit ++ [(⟨n, d, 0⟩ : Entry)]).drop s.queueIndex).map
      Entry.url).Nodup
    rw [hdrop, List.map_append]
    refine List.Nodup.append h.und (by simp) ?_
    intro a ha hb
    simp at hb
    rw [hb] at ha
    exact hnmem ha
  · show ∀ e2 ∈ (s.toVisit ++ [(⟨n, d, 0⟩ : Entry)]).drop s.queueIndex,
      e2.url ∈ s.pending ++ [n]
    intro e2 he2
    rw [hdrop] at he2
    rcases List.mem_append.mp he2 with he | he
    · exact List.mem_append_left _ (h.up e2 he)
    · rw [List.mem_singleton.mp he]
      exact List.mem_append_right _ (List.mem_singleton.mpr rfl)
  · show ∀ u ∈ s.pending ++ [n],
      ∃ e ∈ (s.toVisit ++ [(⟨n, d, 0⟩ : Entry)]).drop s.queueIndex, e.url = u
    intro u hu
    rw [hdrop]
    rcases List.mem_append.mp hu with hu2 | hu2
    · obtain ⟨e2, he2, hurl⟩ := h.pu u hu2
      exact ⟨e2, List.mem_append_left _ he2, hurl⟩
    · rw [List.mem_singleton.mp hu2]
      exact ⟨⟨n, d, 0⟩, List.mem_append_right _ (List.mem_singleton.mpr rfl), rfl⟩
  · show ∀ e2 ∈ (s.toVisit ++ [(⟨n, d, 0⟩ : Entry)]).drop s.queueIndex,
      countAttempts s e2.url = e2.retries ∧ e2.retries ≤ cfg.maxRetries ∧
        (e2.retries ≠ 0 → e2.depth ≤ cfg.maxDepth)
    intro e2 he2
    rw [hdrop] at he2
    rcases List.mem_append.mp he2 with he | he
    · exact h.cu e2 he
    · rw [List.mem_singleton.mp he]
      exact ⟨hcount, Nat.zero_le _, fun h0 => absurd rfl h0⟩
  · show ∀ u, u ∉ s.visited → u ∉ s.failed → u ∉ s.pending ++ [n] →
      (∀ i e, s.workers.get? i = some (WStatus.fetching e) → e.url ≠ u) →
      countAttempts s u = 0
    intro u hv2 hf2 hp2 _
    exact h.c0 u hv2 hf2 (fun hu => hp2 (List.mem_append_left _ hu))
      (fun i e hw => absurd hw (hnf i e))
  · show ∀ e2 ∈ (s.toVisit ++ [(⟨n, d, 0⟩ : Entry)]).take s.queueIndex,
      e2.url ∈ s.visited ∨ e2.url ∈ s.failed ∨ e2.url ∈ s.pending ++ [n] ∨
      (∃ i e3, s.workers.get? i = some (WStatus.fetching e3) ∧ e3.url = e2.url) ∨
      (∃ i e3, s.workers.get? i = some (WStatus.extracting e3) ∧ e3.url = e2.url) ∨
      e2.url ∈ s.droppedDeep.map Entry.url
    intro e2 he2
    rw [htake] at he2
    rcases h.cl e2 he2 with hx | hx | hx | hx | hx | hx
    · exact Or.inl hx
    · exact Or.inr (Or.inl hx)
    · exact Or.inr (Or.inr (Or.inl (List.mem_append_left _ hx)))
    · exact Or.inr (Or.inr (Or.inr (Or.inl hx)))
    · exact Or.inr (Or.inr (Or.inr (Or.inr (Or.inl hx))))
    · exact Or.inr (Or.inr (Or.inr (Or.inr (Or.inr hx))))

theorem sInv_enqueueLink (cfg : Config) (d : Nat) (s : CState) (l : String)
    (h : SInv cfg s)
    (hnf : ∀ i e, s.workers.get? i ≠ some (WStatus.fetching e)) :
    SInv cfg (enqueueLink d s l) := by
  rcases enqueueLink_keep d s l with heq | ⟨h1, h2, h3, heq⟩
  · rw [heq]
    exact h
  · rw [heq]
    exact sInv_append cfg s (normalizeUrl l) d h hnf h1 h2 h3

theorem sInv_foldl (cfg : Config) (d : Nat) :
    ∀ (links : List String) (s : CState), SInv cfg s →
      (∀ i e, s.workers.get? i ≠ some (WStatus.fetching e)) →
      SInv cfg (links.foldl (enqueueLink d) s) ∧
        (links.foldl (enqueueLink d) s).workers = s.workers := by
  intro links
  induction links with
  | nil => exact fun s h _ => ⟨h, rfl⟩
  | cons l t ih =>
    intro s h hnf
    have hw := enqueueLink_workers d s l
    have hrec := ih (enqueueLink d s l) (sInv_enqueueLink cfg d s l h hnf)
      (by rw [hw]; exact hnf)
    rw [List.foldl_cons]
    exact ⟨hrec.1, by rw [hrec.2, hw]⟩

/-- The record shape shared by `finishExternalStep` and the
redirect-aware branch of `finishFailStep` (mark visited, count an
external visit, release the worker) preserves the sequential
invariant. -/
theorem sInv_extVisit (cfg : Config) (s : CState) (i : Nat) (e : Entry)
    (re : List (String × RedirectRecord)) (c : Nat)
    (h : SInv cfg s) (hw : s.workers.get? i = some (WStatus.fetching e)) :
    SInv cfg { s with redirectedExternal := re,
                      stats := { s.stats with redirectsExternal := c },
                      visited := addSet s.visited e.url,
                      visitedExt := if e.url ∈ s.visited then s.visitedExt
                                    else addSet s.visitedExt e.url,
                      activeWorkers := s.activeWorkers - 1,
                      workers := s.workers.set i WStatus.idle } := by
  obtain ⟨w, hws⟩ := h.wone
  rw [hws] at hw
  obtain ⟨hi, hwe⟩ := get?_singleton hw
  subst hi
  have hw0 : s.workers.get? 0 = some (WStatus.fetching e) := by
    rw [hws, ← hwe]
    rfl
  obtain ⟨hv, hf, hp, hcnt, hr, hd⟩ := h.fet 0 e hw0
  have hxe : e.url ∉ s.visitedExt := fun hx => hv (h.sv e.url hx)
  have hworkers : s.workers.set 0 WStatus.idle = [WStatus.idle] := by
    rw [hws]
    rfl
  refine
    { wone := ⟨WStatus.idle, hworkers⟩
      qle := h.qle
      pnd := h.pnd
      disj := ?_
      pV := ?_
      pF := h.pF
      und := h.und
      up := h.up
      pu := h.pu
      cu := h.cu
      fet := ?_
      ex := ?_
      cf := h.cf
      c0 := ?_
      cl := ?_
      sc := ?_
      sv := ?_ }
  · show ∀ u ∈ addSet s.visited e.url, u ∉ s.failed
    intro u hu
    rcases mem_addSet.mp hu with hu2 | hu2
    · exact h.disj u hu2
    · rw [hu2]
      exact hf
  · show ∀ u ∈ s.pending, u ∉ addSet s.visited e.url
    intro u hu hmem
    rcases mem_addSet.mp hmem with hm | hm
    · exact h.pV u hu hm
    · rw [hm] at hu
      exact hp hu
  · intro j e2 hj
    have hj2 : (s.workers.set 0 WStatus.idle).get? j
        = some (WStatus.fetching e2) := hj
    rw [hworkers] at hj2
    obtain ⟨_, hcontra⟩ := get?_singleton hj2
    exact absurd hcontra (by simp)
  · intro j e2 hj
    have hj2 : (s.workers.set 0 WStatus.idle).get? j
        = some (WStatus.extracting e2) := hj
    rw [hworkers] at hj2
    obtain ⟨_, hcontra⟩ := get?_singleton hj2
    exact absurd hcontra (by simp)
  · show ∀ u, u ∉ addSet s.visited e.url → u ∉ s.failed → u ∉ s.pending →
      (∀ j e2, (s.workers.set 0 WStatus.idle).get? j
        = some (WStatus.fetching e2) → e2.url ≠ u) →
      countAttempts s u = 0
    intro u hu1 hu2 hu3 _
    have hne : e.url ≠ u := fun hequ =>
      hu1 (mem_addSet.mpr (Or.inr hequ.symm))
    refine h.c0 u (fun hm => hu1 (mem_addSet.mpr (Or.inl hm))) hu2 hu3 ?_
    intro j e2 hj
    rw [hws] at hj
    obtain ⟨_, he2⟩ := get?_singleton hj
    have he3 : WStatus.fetching e2 = WStatus.fetching e := he2.trans hwe.symm
    injection he3 with he4
    rw [he4]
    exact hne
  · show ∀ e2 ∈ s.toVisit.take s.queueIndex,
      e2.url ∈ addSet s.visited e.url ∨ e2.url ∈ s.failed ∨ e2.url ∈ s.pending ∨
      (∃ j e3, (s.workers.set 0 WStatus.idle).get? j
        = some (WStatus.fetching e3) ∧ e3.url = e2.url) ∨
      (∃ j e3, (s.workers.set 0 WStatus.idle).get? j
        = some (WStatus.extracting e3) ∧ e3.url = e2.url) ∨
      e2.url ∈ s.droppedDeep.map Entry.url
    intro e2 he2
    rcases h.cl e2 he2 with hx | hx | hx | hx | hx | hx
    · exact Or.inl (mem_addSet.mpr (Or.inl hx))
    · exact Or.inr (Or.inl hx)
    · exact Or.inr (Or.inr (Or.inl hx))
    · obtain ⟨j, e3, hj, hurl⟩ := hx
      rw [hws] at hj
      obtain ⟨_, he3⟩ := get?_singleton hj
      have he4 : WStatus.fetching e3 = WStatus.fetching e := he3.trans hwe.symm
      injection he4 with he5
      refine Or.inl (mem_addSet.mpr (Or.inr ?_))
      rw [← hurl, he5]
    · obtain ⟨j, e3, hj, _⟩ := hx
      rw [hws] at hj
      obtain ⟨_, he3⟩ := get?_singleton hj
      have he4 : WStatus.extracting e3 = WStatus.fetching e := he3.trans hwe.symm
      exact absurd he4 (by simp)
    · exact Or.inr (Or.inr (Or.inr (Or.inr (Or.inr hx))))
  · show s.stats.pagesScanned
        + (if e.url ∈ s.visited then s.visitedExt
           else addSet s.visitedExt e.url).length
      = (addSet s.visited e.url).length
    rw [if_neg hv, addSet_of_not_mem hxe, addSet_of_not_mem hv,
      List.length_append, List.length_append]
    have := h.sc
    simp only [List.length_singleton]
    omega
  · show ∀ u ∈ (if e.url ∈ s.visited then s.visitedExt
      else addSet s.visitedExt e.url), u ∈ addSet s.visited e.url
    intro u hu
    rw [if_neg hv, addSet_of_not_mem hxe] at hu
    rcases List.mem_append.mp hu with hu2 | hu2
    · exact mem_addSet.mpr (Or.inl (h.sv u hu2))
    · rw [List.mem_singleton.mp hu2]
      exact mem_addSet.mpr (Or.inr rfl)

theorem sInv_setDone (cfg : Config) (s : CState) (i : Nat)
    (h : SInv cfg s) (hidle : s.workers.get? i = some WStatus.idle) :
    SInv cfg { s with workers := s.workers.set i WStatus.done } := by
  obtain ⟨w, hws⟩ := h.wone
  rw [hws] at hidle
  obtain ⟨hi, hwi⟩ := get?_singleton hidle
  subst hi
  have hworkers : s.workers.set 0 WStatus.done = [WStatus.done] := by
    rw [hws]
    rfl
  have hnf : ∀ j e2, s.workers.get? j ≠ some (WStatus.fetching e2) := by
    intro j e2 hj
    rw [hws] at hj
    obtain ⟨_, hc⟩ := get?_singleton hj
    rw [← hwi] at hc
    exact absurd hc (by simp)
  have hnx : ∀ j e2, s.workers.get? j ≠ some (WStatus.extracting e2) := by
    intro j e2 hj
    rw [hws] at hj
    obtain ⟨_, hc⟩ := get?_singleton hj
    rw [← hwi] at hc
    exact absurd hc (by simp)
  refine
    { wone := ⟨WStatus.done, hworkers⟩
      qle := h.qle
      pnd := h.pnd
      disj := h.disj
      pV := h.pV
      pF := h.pF
      und := h.und
      up := h.up
      pu := h.pu
      cu := h.cu
      fet := ?_
      ex := ?_
      cf := h.cf
      c0 := ?_
      cl := ?_
      sc := h.sc
      sv := h.sv }
  · intro j e2 hj
    have hj2 : (s.workers.set 0 WStatus.done).get? j
        = some (WStatus.fetching e2) := hj
    rw [hworkers] at hj2
    obtain ⟨_, hc⟩ := get?_singleton hj2
    exact absurd hc (by simp)
  · intro j e2 hj
    have hj2 : (s.workers.set 0 WStatus.done).get? j
        = some (WStatus.extracting e2) := hj
    rw [hworkers] at hj2
    obtain ⟨_, hc⟩ := get?_singleton hj2
    exact absurd hc (by simp)
  · show ∀ u, u ∉ s.visited → u ∉ s.failed → u ∉ s.pending →
      (∀ j e2, (s.workers.set 0 WStatus.done).get? j
        = some (WStatus.fetching e2) → e2.url ≠ u) →
      countAttempts s u = 0
    intro u h1 h2 h3 _
    exact h.c0 u h1 h2 h3 (fun j e2 hj => absurd hj (hnf j e2))
  · show ∀ e2 ∈ s.toVisit.take s.queueIndex,
      e2.url ∈ s.visited ∨ e2.url ∈ s.failed ∨ e2.url ∈ s.pending ∨
      (∃ j e3, (s.workers.set 0 WStatus.done).get? j
        = some (WStatus.fetching e3) ∧ e3.url = e2.url) ∨
      (∃ j e3, (s.workers.set 0 WStatus.done).get? j
        = some (WStatus.extracting e3) ∧ e3.url = e2.url) ∨
      e2.url ∈ s.droppedDeep.map Entry.url
    intro e2 he2
    rcases h.cl e2 he2 with hx | hx | hx | hx | hx | hx
    · exact Or.inl hx
    · exact Or.inr (Or.inl hx)
    · exact Or.inr (Or.inr (Or.inl hx))
    · obtain ⟨j, e3, hj, _⟩ := hx
      exact absurd hj (hnf j e3)
    · obtain ⟨j, e3, hj, _⟩ := hx
      exact absurd hj (hnx j e3)
    · exact Or.inr (Or.inr (Or.inr (Or.inr (Or.inr hx))))

theorem sInv_dropDeep (cfg : Config) (s : CState) (e : Entry)
    (h : SInv cfg s) (hget : s.toVisit.get? s.queueIndex = some e)
    (hv : e.url ∉ s.visited) (hfl : e.url ∉ s.failed)
    (hd : e.depth > cfg.maxDepth) :
    SInv cfg { s with queueIndex := s.queueIndex + 1,
                      pending := s.pending.erase e.url,
                      droppedDeep := s.droppedDeep ++ [e] } := by
  have hdropc : s.toVisit.drop s.queueIndex
      = e :: s.toVisit.drop (s.queueIndex + 1) := drop_eq_cons_of_get? hget
  have hmemd : e ∈ s.toVisit.drop s.queueIndex := by
    rw [hdropc]
    exact List.mem_cons_self _ _
  have hund := h.und
  rw [hdropc, List.map_cons, List.nodup_cons] at hund
  obtain ⟨hnotin, hnd2⟩ := hund
  obtain ⟨hcu0, hru, hdd⟩ := h.cu e hmemd
  have hr0 : e.retries = 0 := by
    by_contra hne
    exact absurd (hdd hne) (Nat.not_le.mpr hd)
  have htake : s.toVisit.take (s.queueIndex + 1)
      = s.toVisit.take s.queueIndex ++ [e] := take_succ_of_get? hget
  refine
    { wone := h.wone
      qle := lt_length_of_get? hget
      pnd := h.pnd.erase _
      disj := h.disj
      pV := ?_
      pF := ?_
      und := hnd2
      up := ?_
      pu := ?_
      cu := ?_
      fet := ?_
      ex := h.ex
      cf := h.cf
      c0 := ?_
      cl := ?_
      sc := h.sc
      sv := h.sv }
  · show ∀ u ∈ s.pending.erase e.url, u ∉ s.visited
    intro u hu
    exact h.pV u (List.erase_subset _ _ hu)
  · show ∀ u ∈ s.pending.erase e.url, u ∉ s.failed
    intro u hu
    exact h.pF u (List.erase_subset _ _ hu)
  · show ∀ e2 ∈ s.toVisit.drop (s.queueIndex + 1), e2.url ∈ s.pending.erase e.url
    intro e2 he2
    refine (h.pnd.mem_erase_iff).mpr ⟨?_, h.up e2 (mem_of_mem_drop_succ he2)⟩
    intro hequ
    exact hnotin (by rw [← hequ]; exact List.mem_map_of_mem _ he2)
  · show ∀ u ∈ s.pending.erase e.url,
      ∃ e2 ∈ s.toVisit.drop (s.queueIndex + 1), e2.url = u
    intro u hu
    obtain ⟨hneu, hup2⟩ := (h.pnd.mem_erase_iff).mp hu
    obtain ⟨e2, he2, hurl⟩ := h.pu u hup2
    rw [hdropc] at he2
    rcases List.mem_cons.mp he2 with he3 | he3
    · rw [he3] at hurl
      exact absurd hurl.symm hneu
    · exact ⟨e2, he3, hurl⟩
  · show ∀ e2 ∈ s.toVisit.drop (s.queueIndex + 1),
      countAttempts s e2.url = e2.retries ∧ e2.retries ≤ cfg.maxRetries ∧
        (e2.retries ≠ 0 → e2.depth ≤ cfg.maxDepth)
    intro e2 he2
    exact h.cu e2 (mem_of_mem_drop_succ he2)
  · intro j e2 hj
    obtain ⟨o1, o2, o3, o4, o5, o6⟩ := h.fet j e2 hj
    exact ⟨o1, o2, fun hm => o3 (List.erase_subset _ _ hm), o4, o5, o6⟩
  · show ∀ u, u ∉ s.visited → u ∉ s.failed → u ∉ s.pending.erase e.url →
      (∀ j e2, s.workers.get? j = some (WStatus.fetching e2) → e2.url ≠ u) →
      countAttempts s u = 0
    intro u h1 h2 h3 h4
    by_cases hque : u = e.url
    · rw [hque, hcu0, hr0]
    · exact h.c0 u h1 h2
        (fun hm => h3 ((List.mem_erase_of_ne hque).mpr hm)) h4
  · show ∀ e2 ∈ s.toVisit.take (s.queueIndex + 1),
      e2.url ∈ s.visited ∨ e2.url ∈ s.failed ∨ e2.url ∈ s.pending.erase e.url ∨
      (∃ j e3, s.workers.get? j = some (WStatus.fetching e3) ∧ e3.url = e2.url) ∨
      (∃ j e3, s.workers.get? j = some (WStatus.extracting e3) ∧ e3.url = e2.url) ∨
      e2.url ∈ (s.droppedDeep ++ [e]).map Entry.url
    intro e2 he2
    rw [htake] at he2
    rcases List.mem_append.mp he2 with he3 | he3
    · rcases h.cl e2 he3 with hx | hx | hx | hx | hx | hx
      · exact Or.inl hx
      · exact Or.inr (Or.inl hx)
      · by_cases hque : e2.url = e.url
        · refine Or.inr (Or.inr (Or.inr (Or.inr (Or.inr ?_))))
          rw [List.map_append, hque]
          exact List.mem_append_right _ (by simp)
        · exact Or.inr (Or.inr (Or.inl ((List.mem_erase_of_ne hque).mpr hx)))
      · exact Or.inr (Or.inr (Or.inr (Or.inl hx)))
      · exact Or.inr (Or.inr (Or.inr (Or.inr (Or.inl hx))))
      · refine Or.inr (Or.inr (Or.inr (Or.inr (Or.inr ?_))))
        rw [List.map_append]
        exact List.mem_append_left _ hx
    · rw [List.mem_singleton.mp he3]
      refine Or.inr (Or.inr (Or.inr (Or.inr (Or.inr ?_))))
      rw [List.map_append]
      exact List.mem_append_right _ (by simp)

theorem sInv_claimFetch (cfg : Config) (s : CState) (i : Nat) (e : Entry)
    (h : SInv cfg s) (hidle : s.workers.get? i = some WStatus.idle)
    (hget : s.toVisit.get? s.queueIndex = some e)
    (hv : e.url ∉ s.visited) (hfl : e.url ∉ s.failed)
    (hd : e.depth ≤ cfg.maxDepth) :
    SInv cfg { s with queueIndex := s.queueIndex + 1,
                      pending := s.pending.erase e.url,
                      activeWorkers := s.activeWorkers + 1,
                      workers := s.workers.set i (WStatus.fetching e),
                      fetchLog := s.fetchLog ++ [e] } := by
  obtain ⟨w, hws⟩ := h.wone
  rw [hws] at hidle
  obtain ⟨hi, hwi⟩ := get?_singleton hidle
  subst hi
  have hworkers : s.workers.set 0 (WStatus.fetching e) = [WStatus.fetching e] := by
    rw [hws]
    rfl
  have hnf : ∀ j e2, s.workers.get? j ≠ some (WStatus.fetching e2) := by
    intro j e2 hj
    rw [hws] at hj
    obtain ⟨_, hc⟩ := get?_singleton hj
    rw [← hwi] at hc
    exact absurd hc (by simp)
  have hdropc : s.toVisit.drop s.queueIndex
      = e :: s.toVisit.drop (s.queueIndex + 1) := drop_eq_cons_of_get? hget
  have hmemd : e ∈ s.toVisit.drop s.queueIndex := by
    rw [hdropc]
    exact List.mem_cons_self _ _
  have hund := h.und
  rw [hdropc, List.map_cons, List.nodup_cons] at hund
  obtain ⟨hnotin, hnd2⟩ := hund
  obtain ⟨hcu0, hru, _⟩ := h.cu e hmemd
  have htake : s.toVisit.take (s.queueIndex + 1)
      = s.toVisit.take s.queueIndex ++ [e] := take_succ_of_get? hget
  have hcount : ∀ u, ((s.fetchLog ++ [e]).filter fun e2 => e2.url == u).length
      = countAttempts s u + (if e.url = u then 1 else 0) :=
    fun u => countLog_append s.fetchLog e u
  refine
    { wone := ⟨WStatus.fetching e, hworkers⟩
      qle := lt_length_of_get? hget
      pnd := h.pnd.erase _
      disj := h.disj
      pV := ?_
      pF := ?_
      und := hnd2
      up := ?_
      pu := ?_
      cu := ?_
      fet := ?_
      ex := ?_
      cf := ?_
      c0 := ?_
      cl := ?_
      sc := h.sc
      sv := h.sv }
  · show ∀ u ∈ s.pending.erase e.url, u ∉ s.visited
    intro u hu
    exact h.pV u (List.erase_subset _ _ hu)
  · show ∀ u ∈ s.pending.erase e.url, u ∉ s.failed
    intro u hu
    exact h.pF u (List.erase_subset _ _ hu)
  · show ∀ e2 ∈ s.toVisit.drop (s.queueIndex + 1), e2.url ∈ s.pending.erase e.url
    intro e2 he2
    refine (h.pnd.mem_erase_iff).mpr ⟨?_, h.up e2 (mem_of_mem_drop_succ he2)⟩
    intro hequ
    exact hnotin (by rw [← hequ]; exact List.mem_map_of_mem _ he2)
  · show ∀ u ∈ s.pending.erase e.url,
      ∃ e2 ∈ s.toVisit.drop (s.queueIndex + 1), e2.url = u
    intro u hu
    obtain ⟨hneu, hup2⟩ := (h.pnd.mem_erase_iff).mp hu
    obtain ⟨e2, he2, hurl⟩ := h.pu u hup2
    rw [hdropc] at he2
    rcases List.mem_cons.mp he2 with he3 | he3
    · rw [he3] at hurl
      exact absurd hurl.symm hneu
    · exact ⟨e2, he3, hurl⟩
  · show ∀ e2 ∈ s.toVisit.drop (s.queueIndex + 1),
      ((s.fetchLog ++ [e]).filter fun e3 => e3.url == e2.url).length
          = e2.retries ∧
        e2.retries ≤ cfg.maxRetries ∧ (e2.retries ≠ 0 → e2.depth ≤ cfg.maxDepth)
    intro e2 he2
    obtain ⟨hc2, hr2, hd2⟩ := h.cu e2 (mem_of_mem_drop_succ he2)
    refine ⟨?_, hr2, hd2⟩
    have hne : ¬(e.url = e2.url) := by
      intro hequ
      exact hnotin (by rw [hequ]; exact List.mem_map_of_mem _ he2)
    rw [hcount e2.url, if_neg hne, Nat.add_zero]
    exact hc2
  · intro j e2 hj
    have hj2 : (s.workers.set 0 (WStatus.fetching e)).get? j
        = some (WStatus.fetching e2) := hj
    rw [hworkers] at hj2
    obtain ⟨_, hc⟩ := get?_singleton hj2
    injection hc with hce
    rw [hce]
    refine ⟨hv, hfl, fun hm => ((h.pnd.mem_erase_iff).mp hm).1 rfl, ?_, hru, hd⟩
    show ((s.fetchLog ++ [e]).filter fun e3 => e3.url == e.url).length
      = e.retries + 1
    rw [hcount e.url, if_pos rfl, hcu0]
  · intro j e2 hj
    have hj2 : (s.workers.set 0 (WStatus.fetching e)).get? j
        = some (WStatus.extracting e2) := hj
    rw [hworkers] at hj2
    obtain ⟨_, hc⟩ := get?_singleton hj2
    exact absurd hc (by simp)
  · show ∀ u ∈ s.failed,
      ((s.fetchLog ++ [e]).filter fun e3 => e3.url == u).length
        = cfg.maxRetries + 1
    intro u hu
    have hne : ¬(e.url = u) := fun hequ => hfl (by rw [hequ]; exact hu)
    rw [hcount u, if_neg hne, Nat.add_zero]
    exact h.cf u hu
  · show ∀ u, u ∉ s.visited → u ∉ s.failed → u ∉ s.pending.erase e.url →
      (∀ j e2, (s.workers.set 0 (WStatus.fetching e)).get? j
        = some (WStatus.fetching e2) → e2.url ≠ u) →
      ((s.fetchLog ++ [e]).filter fun e3 => e3.url == u).length = 0
    intro u h1 h2 h3 h4
    have hneu : e.url ≠ u := by
      refine h4 0 e ?_
      rw [hworkers]
      rfl
    have hueu : u ≠ e.url := fun hque => hneu hque.symm
    rw [hcount u, if_neg hneu, Nat.add_zero]
    exact h.c0 u h1 h2 (fun hm => h3 ((List.mem_erase_of_ne hueu).mpr hm))
      (fun j e2 hj => absurd hj (hnf j e2))
  · show ∀ e2 ∈ s.toVisit.take (s.queueIndex + 1),
      e2.url ∈ s.visited ∨ e2.url ∈ s.failed ∨ e2.url ∈ s.pending.erase e.url ∨
      (∃ j e3, (s.workers.set 0 (WStatus.fetching e)).get? j
        = some (WStatus.fetching e3) ∧ e3.url = e2.url) ∨
      (∃ j e3, (s.workers.set 0 (WStatus.fetching e)).get? j
        = some (WStatus.extracting e3) ∧ e3.url = e2.url) ∨
      e2.url ∈ s.droppedDeep.map Entry.url
    intro e2 he2
    rw [htake] at he2
    have hget0 : (s.workers.set 0 (WStatus.fetching e)).get? 0
        = some (WStatus.fetching e) := by
      rw [hworkers]
      rfl
    rcases List.mem_append.mp he2 with he3 | he3
    · rcases h.cl e2 he3 with hx | hx | hx | hx | hx | hx
      · exact Or.inl hx
      · exact Or.inr (Or.inl hx)
      · by_cases hque : e2.url = e.url
        · exact Or.inr (Or.inr (Or.inr (Or.inl ⟨0, e, hget0, hque.symm⟩)))
        · exact Or.inr (Or.inr (Or.inl ((List.mem_erase_of_ne hque).mpr hx)))
      · obtain ⟨j, e3, hj, _⟩ := hx
        exact absurd hj (hnf j e3)
      · obtain ⟨j, e3, hj, _⟩ := hx
        rw [hws] at hj
        obtain ⟨_, hc⟩ := get?_singleton hj
        rw [← hwi] at hc
        exact absurd hc (by simp)
      · exact Or.inr (Or.inr (Or.inr (Or.inr (Or.inr hx))))
    · rw [List.mem_singleton.mp he3]
      exact Or.inr (Or.inr (Or.inr (Or.inl ⟨0, e, hget0, rfl⟩)))

theorem sInv_loop (cfg : Config) (s : CState) (i : Nat) (h : SInv cfg s) :
    SInv cfg (loopStep cfg s i) := by
  rcases loopStep_spec cfg s i with heq | ⟨hidle, heq⟩
    | ⟨e, hidle, _, _, hget, hvf, heq⟩
    | ⟨e, hidle, _, _, hget, hv, hfl, hd, heq⟩
    | ⟨e, hidle, _, _, hget, hv, hfl, hd, heq⟩
  · rw [heq]
    exact h
  · rw [heq]
    exact sInv_setDone cfg s i h hidle
  · have hdropc := drop_eq_cons_of_get? hget
    have hmemd : e ∈ s.toVisit.drop s.queueIndex := by
      rw [hdropc]
      exact List.mem_cons_self _ _
    have hep := h.up e hmemd
    rcases hvf with hv | hfl
    · exact absurd hv (h.pV e.url hep)
    · exact absurd hfl (h.pF e.url hep)
  · rw [heq]
    exact sInv_dropDeep cfg s e h hget hv hfl hd
  · rw [heq]
    exact sInv_claimFetch cfg s i e h hidle hget hv hfl hd

theorem sInv_markVisited (cfg : Config) (s : CState) (i : Nat) (e : Entry)
    (h : SInv cfg s) (hw : s.workers.get? i = some (WStatus.fetching e)) :
    SInv cfg { s with visited := addSet s.visited e.url,
                      stats := { s.stats with
                        pagesScanned := s.stats.pagesScanned + 1 },
                      workers := s.workers.set i (WStatus.extracting e) } := by
  obtain ⟨w, hws⟩ := h.wone
  rw [hws] at hw
  obtain ⟨hi, hwe⟩ := get?_singleton hw
  subst hi
  have hw0 : s.workers.get? 0 = some (WStatus.fetching e) := by
    rw [hws, ← hwe]
    rfl
  obtain ⟨hv, hf, hp, hcnt, hr, hd⟩ := h.fet 0 e hw0
  have hworkers : s.workers.set 0 (WStatus.extracting e)
      = [WStatus.extracting e] := by
    rw [hws]
    rfl
  have hvis : addSet s.visited e.url = s.visited ++ [e.url] :=
    addSet_of_not_mem hv
  refine
    { wone := ⟨WStatus.extracting e, hworkers⟩
      qle := h.qle
      pnd := h.pnd
      disj := ?_
      pV := ?_
      pF := h.pF
      und := h.und
      up := h.up
      pu := h.pu
      cu := h.cu
      fet := ?_
      ex := ?_
      cf := h.cf
      c0 := ?_
      cl := ?_
      sc := ?_
      sv := ?_ }
  · show ∀ u ∈ addSet s.visited e.url, u ∉ s.failed
    intro u hu
    rcases mem_addSet.mp hu with hu2 | hu2
    · exact h.disj u hu2
    · rw [hu2]
      exact hf
  · show ∀ u ∈ s.pending, u ∉ addSet s.visited e.url
    intro u hu hmem
    rcases mem_addSet.mp hmem with hm | hm
    · exact h.pV u hu hm
    · rw [hm] at hu
      exact hp hu
  · intro j e2 hj
    have hj2 : (s.workers.set 0 (WStatus.extracting e)).get? j
        = some (WStatus.fetching e2) := hj
    rw [hworkers] at hj2
    obtain ⟨_, hc⟩ := get?_singleton hj2
    exact absurd hc (by simp)
  · intro j e2 hj
    have hj2 : (s.workers.set 0 (WStatus.extracting e)).get? j
        = some (WStatus.extracting e2) := hj
    rw [hworkers] at hj2
    obtain ⟨_, hc⟩ := get?_singleton hj2
    injection hc with hce
    rw [hce]
    exact mem_addSet.mpr (Or.inr rfl)
  · show ∀ u, u ∉ addSet s.visited e.url → u ∉ s.failed → u ∉ s.pending →
      (∀ j e2, (s.workers.set 0 (WStatus.extracting e)).get? j
        = some (WStatus.fetching e2) → e2.url ≠ u) →
      countAttempts s u = 0
    intro u hu1 hu2 hu3 _
    have hne : e.url ≠ u := fun hequ =>
      hu1 (mem_addSet.mpr (Or.inr hequ.symm))
    refine h.c0 u (fun hm => hu1 (mem_addSet.mpr (Or.inl hm))) hu2 hu3 ?_
    intro j e2 hj
    rw [hws] at hj
    obtain ⟨_, he2⟩ := get?_singleton hj
    have he3 : WStatus.fetching e2 = WStatus.fetching e := he2.trans hwe.symm
    injection he3 with he4
    rw [he4]
    exact hne
  · show ∀ e2 ∈ s.toVisit.take s.queueIndex,
      e2.url ∈ addSet s.visited e.url ∨ e2.url ∈ s.failed ∨ e2.url ∈ s.pending ∨
      (∃ j e3, (s.workers.set 0 (WStatus.extracting e)).get? j
        = some (WStatus.fetching e3) ∧ e3.url = e2.url) ∨
      (∃ j e3, (s.workers.set 0 (WStatus.extracting e)).get? j
        = some (WStatus.extracting e3) ∧ e3.url = e2.url) ∨
      e2.url ∈ s.droppedDeep.map Entry.url
    intro e2 he2
    have hget0 : (s.workers.set 0 (WStatus.extracting e)).get? 0
        = some (WStatus.extracting e) := by
      rw [hworkers]
      rfl
    rcases h.cl e2 he2 with hx | hx | hx | hx | hx | hx
    · exact Or.inl (mem_addSet.mpr (Or.inl hx))
    · exact Or.inr (Or.inl hx)
    · exact Or.inr (Or.inr (Or.inl hx))
    · obtain ⟨j, e3, hj, hurl⟩ := hx
      rw [hws] at hj
      obtain ⟨_, he3⟩ := get?_singleton hj
      have he4 : WStatus.fetching e3 = WStatus.fetching e := he3.trans hwe.symm
      injection he4 with he5
      rw [he5] at hurl
      exact Or.inr (Or.inr (Or.inr (Or.inr (Or.inl ⟨0, e, hget0, hurl⟩))))
    · obtain ⟨j, e3, hj, _⟩ := hx
      rw [hws] at hj
      obtain ⟨_, he3⟩ := get?_singleton hj
      have he4 : WStatus.extracting e3 = WStatus.fetching e := he3.trans hwe.symm
      exact absurd he4 (by simp)
    · exact Or.inr (Or.inr (Or.inr (Or.inr (Or.inr hx))))
  · show s.stats.pagesScanned + 1 + s.visitedExt.length
      = (addSet s.visited e.url).length
    rw [hvis, List.length_append]
    have := h.sc
    simp only [List.length_singleton]
    omega
  · show ∀ u ∈ s.visitedExt, u ∈ addSet s.visited e.url
    intro u hu
    exact mem_addSet.mpr (Or.inl (h.sv u hu))

theorem sInv_retry (cfg : Config) (s : CState) (i : Nat) (e : Entry)
    (re : List (String × RedirectRecord)) (c : Nat)
    (h : SInv cfg s) (hw : s.workers.get? i = some (WStatus.fetching e))
    (hlt : e.retries < cfg.maxRetries) :
    SInv cfg { s with redirectedExternal := re,
                      stats := { s.stats with redirectsExternal := c },
                      toVisit := s.toVisit ++ [⟨e.url, e.depth, e.retries + 1⟩],
                      pending := addSet s.pending e.url,
                      activeWorkers := s.activeWorkers - 1,
                      workers := s.workers.set i WStatus.idle } := by
  obtain ⟨w, hws⟩ := h.wone
  rw [hws] at hw
  obtain ⟨hi, hwe⟩ := get?_singleton hw
  subst hi
  have hw0 : s.workers.get? 0 = some (WStatus.fetching e) := by
    rw [hws, ← hwe]
    rfl
  obtain ⟨hv, hf, hp, hcnt, hr, hd⟩ := h.fet 0 e hw0
  have hworkers : s.workers.set 0 WStatus.idle = [WStatus.idle] := by
    rw [hws]
    rfl
  have hpend : addSet s.pending e.url = s.pending ++ [e.url] :=
    addSet_of_not_mem hp
  have hdrop : (s.toVisit ++ [(⟨e.url, e.depth, e.retries + 1⟩ : Entry)]).drop
      s.queueIndex
      = s.toVisit.drop s.queueIndex ++ [⟨e.url, e.depth, e.retries + 1⟩] :=
    List.drop_append_of_le_length h.qle
  have htake : (s.toVisit ++ [(⟨e.url, e.depth, e.retries + 1⟩ : Entry)]).take
      s.queueIndex
      = s.toVisit.take s.queueIndex :=
    List.take_append_of_le_length h.qle
  have hnmem : e.url ∉ (s.toVisit.drop s.queueIndex).map Entry.url := by
    intro hmem
    obtain ⟨e2, he2, hurl⟩ := List.mem_map.mp hmem
    exact hp (hurl ▸ h.up e2 he2)
  refine
    { wone := ⟨WStatus.idle, hworkers⟩
      qle := ?_
      pnd := ?_
      disj := h.disj
      pV := ?_
      pF := ?_
      und := ?_
      up := ?_
      pu := ?_
      cu := ?_
      fet := ?_
      ex := ?_
      cf := h.cf
      c0 := ?_
      cl := ?_
      sc := h.sc
      sv := h.sv }
  · show s.queueIndex
      ≤ (s.toVisit ++ [(⟨e.url, e.depth, e.retries + 1⟩ : Entry)]).length
    rw [List.length_append]
    exact Nat.le_trans h.qle (Nat.le_add_right _ _)
  · show (addSet s.pending e.url).Nodup
    rw [hpend]
    simpa [List.nodup_append, hp] using h.pnd
  · show ∀ u ∈ addSet s.pending e.url, u ∉ s.visited
    intro u hu
    rcases mem_addSet.mp hu with hu2 | hu2
    · exact h.pV u hu2
    · rw [hu2]
      exact hv
  · show ∀ u ∈ addSet s.pending e.url, u ∉ s.failed
    intro u hu
    rcases mem_addSet.mp hu with hu2 | hu2
    · exact h.pF u hu2
    · rw [hu2]
      exact hf
  · show (((s.toVisit ++ [(⟨e.url, e.depth, e.retries + 1⟩ : Entry)]).drop
      s.queueIndex).map Entry.url).Nodup
    rw [hdrop, List.map_append]
    refine List.Nodup.append h.und (by simp) ?_
    intro a ha hb
    simp at hb
    rw [hb] at ha
    exact hnmem ha
  · show ∀ e2 ∈ (s.toVisit ++ [(⟨e.url, e.depth, e.retries + 1⟩ : Entry)]).drop
      s.queueIndex, e2.url ∈ addSet s.pending e.url
    intro e2 he2
    rw [hdrop] at he2
    rcases List.mem_append.mp he2 with he | he
    · exact mem_addSet.mpr (Or.inl (h.up e2 he))
    · rw [List.mem_singleton.mp he]
      exact mem_addSet.mpr (Or.inr rfl)
  · show ∀ u ∈ addSet s.pending e.url,
      ∃ e2 ∈ (s.toVisit ++ [(⟨e.url, e.depth, e.retries + 1⟩ : Entry)]).drop
        s.queueIndex, e2.url = u
    intro u hu
    rw [hdrop]
    rcases mem_addSet.mp hu with hu2 | hu2
    · obtain ⟨e2, he2, hurl⟩ := h.pu u hu2
      exact ⟨e2, List.mem_append_left _ he2, hurl⟩
    · rw [hu2]
      exact ⟨⟨e.url, e.depth, e.retries + 1⟩,
        List.mem_append_right _ (List.mem_singleton.mpr rfl), rfl⟩
  · show ∀ e2 ∈ (s.toVisit ++ [(⟨e.url, e.depth, e.retries + 1⟩ : Entry)]).drop
      s.queueIndex,
      countAttempts s e2.url = e2.retries ∧ e2.retries ≤ cfg.maxRetries ∧
        (e2.retries ≠ 0 → e2.depth ≤ cfg.maxDepth)
    intro e2 he2
    rw [hdrop] at he2
    rcases List.mem_append.mp he2 with he | he
    · exact h.cu e2 he
    · rw [List.mem_singleton.mp he]
      exact ⟨hcnt, hlt, fun _ => hd⟩
  · intro j e2 hj
    have hj2 : (s.workers.set 0 WStatus.idle).get? j
        = some (WStatus.fetching e2) := hj
    rw [hworkers] at hj2
    obtain ⟨_, hc⟩ := get?_singleton hj2
    exact absurd hc (by simp)
  · intro j e2 hj
    have hj2 : (s.workers.set 0 WStatus.idle).get? j
        = some (WStatus.extracting e2) := hj
    rw [hworkers] at hj2
    obtain ⟨_, hc⟩ := get?_singleton hj2
    exact absurd hc (by simp)
  · show ∀ u, u ∉ s.visited → u ∉ s.failed → u ∉ addSet s.pending e.url →
      (∀ j e2, (s.workers.set 0 WStatus.idle).get? j
        = some (WStatus.fetching e2) → e2.url ≠ u) →
      countAttempts s u = 0
    intro u h1 h2 h3 _
    have hne : e.url ≠ u := fun hequ =>
      h3 (mem_addSet.mpr (Or.inr hequ.symm))
    refine h.c0 u h1 h2 (fun hm => h3 (mem_addSet.mpr (Or.inl hm))) ?_
    intro j e2 hj
    rw [hws] at hj
    obtain ⟨_, he2⟩ := get?_singleton hj
    have he3 : WStatus.fetching e2 = WStatus.fetching e := he2.trans hwe.symm
    injection he3 with he4
    rw [he4]
    exact hne
  · show ∀ e2 ∈ (s.toVisit ++ [(⟨e.url, e.depth, e.retries + 1⟩ : Entry)]).take
      s.queueIndex,
      e2.url ∈ s.visited ∨ e2.url ∈ s.failed ∨ e2.url ∈ addSet s.pending e.url ∨
      (∃ j e3, (s.workers.set 0 WStatus.idle).get? j
        = some (WStatus.fetching e3) ∧ e3.url = e2.url) ∨
      (∃ j e3, (s.workers.set 0 WStatus.idle).get? j
        = some (WStatus.extracting e3) ∧ e3.url = e2.url) ∨
      e2.url ∈ s.droppedDeep.map Entry.url
    intro e2 he2
    rw [htake] at he2
    rcases h.cl e2 he2 with hx | hx | hx | hx | hx | hx
    · exact Or.inl hx
    · exact Or.inr (Or.inl hx)
    · exact Or.inr (Or.inr (Or.inl (mem_addSet.mpr (Or.inl hx))))
    · obtain ⟨j, e3, hj, hurl⟩ := hx
      rw [hws] at hj
      obtain ⟨_, he3⟩ := get?_singleton hj
      have he4 : WStatus.fetching e3 = WStatus.fetching e := he3.trans hwe.symm
      injection he4 with he5
      rw [he5] at hurl
      refine Or.inr (Or.inr (Or.inl (mem_addSet.mpr (Or.inr hurl.symm))))
    · obtain ⟨j, e3, hj, _⟩ := hx
      rw [hws] at hj
      obtain ⟨_, he3⟩ := get?_singleton hj
      have he4 : WStatus.extracting e3 = WStatus.fetching e := he3.trans hwe.symm
      exact absurd he4 (by simp)
    · exact Or.inr (Or.inr (Or.inr (Or.inr (Or.inr hx))))

theorem sInv_fail (cfg : Config) (s : CState) (i : Nat) (e : Entry)
    (re : List (String × RedirectRecord)) (c : Nat) (err : String)
    (h : SInv cfg s) (hw : s.workers.get? i = some (WStatus.fetching e))
    (hge : cfg.maxRetries ≤ e.retries) :
    SInv cfg { s with redirectedExternal := re,
                      stats := { s.stats with
                        redirectsExternal := c,
                        errors := s.stats.errors ++ [(e.url, err)] },
                      failed := addSet s.failed e.url,
                      activeWorkers := s.activeWorkers - 1,
                      workers := s.workers.set i WStatus.idle } := by
  obtain ⟨w, hws⟩ := h.wone
  rw [hws] at hw
  obtain ⟨hi, hwe⟩ := get?_singleton hw
  subst hi
  have hw0 : s.workers.get? 0 = some (WStatus.fetching e) := by
    rw [hws, ← hwe]
    rfl
  obtain ⟨hv, hf, hp, hcnt, hr, hd⟩ := h.fet 0 e hw0
  have hworkers : s.workers.set 0 WStatus.idle = [WStatus.idle] := by
    rw [hws]
    rfl
  have hreq : e.retries = cfg.maxRetries := Nat.le_antisymm hr hge
  refine
    { wone := ⟨WStatus.idle, hworkers⟩
      qle := h.qle
      pnd := h.pnd
      disj := ?_
      pV := h.pV
      pF := ?_
      und := h.und
      up := h.up
      pu := h.pu
      cu := h.cu
      fet := ?_
      ex := ?_
      cf := ?_
      c0 := ?_
      cl := ?_
      sc := h.sc
      sv := h.sv }
  · show ∀ u ∈ s.visited, u ∉ addSet s.failed e.url
    intro u hu hmem
    rcases mem_addSet.mp hmem with hm | hm
    · exact h.disj u hu hm
    · rw [hm] at hu
      exact hv hu
  · show ∀ u ∈ s.pending, u ∉ addSet s.failed e.url
    intro u hu hmem
    rcases mem_addSet.mp hmem with hm | hm
    · exact h.pF u hu hm
    · rw [hm] at hu
      exact hp hu
  · intro j e2 hj
    have hj2 : (s.workers.set 0 WStatus.idle).get? j
        = some (WStatus.fetching e2) := hj
    rw [hworkers] at hj2
    obtain ⟨_, hc⟩ := get?_singleton hj2
    exact absurd hc (by simp)
  · intro j e2 hj
    have hj2 : (s.workers.set 0 WStatus.idle).get? j
        = some (WStatus.extracting e2) := hj
    rw [hworkers] at hj2
    obtain ⟨_, hc⟩ := get?_singleton hj2
    exact absurd hc (by simp)
  · show ∀ u ∈ addSet s.failed e.url,
      countAttempts s u = cfg.maxRetries + 1
    intro u hu
    rcases mem_addSet.mp hu with hu2 | hu2
    · exact h.cf u hu2
    · rw [hu2, hcnt, hreq]
  · show ∀ u, u ∉ s.visited → u ∉ addSet s.failed e.url → u ∉ s.pending →
      (∀ j e2, (s.workers.set 0 WStatus.idle).get? j
        = some (WStatus.fetching e2) → e2.url ≠ u) →
      countAttempts s u = 0
    intro u h1 h2 h3 _
    have hne : e.url ≠ u := fun hequ =>
      h2 (mem_addSet.mpr (Or.inr hequ.symm))
    refine h.c0 u h1 (fun hm => h2 (mem_addSet.mpr (Or.inl hm))) h3 ?_
    intro j e2 hj
    rw [hws] at hj
    obtain ⟨_, he2⟩ := get?_singleton hj
    have he3 : WStatus.fetching e2 = WStatus.fetching e := he2.trans hwe.symm
    injection he3 with he4
    rw [he4]
    exact hne
  · show ∀ e2 ∈ s.toVisit.take s.queueIndex,
      e2.url ∈ s.visited ∨ e2.url ∈ addSet s.failed e.url ∨ e2.url ∈ s.pending ∨
      (∃ j e3, (s.workers.set 0 WStatus.idle).get? j
        = some (WStatus.fetching e3) ∧ e3.url = e2.url) ∨
      (∃ j e3, (s.workers.set 0 WStatus.idle).get? j
        = some (WStatus.extracting e3) ∧ e3.url = e2.url) ∨
      e2.url ∈ s.droppedDeep.map Entry.url
    intro e2 he2
    rcases h.cl e2 he2 with hx | hx | hx | hx | hx | hx
    · exact Or.inl hx
    · exact Or.inr (Or.inl (mem_addSet.mpr (Or.inl hx)))
    · exact Or.inr (Or.inr (Or.inl hx))
    · obtain ⟨j, e3, hj, hurl⟩ := hx
      rw [hws] at hj
      obtain ⟨_, he3⟩ := get?_singleton hj
      have he4 : WStatus.fetching e3 = WStatus.fetching e := he3.trans hwe.symm
      injection he4 with he5
      rw [he5] at hurl
      exact Or.inr (Or.inl (mem_addSet.mpr (Or.inr hurl.symm)))
    · obtain ⟨j, e3, hj, _⟩ := hx
      rw [hws] at hj
      obtain ⟨_, he3⟩ := get?_singleton hj
      have he4 : WStatus.extracting e3 = WStatus.fetching e := he3.trans hwe.symm
      exact absurd he4 (by simp)
    · exact Or.inr (Or.inr (Or.inr (Or.inr (Or.inr hx))))

theorem sInv_finishSame (cfg : Config) (s : CState) (i : Nat)
    (h : SInv cfg s) : SInv cfg (finishSameStep s i) := by
  rcases finishSameStep_spec s i with heq | ⟨e, hw, heq⟩
  · rw [heq]
    exact h
  · rw [heq]
    exact sInv_markVisited cfg s i e h hw

theorem sInv_finishExternal (cfg : Config) (s : CState) (i : Nat)
    (finalUrl : String) (chain : List String) (h : SInv cfg s) :
    SInv cfg (finishExternalStep s i finalUrl chain) := by
  rcases finishExternalStep_spec s i finalUrl chain with heq | ⟨e, re, c, hw, heq⟩
  · rw [heq]
    exact h
  · rw [heq]
    exact sInv_extVisit cfg s i e re c h hw

theorem sInv_finishFail (cfg : Config) (s : CState) (i : Nat) (err : String)
    (nav : Option (String × String × List String)) (h : SInv cfg s) :
    SInv cfg (finishFailStep cfg s i err nav) := by
  rcases finishFailStep_spec cfg s i err nav with heq | ⟨e, re, c, hw, heq⟩
    | ⟨e, re, c, hw, hlt, heq⟩ | ⟨e, re, c, hw, hge, heq⟩
  · rw [heq]
    exact h
  · rw [heq]
    exact sInv_extVisit cfg s i e re c h hw
  · rw [heq]
    exact sInv_retry cfg s i e re c h hw hlt
  · rw [heq]
    exact sInv_fail cfg s i e re c err h hw hge

/-- Releasing a worker to idle while fixing up the link statistics (the
tail of `extractedStep`) preserves the sequential invariant. -/
theorem sInv_finishIdle (cfg : Config) (T : CState) (i : Nat) (lf lt2 : Nat)
    (hT : SInv cfg T)
    (hnf : ∀ j e2, T.workers.get? j ≠ some (WStatus.fetching e2)) :
    SInv cfg { T with
      stats := { T.stats with linksFound := lf, linksTruncated := lt2 }
      activeWorkers := T.activeWorkers - 1
      workers := T.workers.set i WStatus.idle } := by
  obtain ⟨w, hws⟩ := hT.wone
  have hset : T.workers.set i WStatus.idle = [WStatus.idle]
      ∨ T.workers.set i WStatus.idle = T.workers := by
    cases i with
    | zero =>
      left
      rw [hws]
      rfl
    | succ n =>
      right
      rw [hws]
      rfl
  refine
    { wone := ?_
      qle := hT.qle
      pnd := hT.pnd
      disj := hT.disj
      pV := hT.pV
      pF := hT.pF
      und := hT.und
      up := hT.up
      pu := hT.pu
      cu := hT.cu
      fet := ?_
      ex := ?_
      cf := hT.cf
      c0 := ?_
      cl := ?_
      sc := hT.sc
      sv := hT.sv }
  · rcases hset with hs2 | hs2
    · exact ⟨WStatus.idle, hs2⟩
    · exact ⟨w, by rw [hs2, hws]⟩
  · intro j e2 hj
    have hj2 : (T.workers.set i WStatus.idle).get? j
        = some (WStatus.fetching e2) := hj
    rcases hset with hs2 | hs2
    · rw [hs2] at hj2
      obtain ⟨_, hc⟩ := get?_singleton hj2
      exact absurd hc (by simp)
    · rw [hs2] at hj2
      exact absurd hj2 (hnf j e2)
  · intro j e2 hj
    have hj2 : (T.workers.set i WStatus.idle).get? j
        = some (WStatus.extracting e2) := hj
    rcases hset with hs2 | hs2
    · rw [hs2] at hj2
      obtain ⟨_, hc⟩ := get?_singleton hj2
      exact absurd hc (by simp)
    · rw [hs2] at hj2
      exact hT.ex j e2 hj2
  · show ∀ u, u ∉ T.visited → u ∉ T.failed → u ∉ T.pending →
      (∀ j e2, (T.workers.set i WStatus.idle).get? j
        = some (WStatus.fetching e2) → e2.url ≠ u) →
      countAttempts T u = 0
    intro u h1 h2 h3 _
    exact hT.c0 u h1 h2 h3 (fun j e2 hj => absurd hj (hnf j e2))
  · show ∀ e2 ∈ T.toVisit.take T.queueIndex,
      e2.url ∈ T.visited ∨ e2.url ∈ T.failed ∨ e2.url ∈ T.pending ∨
      (∃ j e3, (T.workers.set i WStatus.idle).get? j
        = some (WStatus.fetching e3) ∧ e3.url = e2.url) ∨
      (∃ j e3, (T.workers.set i WStatus.idle).get? j
        = some (WStatus.extracting e3) ∧ e3.url = e2.url) ∨
      e2.url ∈ T.droppedDeep.map Entry.url
    intro e2 he2
    rcases hT.cl e2 he2 with hx | hx | hx | hx | hx | hx
    · exact Or.inl hx
    · exact Or.inr (Or.inl hx)
    · exact Or.inr (Or.inr (Or.inl hx))
    · obtain ⟨j, e3, hj, _⟩ := hx
      exact absurd hj (hnf j e3)
    · obtain ⟨j, e3, hj, hurl⟩ := hx
      exact Or.inl (hurl ▸ hT.ex j e3 hj)
    · exact Or.inr (Or.inr (Or.inr (Or.inr (Or.inr hx))))

theorem sInv_extracted (cfg : Config) (s : CState) (i : Nat)
    (uniq : List String) (h : SInv cfg s) :
    SInv cfg (extractedStep cfg s i uniq) := by
  rcases extractedStep_spec cfg s i uniq with heq | ⟨e, hw, heq⟩
  · rw [heq]
    exact h
  · rw [heq]
    obtain ⟨w, hws⟩ := h.wone
    rw [hws] at hw
    obtain ⟨hi, hwe⟩ := get?_singleton hw
    subst hi
    have hnf : ∀ j e2, s.workers.get? j ≠ some (WStatus.fetching e2) := by
      intro j e2 hj
      rw [hws] at hj
      obtain ⟨_, hc⟩ := get?_singleton hj
      rw [← hwe] at hc
      exact absurd hc (by simp)
    obtain ⟨hT, hTw⟩ := sInv_foldl cfg (e.depth + 1)
      (uniq.take cfg.maxLinksPerPage) s h hnf
    have hTnf : ∀ j e2,
        ((uniq.take cfg.maxLinksPerPage).foldl (enqueueLink (e.depth + 1))
          s).workers.get? j ≠ some (WStatus.fetching e2) := by
      intro j e2 hj
      rw [hTw] at hj
      exact hnf j e2 hj
    exact sInv_finishIdle cfg
      ((uniq.take cfg.maxLinksPerPage).foldl (enqueueLink (e.depth + 1)) s) 0
      (((uniq.take cfg.maxLinksPerPage).foldl (enqueueLink (e.depth + 1))
          s).stats.linksFound + (uniq.take cfg.maxLinksPerPage).length)
      (((uniq.take cfg.maxLinksPerPage).foldl (enqueueLink (e.depth + 1))
          s).stats.linksTruncated
        + (if uniq.length > cfg.maxLinksPerPage
           then uniq.length - (uniq.take cfg.maxLinksPerPage).length else 0))
      hT hTnf

theorem sInv_interrupt (cfg : Config) (s : CState) (h : SInv cfg s) :
    SInv cfg (interruptStep s) := by
  unfold interruptStep
  split_ifs
  · exact ⟨h.wone, h.qle, h.pnd, h.disj, h.pV, h.pF, h.und, h.up, h.pu, h.cu,
      h.fet, h.ex, h.cf, h.c0, h.cl, h.sc, h.sv⟩
  · exact ⟨h.wone, h.qle, h.pnd, h.disj, h.pV, h.pF, h.und, h.up, h.pu, h.cu,
      h.fet, h.ex, h.cf, h.c0, h.cl, h.sc, h.sv⟩

theorem sInv_step (cfg : Config) (s : CState) (c : Choice)
    (h : SInv cfg s) : SInv cfg (step cfg s c) := by
  cases c with
  | loop i =>
    simp only [step]
    split_ifs
    · exact h
    · exact sInv_loop cfg s i h
  | finishSame i =>
    simp only [step]
    split_ifs
    · exact h
    · exact sInv_finishSame cfg s i h
  | finishExternal i finalUrl chain =>
    simp only [step]
    split_ifs
    · exact h
    · exact sInv_finishExternal cfg s i finalUrl chain h
  | finishFail i err nav =>
    simp only [step]
    split_ifs
    · exact h
    · exact sInv_finishFail cfg s i err nav h
  | extracted i uniq =>
    simp only [step]
    split_ifs
    · exact h
    · exact sInv_extracted cfg s i uniq h
  | interrupt =>
    simp only [step]
    split_ifs
    · exact h
    · exact sInv_interrupt cfg s h

theorem sInv_init (cfg : Config) (h1 : cfg.concurrency = 1) :
    SInv cfg (init cfg) := by
  refine
    { wone := ⟨WStatus.idle, ?_⟩
      qle := Nat.zero_le _
      pnd := List.nodup_singleton _
      disj := fun u hu => absurd hu (List.not_mem_nil u)
      pV := fun u _ hv => absurd hv (List.not_mem_nil u)
      pF := fun u _ hf => absurd hf (List.not_mem_nil u)
      und := ?_
      up := ?_
      pu := ?_
      cu := ?_
      fet := ?_
      ex := ?_
      cf := fun u hu => absurd hu (List.not_mem_nil u)
      c0 := fun u _ _ _ _ => rfl
      cl := fun e2 he2 => absurd he2 (List.not_mem_nil e2)
      sc := rfl
      sv := fun u hu => absurd hu (List.not_mem_nil u) }
  · show List.replicate cfg.concurrency WStatus.idle = [WStatus.idle]
    rw [h1]
    rfl
  · show (([(⟨normalizeUrl cfg.baseUrl, 0, 0⟩ : Entry)]).map Entry.url).Nodup
    simp
  · show ∀ e2 ∈ [(⟨normalizeUrl cfg.baseUrl, 0, 0⟩ : Entry)],
      e2.url ∈ [normalizeUrl cfg.baseUrl]
    intro e2 he2
    rw [List.mem_singleton.mp he2]
    exact List.mem_singleton.mpr rfl
  · show ∀ u ∈ [normalizeUrl cfg.baseUrl],
      ∃ e2 ∈ [(⟨normalizeUrl cfg.baseUrl, 0, 0⟩ : Entry)], e2.url = u
    intro u hu
    exact ⟨⟨normalizeUrl cfg.baseUrl, 0, 0⟩, List.mem_singleton.mpr rfl,
      (List.mem_singleton.mp hu).symm⟩
  · show ∀ e2 ∈ [(⟨normalizeUrl cfg.baseUrl, 0, 0⟩ : Entry)],
      countAttempts (init cfg) e2.url = e2.retries ∧
        e2.retries ≤ cfg.maxRetries ∧
        (e2.retries ≠ 0 → e2.depth ≤ cfg.maxDepth)
    intro e2 he2
    rw [List.mem_singleton.mp he2]
    exact ⟨rfl, Nat.zero_le _, fun h0 => absurd rfl h0⟩
  · intro j e2 hj
    have hj2 : (List.replicate cfg.concurrency WStatus.idle).get? j
        = some (WStatus.fetching e2) := hj
    rw [h1] at hj2
    obtain ⟨_, hc⟩ := get?_singleton hj2
    exact absurd hc (by simp)
  · intro j e2 hj
    have hj2 : (List.replicate cfg.concurrency WStatus.idle).get? j
        = some (WStatus.extracting e2) := hj
    rw [h1] at hj2
    obtain ⟨_, hc⟩ := get?_singleton hj2
    exact absurd hc (by simp)

/-- With one worker the sequential invariant holds in every reachable
state. -/
theorem sInv_run (cfg : Config) (h1 : cfg.concurrency = 1)
    (cs : List Choice) : SInv cfg (run cfg cs) :=
  foldl_inv cfg (fun s c hs => sInv_step cfg s c hs) cs (init cfg)
    (sInv_init cfg h1)

/-! ### Amended statements of C1, C5 and C10 (sequential crawls) -/

/-- C1 (amended): under `concurrency = 1` — with concurrent workers the
claim fails, see the counterexample — the visited and failed sets are
disjoint at every reachable state; no still-queued (abandoned-to-be) URL
is in either terminal set; and once every worker has returned, every URL
ever enqueued into the frontier is visited, failed, abandoned
(still queued past `queueIndex`), or was discarded by the depth check
(the depth-discard case is the claim's other flaw, see C6). -/
theorem claim_C1_amended (cfg : Config) (h1 : cfg.concurrency = 1)
    (cs : List Choice) :
    (∀ u ∈ (run cfg cs).visited, u ∉ (run cfg cs).failed) ∧
    (∀ u ∈ ((run cfg cs).toVisit.drop (run cfg cs).queueIndex).map Entry.url,
      u ∉ (run cfg cs).visited ∧ u ∉ (run cfg cs).failed) ∧
    (allDone (run cfg cs) = true →
      ∀ e ∈ (run cfg cs).toVisit,
        e.url ∈ (run cfg cs).visited ∨ e.url ∈ (run cfg cs).failed ∨
        e.url ∈ ((run cfg cs).toVisit.drop (run cfg cs).queueIndex).map
          Entry.url ∨
        e.url ∈ (run cfg cs).droppedDeep.map Entry.url) := by
  have h := sInv_run cfg h1 cs
  refine ⟨h.disj, ?_, ?_⟩
  · intro u hu
    obtain ⟨e2, he2, hurl⟩ := List.mem_map.mp hu
    have hp := h.up e2 he2
    rw [hurl] at hp
    exact ⟨h.pV u hp, h.pF u hp⟩
  · intro hdone e he
    have hdone2 : ((run cfg cs).workers.all fun w => w == WStatus.done)
        = true := hdone
    rw [← List.take_append_drop (run cfg cs).queueIndex
      (run cfg cs).toVisit] at he
    rcases List.mem_append.mp he with he2 | he2
    · rcases h.cl e he2 with hx | hx | hx | hx | hx | hx
      · exact Or.inl hx
      · exact Or.inr (Or.inl hx)
      · obtain ⟨e2, he3, hurl⟩ := h.pu e.url hx
        exact Or.inr (Or.inr (Or.inl (hurl ▸ List.mem_map_of_mem _ he3)))
      · obtain ⟨j, e3, hj, _⟩ := hx
        have hmem := List.get?_mem hj
        have := List.all_eq_true.mp hdone2 _ hmem
        simp at this
      · obtain ⟨j, e3, hj, _⟩ := hx
        have hmem := List.get?_mem hj
        have := List.all_eq_true.mp hdone2 _ hmem
        simp at this
      · exact Or.inr (Or.inr (Or.inr hx))
    · exact Or.inr (Or.inr (Or.inl (List.mem_map_of_mem _ he2)))

/-- A single-worker crawl whose only frontier entry fails, retries once
and then fails terminally (`maxRetries = 1`). -/
def cfgSeq : Config := ⟨"https://a.com/", 10, 10, 5, 1, 1⟩

def traceC5 : List Choice :=
  [Choice.loop 0, Choice.finishFail 0 "net::ERR_FAILED" none,
   Choice.loop 0, Choice.finishFail 0 "net::ERR_FAILED" none, Choice.loop 0]

/-- A single-worker crawl whose seed redirects to an external origin:
it is marked visited but never counted in `crawlStats.pagesScanned`. -/
def traceC10 : List Choice :=
  [Choice.loop 0,
   Choice.finishExternal 0 "https://other.test/x" ["https://a.com/"],
   Choice.loop 0]

/-- Witness for C1 (amended) on a concrete completed single-worker run:
the seed is visited and not failed, and the depth-dropped link sits in
`droppedDeep`. -/
theorem claim_C1_witness :
    "https://a.com/" ∈ (run cfgDepth traceDepth).visited ∧
    "https://a.com/" ∉ (run cfgDepth traceDepth).failed ∧
    allDone (run cfgDepth traceDepth) = true ∧
    "https://a.com/b" ∈ (run cfgDepth traceDepth).droppedDeep.map Entry.url := by
  have h := claim_C1_amended cfgDepth rfl traceDepth
  exact ⟨by decide, h.1 "https://a.com/" (by decide), by decide, by decide⟩

theorem finishFailStep_retry (cfg : Config) (s : CState) (i : Nat)
    (err : String) (nav : Option (String × String × List String)) (e : Entry)
    (hw : s.workers.get? i = some (WStatus.fetching e))
    (hk : hasKey (navRecordStep s nav).redirectedExternal e.url = false)
    (hlt : e.retries < cfg.maxRetries) :
    finishFailStep cfg s i err nav
      = { navRecordStep s nav with
          toVisit := (navRecordStep s nav).toVisit
            ++ [⟨e.url, e.depth, e.retries + 1⟩],
          pending := addSet (navRecordStep s nav).pending e.url,
          activeWorkers := (navRecordStep s nav).activeWorkers - 1,
          workers := (navRecordStep s nav).workers.set i WStatus.idle } := by
  unfold finishFailStep
  rw [hw]
  simp only [hk, Bool.false_eq_true, if_false, hlt, if_true]

theorem finishFailStep_terminal (cfg : Config) (s : CState) (i : Nat)
    (err : String) (nav : Option (String × String × List String)) (e : Entry)
    (hw : s.workers.get? i = some (WStatus.fetching e))
    (hk : hasKey (navRecordStep s nav).redirectedExternal e.url = false)
    (hge : cfg.maxRetries ≤ e.retries) :
    finishFailStep cfg s i err nav
      = { navRecordStep s nav with
          failed := addSet (navRecordStep s nav).failed e.url,
          stats := { (navRecordStep s nav).stats with
            errors := (navRecordStep s nav).stats.errors ++ [(e.url, err)] },
          activeWorkers := (navRecordStep s nav).activeWorkers - 1,
          workers := (navRecordStep s nav).workers.set i WStatus.idle } := by
  have hnlt : ¬(e.retries < cfg.maxRetries) := Nat.not_lt.mpr hge
  unfold finishFailStep
  rw [hw]
  simp only [hk, Bool.false_eq_true, if_false, hnlt]

/-- C5 (amended): under `concurrency = 1` — concurrently the claim fails,
see the counterexample — a URL is in `failed` only with exactly
`maxRetries + 1` logged fetch attempts; and a failed attempt that was not
an external redirect re-enqueues the same URL at the same depth with
`retries + 1` when `retries < maxRetries`, and otherwise records the URL
as terminally failed together with its error message. -/
theorem claim_C5_amended (cfg : Config) (h1 : cfg.concurrency = 1)
    (cs : List Choice) :
    (∀ u ∈ (run cfg cs).failed,
      countAttempts (run cfg cs) u = cfg.maxRetries + 1) ∧
    (∀ i e err nav,
      (run cfg cs).workers.get? i = some (WStatus.fetching e) →
      (run cfg cs).forced = false →
      hasKey (navRecordStep (run cfg cs) nav).redirectedExternal e.url
        = false →
      (e.retries < cfg.maxRetries →
        (step cfg (run cfg cs) (Choice.finishFail i err nav)).toVisit
          = (run cfg cs).toVisit ++ [⟨e.url, e.depth, e.retries + 1⟩] ∧
        (step cfg (run cfg cs) (Choice.finishFail i err nav)).failed
          = (run cfg cs).failed) ∧
      (cfg.maxRetries ≤ e.retries →
        (step cfg (run cfg cs) (Choice.finishFail i err nav)).failed
          = addSet (run cfg cs).failed e.url ∧
        (step cfg (run cfg cs) (Choice.finishFail i err nav)).stats.errors
          = (run cfg cs).stats.errors ++ [(e.url, err)])) := by
  have h := sInv_run cfg h1 cs
  refine ⟨h.cf, ?_⟩
  intro i e err nav hw hf hk
  have hstep : step cfg (run cfg cs) (Choice.finishFail i err nav)
      = finishFailStep cfg (run cfg cs) i err nav := by
    simp only [step, hf, Bool.false_eq_true, if_false]
  obtain ⟨re, c, hre⟩ := navRecordStep_eq (run cfg cs) nav
  constructor
  · intro hlt
    rw [hstep, finishFailStep_retry cfg (run cfg cs) i err nav e hw hk hlt, hre]
    exact ⟨rfl, rfl⟩
  · intro hge
    rw [hstep,
      finishFailStep_terminal cfg (run cfg cs) i err nav e hw hk hge, hre]
    exact ⟨rfl, rfl⟩

/-- Witness for C5 (amended): with `maxRetries = 1` the seed fails
terminally after exactly two logged attempts. -/
theorem claim_C5_witness :
    countAttempts (run cfgSeq traceC5) "https://a.com/" = 2 ∧
    "https://a.com/" ∈ (run cfgSeq traceC5).failed := by
  have h := claim_C5_amended cfgSeq rfl traceC5
  exact ⟨h.1 "https://a.com/" (by decide), by decide⟩

/-- C10 (amended): in a completed single-worker crawl — concurrently the
counter can even exceed the list length, see the counterexample — the
result's `crawlStats.pagesScanned` counter plus the number of visited
URLs that were externally-redirected equals the length of the result's
`pagesScanned` list; hence the counter never exceeds the list length and
is strictly below it whenever some visited URL redirected to an external
origin. -/
theorem claim_C10_amended (cfg : Config) (h1 : cfg.concurrency = 1)
    (cs : List Choice) (r : CrawlResult)
    (hr : crawlResult (run cfg cs) = some r) :
    r.crawlStats.pagesScanned + (run cfg cs).visitedExt.length
      = r.pagesScanned.length ∧
    r.crawlStats.pagesScanned ≤ r.pagesScanned.length ∧
    ((run cfg cs).visitedExt ≠ [] →
      r.crawlStats.pagesScanned < r.pagesScanned.length) ∧
    (∀ u ∈ (run cfg cs).visitedExt, u ∈ r.pagesScanned) := by
  have h := sInv_run cfg h1 cs
  obtain ⟨_, hps, _, _, hst⟩ := crawlResult_spec hr
  have hsc := h.sc
  refine ⟨?_, ?_, ?_, ?_⟩
  · rw [hps, hst]
    exact hsc
  · rw [hps, hst]
    omega
  · intro hne
    have hpos : 0 < (run cfg cs).visitedExt.length := List.length_pos.mpr hne
    rw [hps, hst]
    omega
  · intro u hu
    rw [hps]
    exact h.sv u hu

def rC10 : CrawlResult :=
  ⟨false, ["https://a.com/"], [], [],
   [⟨"https://a.com/", "https://other.test/x",
     ["https://a.com/", "https://other.test/x"],
     "redirected-to-external-origin"⟩],
   ⟨0, 0, 0, 0, 1, []⟩⟩

/-- Witness for C10 (amended) on a completed run whose seed redirected
externally: the counter (0) is strictly below the visited count (1). -/
theorem claim_C10_witness :
    (run cfgSeq traceC10).visitedExt ≠ [] ∧
    rC10.crawlStats.pagesScanned < rC10.pagesScanned.length := by
  have h := claim_C10_amended cfgSeq rfl traceC10 rC10 (by decide)
  exact ⟨by decide, h.2.2.1 (by decide)⟩

end Crawler
